import Mathlib

/-!
Similarity engine of the plagiarism checker (`src/main.go`).

A shallow embedding of the comparators and of the normalizer of `main.go`,
followed by the theorems that settle the specification's claims.

Modelling conventions.

* A Go `string` is modelled as the list of its Unicode code points
  (`GoString = List Char`), i.e. the text is taken to be valid UTF-8.
* A Go `[]string` is a `List GoString`; a Go `map[string]V` is a `GoMap V`,
  an association list whose keys are pairwise distinct.
* A Go `int` is an `Int` (the code only compares the counters).
* A `float64` score is modelled by the exact rational number that the
  source expression denotes; every score of the program is computed as
  `(matches / total) * 100` from small non-negative counters.
-/

namespace PlagiarismCheck

/-- A Go string, as the list of its code points. -/
abbrev GoString := List Char

/-! ## The Go standard library functions used by the program -/

/-- Go `strings.Split(s, sep)` for a separator `sep` that is one character long
(the program splits on `" "` and on `"\n"`): the pieces between the separators,
empty pieces included; a text without separator gives one piece. -/
def Split (sep : Char) : GoString → List GoString
  | [] => [[]]
  | c :: cs =>
    if c = sep then [] :: Split sep cs
    else
      match Split sep cs with
      | [] => [[c]]
      | p :: ps => (c :: p) :: ps

/-- Go `strings.Join(elems, sep)`. -/
def Join (sep : GoString) : List GoString → GoString
  | [] => []
  | [a] => a
  | a :: b :: rest => a ++ sep ++ Join sep (b :: rest)

/-- Go `unicode.IsSpace`: the Unicode White_Space property, namely
`'\t'`, `'\n'`, `'\v'`, `'\f'`, `'\r'`, `' '`, U+0085, U+00A0 in Latin-1 and
U+1680, U+2000 to U+200A, U+2028, U+2029, U+202F, U+205F, U+3000 above it. -/
def isSpace (r : Char) : Bool :=
  let n := r.toNat
  (9 ≤ n && n ≤ 13) || n == 0x20 || n == 0x85 || n == 0xA0 || n == 0x1680 ||
    (0x2000 ≤ n && n ≤ 0x200A) || n == 0x2028 || n == 0x2029 || n == 0x202F ||
    n == 0x205F || n == 0x3000

/-- Removes the leading white space of a text. -/
def trimLeft : GoString → GoString
  | [] => []
  | c :: cs => if isSpace c then trimLeft cs else c :: cs

/-- Go `strings.TrimSpace`: the text without its leading and trailing white space. -/
def TrimSpace (s : GoString) : GoString :=
  (trimLeft (trimLeft s).reverse).reverse

/-- Go `strings.Fields`: the maximal runs of non-space characters, in order. -/
def Fields : GoString → List GoString
  | [] => []
  | c :: cs =>
    if isSpace c then Fields cs
    else
      match cs with
      | [] => [[c]]
      | d :: _ =>
        if isSpace d then [c] :: Fields cs
        else
          match Fields cs with
          | [] => [[c]]
          | f :: fs => (c :: f) :: fs

/-- Go `unicode.ToLower`: an ASCII capital letter is moved to its small letter,
any other ASCII character is kept, and a character above ASCII is looked up in the
case table of the `unicode` package, which is the parameter `lowerTable`. -/
def toLowerRune (lowerTable : Char → Char) (r : Char) : Char :=
  if r.toNat ≤ 0x7F then
    if 'A'.toNat ≤ r.toNat ∧ r.toNat ≤ 'Z'.toNat then Char.ofNat (r.toNat + 32) else r
  else lowerTable r

/-- Go `strings.ToLower`: every code point is mapped by `unicode.ToLower`. -/
def ToLower (lowerTable : Char → Char) (s : GoString) : GoString :=
  s.map (toLowerRune lowerTable)

/-- Go `strings.HasPrefix`. -/
def startsWith (s pre : GoString) : Bool := pre.isPrefixOf s

/-- Go `strings.HasSuffix`. -/
def endsWith (s suf : GoString) : Bool := suf.reverse.isPrefixOf s.reverse

/-- The scanner behind `regexp.MustCompile(q[^q]*q).ReplaceAllString(code, qq)` for a
quote character `q`. A match of the pattern starts at a quote and ends at the next
quote; matches are taken leftmost first and do not overlap. Outside a match a
character is copied; a quote that has a later quote opens a match and is copied;
inside the match every character is dropped until the closing quote, which is
copied. A quote with no later quote opens nothing, and the rest of the text is
copied unchanged. -/
def replaceQuotedFrom (q : Char) : Bool → GoString → GoString
  | _, [] => []
  | true, c :: cs =>
    if c = q then q :: replaceQuotedFrom q false cs else replaceQuotedFrom q true cs
  | false, c :: cs =>
    if c = q then
      if q ∈ cs then q :: replaceQuotedFrom q true cs else c :: cs
    else c :: replaceQuotedFrom q false cs

/-- The replacement of every quoted stretch `q ... q` of a text by `qq`. -/
def replaceQuoted (q : Char) (code : GoString) : GoString :=
  replaceQuotedFrom q false code

/-- A Go `map[string]V`: the entries, with pairwise distinct keys. -/
structure GoMap (V : Type) where
  entries : List (GoString × V)
  nodup : (entries.map Prod.fst).Nodup

/-- The empty (or nil) map. -/
def GoMap.empty {V : Type} : GoMap V := ⟨[], List.nodup_nil⟩

/-- The map index expression `v, exists := m[key]`. -/
def GoMap.get? {V : Type} (m : GoMap V) (key : GoString) : Option V :=
  (m.entries.find? (fun e => decide (e.1 = key))).map Prod.snd

/-- Go `len(m)`. -/
def GoMap.len {V : Type} (m : GoMap V) : Nat := m.entries.length

/-! ## Data model (`main.go`, lines 14 to 89) -/

/-- The `Identifiers` struct. -/
structure Identifiers where
  Variables : List GoString
  Functions : List GoString
  Classes : List GoString
  Interfaces : List GoString
  Constants : List GoString

/-- The `ControlFlow` struct. -/
structure ControlFlow where
  IfCount : Int
  ForCount : Int
  WhileCount : Int
  SwitchCount : Int
  MaxNesting : Int
  ControlPattern : GoString

/-- The `FunctionAnalysis` struct. -/
structure FunctionAnalysis where
  ParamCount : GoMap Int
  ReturnTypes : GoMap GoString
  FunctionSizes : GoMap Int
  DeclareOrder : List GoString

/-- The `ImportAnalysis` struct. -/
structure ImportAnalysis where
  ImportList : List GoString
  ImportOrder : GoString
  UsagePatterns : GoMap GoString

/-- The `FormatAnalysis` struct. -/
structure FormatAnalysis where
  IndentStyle : GoString
  SpacingPattern : GoString
  LineBreaks : GoString

/-- The `TokenAnalysis` struct. -/
structure TokenAnalysis where
  OperatorSequence : GoString
  TokenPatterns : List GoString

/-- The `Project` struct: one analysed source file. -/
structure Project where
  Name : GoString
  Content : GoString
  Comments : GoString
  Identifiers : Identifiers
  ControlFlow : ControlFlow
  Functions : FunctionAnalysis
  Imports : ImportAnalysis
  Formatting : FormatAnalysis
  Tokens : TokenAnalysis
  FilePath : GoString
  Language : GoString

/-- The `ComparisonResult` struct. -/
structure ComparisonResult where
  Project1 : GoString
  Project2 : GoString
  Similarity : ℚ
  CommentSimilarity : ℚ
  IdentifierSimilarity : ℚ
  ControlFlowSimilarity : ℚ
  FunctionSimilarity : ℚ
  ImportSimilarity : ℚ
  FormatSimilarity : ℚ
  TokenSimilarity : ℚ
  Language : GoString

/-! ## Comparators -/

/-- The inner loop of `compareTexts` (lines 651 to 656): does some piece of the
second text equal `token`? The loop stops at the first equal piece. -/
def tokenFound (token : GoString) : List GoString → Bool
  | [] => false
  | token2 :: rest => if token = token2 then true else tokenFound token rest

/-- The outer loop of `compareTexts` (lines 647 to 657): the final value of
`matches`. An empty piece of the first text is skipped; any other piece adds one
when the inner loop finds it among the pieces `s2`. -/
def countMatches (s2 : List GoString) : List GoString → Nat
  | [] => 0
  | token :: rest =>
    if token = [] then countMatches s2 rest
    else if tokenFound token s2 then countMatches s2 rest + 1
    else countMatches s2 rest

/-- The function `compareTexts` (lines 640 to 664). -/
def compareTexts (text1 text2 : GoString) : ℚ :=
  let s1 := Split ' ' text1
  let s2 := Split ' ' text2
  let mtch := countMatches s2 s1
  let totalTokens := s1.length
  if totalTokens = 0 then 0 else (mtch : ℚ) / (totalTokens : ℚ) * 100

/-- The function `findCommonElements` (lines 414 to 429): `seen` holds the items
of `slice1`, and the result collects, in order, the items of `slice2` that
are in `seen`. -/
def findCommonElements (slice1 slice2 : List GoString) : List GoString :=
  let seen : GoString → Bool := fun item => decide (item ∈ slice1)
  slice2.filter seen

/-- The counter `matches` of `compareIdentifiers` before the final division. -/
def identifierMatches (ids1 ids2 : Identifiers) : Nat :=
  (findCommonElements ids1.Variables ids2.Variables).length +
  (findCommonElements ids1.Functions ids2.Functions).length +
  (findCommonElements ids1.Classes ids2.Classes).length +
  (findCommonElements ids1.Interfaces ids2.Interfaces).length +
  (findCommonElements ids1.Constants ids2.Constants).length

/-- The counter `total` of `compareIdentifiers` before the final division. -/
def identifierTotal (ids1 : Identifiers) : Nat :=
  ids1.Variables.length + ids1.Functions.length + ids1.Classes.length +
  ids1.Interfaces.length + ids1.Constants.length

/-- The function `compareIdentifiers` (lines 383 to 411). -/
def compareIdentifiers (ids1 ids2 : Identifiers) : ℚ :=
  let mtch := identifierMatches ids1 ids2
  let total := identifierTotal ids1
  if total = 0 then 0 else ((mtch : ℚ) / (total : ℚ)) * 100

/-- One point when the two values are equal (the pattern
`if a == b { matches++ }`), weighted by `w`. -/
def points {α : Type} [DecidableEq α] (w : Nat) (a b : α) : Nat :=
  if a = b then w else 0

/-- The function `compareControlFlow` (lines 565 to 603). -/
def compareControlFlow (cf1 cf2 : ControlFlow) : ℚ :=
  let mtch := points 1 cf1.IfCount cf2.IfCount + points 1 cf1.ForCount cf2.ForCount +
    points 1 cf1.WhileCount cf2.WhileCount + points 1 cf1.SwitchCount cf2.SwitchCount +
    points 1 cf1.MaxNesting cf2.MaxNesting + points 2 cf1.ControlPattern cf2.ControlPattern
  let total : Nat := 1 + 1 + 1 + 1 + 1 + 2
  ((mtch : ℚ) / (total : ℚ)) * 100

/-- The loop `for key, v1 := range m1 { if v2, exists := m2[key]; exists && v1 == v2 {...} }`
of `compareFunctions` and `compareImports`: the number of entries of `m1` whose key
is in `m2` with an equal value. -/
def countSameEntries {V : Type} [DecidableEq V] (m1 m2 : GoMap V) : Nat :=
  m1.entries.countP (fun e => decide (m2.get? e.1 = some e.2))

/-- The declaration-order test of `compareFunctions` (lines 1046 to 1057): equal
lengths and equal items at every index. -/
def sameOrder : List GoString → List GoString → Bool
  | [], [] => true
  | a :: as, b :: bs => if a ≠ b then false else sameOrder as bs
  | _, _ => false

/-- The function `compareFunctions` (lines 1017 to 1065). -/
def compareFunctions (f1 f2 : FunctionAnalysis) : ℚ :=
  let mtch := countSameEntries f1.ParamCount f2.ParamCount +
    countSameEntries f1.ReturnTypes f2.ReturnTypes +
    countSameEntries f1.FunctionSizes f2.FunctionSizes +
    (if sameOrder f1.DeclareOrder f2.DeclareOrder then 1 else 0)
  let total := f1.ParamCount.len + f1.ReturnTypes.len + f1.FunctionSizes.len + 1
  if total = 0 then 0 else ((mtch : ℚ) / (total : ℚ)) * 100

/-- The value of `matches` in `compareImports` before the final division. -/
def importMatches (i1 i2 : ImportAnalysis) : ℚ :=
  let commonImports := findCommonElements i1.ImportList i2.ImportList
  let m1 : ℚ :=
    if commonImports.length > 0 then
      (commonImports.length : ℚ) / (i1.ImportList.length : ℚ) else 0
  let m2 : ℚ := if i1.ImportOrder = i2.ImportOrder then 1 else 0
  let commonPatterns := countSameEntries i1.UsagePatterns i2.UsagePatterns
  let m3 : ℚ :=
    if i1.UsagePatterns.len > 0 then
      (commonPatterns : ℚ) / (i1.UsagePatterns.len : ℚ) else 0
  m1 + m2 + m3

/-- The function `compareImports` (lines 1068 to 1095). -/
def compareImports (i1 i2 : ImportAnalysis) : ℚ :=
  (importMatches i1 i2 / 3) * 100

/-- The function `compareFormatting` (lines 1098 to 1118). -/
def compareFormatting (f1 f2 : FormatAnalysis) : ℚ :=
  let mtch := points 1 f1.IndentStyle f2.IndentStyle +
    points 1 f1.SpacingPattern f2.SpacingPattern + points 1 f1.LineBreaks f2.LineBreaks
  ((mtch : ℚ) / 3) * 100

/-- The function `compareProjects` (lines 606 to 637). The fields that the code
does not assign keep their zero value. -/
def compareProjects (p1 p2 : Project) : ComparisonResult :=
  { Project1 := p1.Name
    Project2 := p2.Name
    Language := p1.Language
    Similarity := compareTexts p1.Content p2.Content
    CommentSimilarity :=
      if p1.Comments ≠ [] ∧ p2.Comments ≠ [] then compareTexts p1.Comments p2.Comments else 0
    IdentifierSimilarity := compareIdentifiers p1.Identifiers p2.Identifiers
    ControlFlowSimilarity := compareControlFlow p1.ControlFlow p2.ControlFlow
    FunctionSimilarity := compareFunctions p1.Functions p2.Functions
    ImportSimilarity := compareImports p1.Imports p2.Imports
    FormatSimilarity := compareFormatting p1.Formatting p2.Formatting
    TokenSimilarity := 0 }

/-! ## Normalizer -/

/-- The line test of the `python` branch of `normalizeCode` (line 184), on a
trimmed line. -/
def keepPythonLine (line : GoString) : Bool :=
  !startsWith line ['#'] && line != []

/-- The line test of the default branch of `normalizeCode` (lines 195 and 196),
on a trimmed line. -/
def keepDefaultLine (line : GoString) : Bool :=
  !startsWith line ['/', '/'] && !startsWith line ['/', '*'] &&
    !endsWith line ['*', '/'] && line != []

/-- The line test chosen by the `switch language` of `normalizeCode` (line 177). -/
def keepLine (language line : GoString) : Bool :=
  if language = "python".toList then keepPythonLine line else keepDefaultLine line

/-- The comment filter of `normalizeCode` (lines 177 to 201): the lines are
trimmed, the lines that the language's test rejects are dropped, and the rest
is joined with single spaces. -/
def filterLines (code language : GoString) : GoString :=
  let lines := Split '\n' code
  Join [' '] ((lines.map TrimSpace).filter (keepLine language))

/-- The function `removeStringLiterals` (lines 216 to 226). -/
def removeStringLiterals (code : GoString) : GoString :=
  replaceQuoted '\'' (replaceQuoted '"' code)

/-- The function `normalizeCode` (lines 175 to 213). -/
def normalizeCode (lowerTable : Char → Char) (code language : GoString) : GoString :=
  let code := filterLines code language
  let code := ToLower lowerTable code
  let code := removeStringLiterals code
  Join [' '] (Fields code)

/-! ## The specification's own wording, for the refinement claims -/

/-- The pieces of a text, in the words of the specification: the text split on the
single space character, empty pieces included. -/
def specPieces (text : GoString) : List GoString := Split ' ' text

/-- The matched-token count in the words of the specification: the number of
non-empty pieces of the first text, counted with multiplicity, that are equal to
at least one piece of the second text. -/
def specMatched (text1 text2 : GoString) : Nat :=
  ((specPieces text1).filter
    (fun t => decide (t ≠ [] ∧ t ∈ specPieces text2))).length

/-! ## Sample records used by the examples -/

/-- The zero value of `Project`: every text empty, every sequence and map empty,
every counter 0. -/
def zeroProject : Project :=
  { Name := []
    Content := []
    Comments := []
    Identifiers := ⟨[], [], [], [], []⟩
    ControlFlow := ⟨0, 0, 0, 0, 0, []⟩
    Functions := ⟨GoMap.empty, GoMap.empty, GoMap.empty, []⟩
    Imports := ⟨[], [], GoMap.empty⟩
    Formatting := ⟨[], [], []⟩
    Tokens := ⟨[], []⟩
    FilePath := []
    Language := [] }

/-- A project with every feature record populated: content "x y", comment text
"c", one variable `a`, one import `fmt` and one usage pattern. -/
def sampleProject : Project :=
  { zeroProject with
    Name := "p".toList
    Content := "x y".toList
    Comments := "c".toList
    Identifiers := ⟨["a".toList], [], [], [], []⟩
    Imports := ⟨["fmt".toList], "fmt".toList, ⟨[("k".toList, "v".toList)], by simp⟩⟩
    Language := "golang".toList }

/-! ## Predicates used by the proofs about `normalizeCode` -/

/-- A fragment of the case table of Go's `unicode` package, used by the examples:
the Latin-1 capital letters U+00C0 to U+00DE (the multiplication sign U+00D7
excepted) have their small form 32 code points higher, and every other code point
is its own small form. -/
def latin1Lower (r : Char) : Char :=
  if 0xC0 ≤ r.toNat ∧ r.toNat ≤ 0xDE ∧ r.toNat ≠ 0xD7 then Char.ofNat (r.toNat + 32) else r

/-- A text that does not start with white space. -/
def HeadOK (s : GoString) : Prop := ∀ c t, s = c :: t → isSpace c = false

/-- A text that does not end with white space. -/
def LastOK (s : GoString) : Prop := ∀ c, [c] <:+ s → isSpace c = false

/-- The texts that the replacement of quoted stretches leaves unchanged, read from
the left: a quote that has a later quote is directly followed by a quote. The flag
tells that the previous character was such an opening quote. -/
def pairedFrom (q : Char) : Bool → GoString → Bool
  | _, [] => true
  | true, c :: cs => if c = q then pairedFrom q false cs else false
  | false, c :: cs =>
    if c = q then (if q ∈ cs then pairedFrom q true cs else true)
    else pairedFrom q false cs

/-- The facts about the case table of Go's `unicode` package that the proofs about
`normalizeCode` use. For every code point `r` above ASCII: `unicode.ToLower` leaves
the small form `lowerTable r` unchanged; the small form is white space only when
`r` is; and the small form is none of `/`, `*` and `#`. -/
def CaseTableSound (lowerTable : Char → Char) : Prop :=
  ∀ r : Char, 0x7F < r.toNat →
    toLowerRune lowerTable (lowerTable r) = lowerTable r ∧
    (isSpace (lowerTable r) = true → isSpace r = true) ∧
    lowerTable r ≠ '/' ∧ lowerTable r ≠ '*' ∧ lowerTable r ≠ '#'

/-- The comment markers that the line tests of `normalizeCode` look for. -/
def Marker (p : GoString) : Prop :=
  p = ['/', '/'] ∨ p = ['/', '*'] ∨ p = ['*', '/'] ∨ p = ['#']

/-- The text `s` neither starts nor ends with white space, and every comment marker
that starts (ends) `s` also starts (ends) `y`. -/
def Follows (s y : GoString) : Prop :=
  HeadOK s ∧ LastOK s ∧ ∀ p, Marker p → (p <+: s → p <+: y) ∧ (p <:+ s → p <:+ y)

/-! ## The pairwise comparison engine -/

/-- The body of the inner loop of `compareAllProjects` (lines 677 to 693) for the
indices `i` and `j`: when the two language tags are equal the pair is compared,
and the record is appended to `results` when its overall similarity is above 50.
The console output is not modelled. -/
def compareAllStep (projects : List Project) (i : Nat) (results : List ComparisonResult)
    (j : Nat) : List ComparisonResult :=
  match projects[i]?, projects[j]? with
  | some pi, some pj =>
    if pi.Language = pj.Language then
      let result := compareProjects pi pj
      if result.Similarity > 50 then results ++ [result] else results
    else results
  | _, _ => results

/-- The function `compareAllProjects` (lines 667 to 698): the loop
`for i := 0; i < len(projects); i++` around the loop
`for j := i + 1; j < len(projects); j++`. -/
def compareAllProjects (projects : List Project) : List ComparisonResult :=
  (List.range projects.length).foldl
    (fun results i =>
      (List.range' (i + 1) (projects.length - (i + 1))).foldl
        (compareAllStep projects i) results)
    []

/-- The index pairs in the words of the specification: all `(i, j)` with
`i < j < n`, ordered by `i` ascending and then by `j` ascending. -/
def specPairs (n : Nat) : List (Nat × Nat) :=
  ((List.range n).product (List.range n)).filter (fun ij => decide (ij.1 < ij.2))

/-- The record that the specification retains for the index pair `(i, j)`: the
comparison of `ps[i]` with `ps[j]` when their language tags are equal and the
overall similarity is strictly greater than 50, and nothing otherwise. -/
def specRetained (ps : List Project) (ij : Nat × Nat) : Option ComparisonResult :=
  match ps[ij.1]?, ps[ij.2]? with
  | some p, some q =>
    if p.Language = q.Language ∧ 50 < (compareProjects p q).Similarity then
      some (compareProjects p q)
    else none
  | _, _ => none

/-- The result of the engine in the words of the specification: the retained
records of the index pairs, in pair-discovery order. -/
def specCompareAll (ps : List Project) : List ComparisonResult :=
  (specPairs ps.length).filterMap (specRetained ps)

/-- A golang project of the engine scenario: twenty one-letter tokens. -/
def scenarioA : Project :=
  { zeroProject with
    Name := "A".toList
    Content := "a b c d e f g h i j k l m n o p q r s t".toList
    Language := "golang".toList }

/-- A golang project of the engine scenario: nineteen of the twenty tokens of
`scenarioA` and one other token. -/
def scenarioB : Project :=
  { zeroProject with
    Name := "B".toList
    Content := "a b c d e f g h i j k l m n o p q r s u".toList
    Language := "golang".toList }

/-- A golang project of the engine scenario: two of the twenty tokens of `scenarioA`
and of `scenarioB`, and one other token. -/
def scenarioC : Project :=
  { zeroProject with
    Name := "C".toList
    Content := "a b z".toList
    Language := "golang".toList }

/-- A project with content "x" in the given language. -/
def shortProject (language : GoString) : Project :=
  { zeroProject with Name := "S".toList, Content := "x".toList, Language := language }

/-- A project with content "x y z" in the given language. -/
def longProject (language : GoString) : Project :=
  { zeroProject with Name := "L".toList, Content := "x y z".toList, Language := language }

/-- The points earned by two control-flow records, in the words of the
specification: 1 point each for equal if-count, for-count, while-count,
switch-count and maximum nesting, and 2 points for equal control patterns. -/
def specControlPoints (cf1 cf2 : ControlFlow) : Nat :=
  (if cf1.IfCount = cf2.IfCount then 1 else 0) +
  (if cf1.ForCount = cf2.ForCount then 1 else 0) +
  (if cf1.WhileCount = cf2.WhileCount then 1 else 0) +
  (if cf1.SwitchCount = cf2.SwitchCount then 1 else 0) +
  (if cf1.MaxNesting = cf2.MaxNesting then 1 else 0) +
  (if cf1.ControlPattern = cf2.ControlPattern then 2 else 0)

/-- The names of a map. -/
def GoMap.keys {V : Type} (m : GoMap V) : List GoString := m.entries.map Prod.fst

/-- The number of names of `m1` that are present in `m2` with an equal value, in
the words of the specification. -/
def specSameNames {V : Type} [DecidableEq V] (m1 m2 : GoMap V) : Nat :=
  (m1.keys.filter (fun name => decide (m2.get? name ≠ none ∧ m1.get? name = m2.get? name))).length

/-- The matched points of two function profiles, in the words of the
specification. -/
def specFunctionMatched (f1 f2 : FunctionAnalysis) : Nat :=
  specSameNames f1.ParamCount f2.ParamCount + specSameNames f1.ReturnTypes f2.ReturnTypes +
    specSameNames f1.FunctionSizes f2.FunctionSizes +
    (if f1.DeclareOrder.length = f2.DeclareOrder.length ∧
        ∀ i : Fin f1.DeclareOrder.length, f2.DeclareOrder[i.val]? = some f1.DeclareOrder[i] then 1
      else 0)

/-- The total of criteria of a function profile, in the words of the
specification. -/
def specFunctionTotal (f1 : FunctionAnalysis) : Nat :=
  f1.ParamCount.keys.length + f1.ReturnTypes.keys.length + f1.FunctionSizes.keys.length + 1

/-! ## Control-flow extractor -/

/-- The class `\w` of Go's `regexp`: an ASCII letter, an ASCII digit or `_`. -/
def isWordChar (c : Char) : Bool :=
  let n := c.toNat
  (48 ≤ n && n ≤ 57) || (65 ≤ n && n ≤ 90) || n == 95 || (97 ≤ n && n ≤ 122)

/-- A word boundary `\b` can stand after `prev`, the character before a keyword:
there is no character, or it is not a word character. -/
def boundaryAfter (prev : Option Char) : Bool :=
  match prev with
  | none => true
  | some p => !isWordChar p

/-- A word boundary `\b` can stand before `s`, the text after a keyword: the text is
empty, or it starts with a character that is not a word character. -/
def boundaryBefore (s : GoString) : Bool :=
  match s with
  | [] => true
  | d :: _ => !isWordChar d

/-- Does the pattern `\bword\b` match at the start of `s`, when `prev` is the
character before `s`? A word boundary stands before the keyword, the keyword starts
`s`, and a word boundary stands after it. The keywords of the program are made of
letters. -/
def wordAt (word : GoString) (prev : Option Char) (s : GoString) : Bool :=
  boundaryAfter prev && word.isPrefixOf s && boundaryBefore (s.drop word.length)

/-- The scanner behind `len(regexp.MustCompile(\bword\b).FindAllString(code, -1))`:
the number of positions where the pattern matches. Two matches of a keyword never
overlap, since a match is surrounded by word boundaries and has none inside. -/
def countWordFrom (word : GoString) : Option Char → GoString → Nat
  | _, [] => 0
  | prev, c :: cs =>
    (if wordAt word prev (c :: cs) then 1 else 0) + countWordFrom word (some c) cs

/-- The number of matches of `\bword\b` in a text. -/
def countWord (word code : GoString) : Nat := countWordFrom word none code

/-- The function `countIndentation` (lines 927 to 939): a space counts 1, a tab
counts 4, and the scan stops at the first other character. -/
def countIndentation : GoString → Nat
  | [] => 0
  | char :: rest =>
    if char = ' ' then countIndentation rest + 1
    else if char = '\t' then countIndentation rest + 4
    else 0

/-- The function `analyzeNesting` (lines 471 to 485): the largest value of
`countIndentation(line) / 4` over the lines, starting from 0. -/
def analyzeNesting (code : GoString) : Nat :=
  (Split '\n' code).foldl
    (fun maxNesting line =>
      let currentNesting := countIndentation line / 4
      if currentNesting > maxNesting then currentNesting else maxNesting)
    0

/-- The body of the loop of `createControlPattern` (lines 911 to 920): the keyword
that a line adds to the pattern, if any. -/
def lineKeyword (line : GoString) : Option GoString :=
  let line := TrimSpace line
  if startsWith line "if".toList then some "if".toList
  else if startsWith line "for".toList then some "for".toList
  else if startsWith line "switch".toList then some "switch".toList
  else if startsWith line "while".toList then some "while".toList
  else none

/-- The slice `pattern` of `createControlPattern` before the final join. -/
def controlKeywords (code : GoString) : List GoString :=
  (Split '\n' code).filterMap lineKeyword

/-- The function `createControlPattern` (lines 906 to 924). -/
def createControlPattern (code : GoString) : GoString :=
  Join "->".toList (controlKeywords code)

/-- The function `analyzeControlFlow` (lines 432 to 468). The fields that a branch
does not assign keep their zero value. -/
def analyzeControlFlow (code language : GoString) : ControlFlow :=
  if language = "golang".toList then
    { IfCount := countWord "if".toList code
      ForCount := countWord "for".toList code
      WhileCount := 0
      SwitchCount := countWord "switch".toList code
      MaxNesting := analyzeNesting code
      ControlPattern := createControlPattern code }
  else if language = "python".toList then
    { IfCount := countWord "if".toList code
      ForCount := countWord "for".toList code
      WhileCount := countWord "while".toList code
      SwitchCount := 0
      MaxNesting := 0
      ControlPattern := [] }
  else ⟨0, 0, 0, 0, 0, []⟩

/-- The keyword of a line in the words of the specification: the first of `if`,
`for`, `switch` and `while` that starts the trimmed text of the line, if any. -/
def specLineKeyword (line : GoString) : Option GoString :=
  ["if".toList, "for".toList, "switch".toList, "while".toList].find?
    (fun keyword => decide (keyword <+: TrimSpace line))

/-- The control pattern in the words of the specification: the keywords of the
lines, in line order, joined by `->`. -/
def specControlPattern (code : GoString) : GoString :=
  Join "->".toList ((Split '\n' code).filterMap specLineKeyword)

/-- The number of non-overlapping occurrences of `->` in a pattern, read from the
left. -/
def countArrows : GoString → Nat
  | [] => 0
  | [_] => 0
  | c :: d :: rest =>
    if c = '-' ∧ d = '>' then countArrows rest + 1 else countArrows (d :: rest)

/-- The number of keywords of a control pattern: none for the empty pattern, and one
more than the number of `->` separators otherwise. -/
def patternLength (pattern : GoString) : Nat :=
  if pattern = [] then 0 else countArrows pattern + 1

/-- The scenario source of the specification: an `if` line, a nested `for` line and
another `if` line, with the closing braces. -/
def scenarioSource : GoString :=
  "if a \x7b\n    for b \x7b\n    \x7d\n\x7d\nif c \x7b\n\x7d".toList

/-- The scenario source with an `else if` branch added: the lines that start with a
keyword are still an `if` line, a `for` line and an `if` line. -/
def scenarioSourceElse : GoString :=
  "if a \x7b\n    for b \x7b\n    \x7d\n\x7d else if d \x7b\n\x7d\nif c \x7b\n\x7d".toList

/-- A source of three lines whose trimmed texts start with `if`, `for` and `if`, the
first two as the start of a longer name. -/
def scenarioSourceNames : GoString :=
  "iffy()\n    format()\nif c \x7b".toList

/-- The character before the text that follows `a`, when `prev` is the character
before `a`: the last character of `a`, or `prev` when `a` is empty. -/
def prevAfter (prev : Option Char) (a : GoString) : Option Char :=
  match a.getLast? with
  | some c => some c
  | none => prev

/-- Every line that adds a keyword to the control pattern starts, after trimming,
with `if`, `for` or `switch` as a whole word: the keyword is not `while`, and it is
followed by a character that is not a word character or by the end of the line. -/
def KeywordLinesWhole (code : GoString) : Prop :=
  ∀ line ∈ Split '\n' code, ∀ k, lineKeyword line = some k →
    k ≠ "while".toList ∧ boundaryBefore ((TrimSpace line).drop k.length) = true

/-! ## Import extractor -/

/-- The class `\s` of Go's `regexp`: tab, newline, form feed, carriage return and
space. -/
def isRegexSpace (c : Char) : Bool :=
  c == '\t' || c == '\n' || c == '\x0c' || c == '\r' || c == ' '

/-- The match of the pattern `import\s*\((.*?)\)` at the start of `s`, as the text of
its group: `import`, the longest run of `\s`, an opening parenthesis, and then the
shortest run of characters other than newline (the dot does not match a newline)
that is followed by a closing parenthesis. -/
def importBodyAt (s : GoString) : Option GoString :=
  if "import".toList.isPrefixOf s then
    match (s.drop 6).dropWhile isRegexSpace with
    | '(' :: t =>
      match t.dropWhile (fun c => c != ')' && c != '\n') with
      | ')' :: _ => some (t.takeWhile (fun c => c != ')' && c != '\n'))
      | _ => none
    | _ => none
  else none

/-- The scanner behind `importRegex.FindStringSubmatch(code)`: the group of the
leftmost match, if there is a match. -/
def findImportBody : GoString → Option GoString
  | [] => none
  | c :: cs =>
    match importBodyAt (c :: cs) with
    | some body => some body
    | none => findImportBody cs

/-- The function `analyzeImports` (lines 517 to 540). -/
def analyzeImports (code language : GoString) : ImportAnalysis :=
  let importList : List GoString :=
    if language = "golang".toList then
      match findImportBody code with
      | some body => ((Split '\n' body).map TrimSpace).filter (fun imp => imp != [])
      | none => []
    else []
  { ImportList := importList
    ImportOrder := Join [','] importList
    UsagePatterns := GoMap.empty }

/-! ## Comment extractor -/

/-- The position of the first occurrence of `substr` in `s`, if any. -/
def indexNat? (substr : GoString) : GoString → Option Nat
  | [] => if substr = [] then some 0 else none
  | c :: cs =>
    if substr.isPrefixOf (c :: cs) then some 0
    else (indexNat? substr cs).map (fun i => i + 1)

/-- Go `strings.Index`: the position of the first occurrence, or -1. Positions count
code points; the program searches ASCII markers only, so that comparisons between
positions and slices at these positions agree with the byte positions of Go. -/
def Index (s substr : GoString) : Int :=
  match indexNat? substr s with
  | some i => (i : Int)
  | none => -1

/-- Go `strings.Contains`. -/
def Contains (s substr : GoString) : Bool := decide (0 ≤ Index s substr)

/-- Go `strings.TrimPrefix`. -/
def TrimPrefix (s pre : GoString) : GoString :=
  if startsWith s pre then s.drop pre.length else s

/-- The Go slice expression `s[lo:hi]`, which panics (here `none`) unless
`0 ≤ lo ≤ hi ≤ len(s)`. -/
def goSlice (s : GoString) (lo hi : Int) : Option GoString :=
  if 0 ≤ lo ∧ lo ≤ hi ∧ hi ≤ (s.length : Int) then some ((s.take hi.toNat).drop lo.toNat)
  else none

/-- The body of the loop of the `python` branch of `extractComments` (lines 237 to
241). -/
def pythonCommentStep (comments : List GoString) (line : GoString) : List GoString :=
  let line := TrimSpace line
  if startsWith line ['#'] then comments ++ [TrimSpace (TrimPrefix line ['#'])]
  else comments

/-- The body of the loop of the default branch of `extractComments` (lines 247 to
283), on the state made of `inMultilineComment` and `comments`; `none` when a slice
expression panics. -/
def commentStep (state : Bool × List GoString) (line : GoString) :
    Option (Bool × List GoString) :=
  let line := TrimSpace line
  if Contains line "/*".toList && Contains line "*/".toList then
    let startIdx := Index line "/*".toList
    let endIdx := Index line "*/".toList
    if startIdx < endIdx then
      match goSlice line (startIdx + 2) endIdx with
      | some comment => some (state.1, state.2 ++ [TrimSpace comment])
      | none => none
    else some state
  else if Contains line "/*".toList then
    let startIdx := Index line "/*".toList
    if startIdx < (line.length : Int) - 2 then
      match goSlice line (startIdx + 2) line.length with
      | some comment =>
        if comment ≠ [] then some (true, state.2 ++ [TrimSpace comment])
        else some (true, state.2)
      | none => none
    else some (true, state.2)
  else if Contains line "*/".toList then
    let endIdx := Index line "*/".toList
    if endIdx > 0 then
      match goSlice line 0 endIdx with
      | some comment =>
        if comment ≠ [] then some (false, state.2 ++ [TrimSpace comment])
        else some (false, state.2)
      | none => none
    else some (false, state.2)
  else if state.1 then
    if line ≠ [] then some (state.1, state.2 ++ [TrimSpace line]) else some state
  else if startsWith line "//".toList then
    some (state.1, state.2 ++ [TrimSpace (TrimPrefix line "//".toList)])
  else some state

/-- The comment normalization at the end of `extractComments` (lines 288 to 290). -/
def normalizeComments (lowerTable : Char → Char) (comments : List GoString) : GoString :=
  Join [' '] (Fields (ToLower lowerTable (Join [' '] comments)))

/-- The function `extractComments` (lines 229 to 293); `none` when the program
panics. -/
def extractComments (lowerTable : Char → Char) (code language : GoString) :
    Option GoString :=
  let lines := Split '\n' code
  if language = "python".toList then
    some (normalizeComments lowerTable (lines.foldl pythonCommentStep []))
  else
    match lines.foldlM commentStep (false, []) with
    | some state => some (normalizeComments lowerTable state.2)
    | none => none

/-- The text after the first occurrence of `marker` in a text (empty when the marker
does not occur). -/
def afterFirst (marker : GoString) : GoString → GoString
  | [] => []
  | c :: cs =>
    if marker.isPrefixOf (c :: cs) then (c :: cs).drop marker.length
    else afterFirst marker cs

/-- The text before the first occurrence of `marker` in a text (the whole text when
the marker does not occur). -/
def beforeFirst (marker : GoString) : GoString → GoString
  | [] => []
  | c :: cs =>
    if marker.isPrefixOf (c :: cs) then [] else c :: beforeFirst marker cs

/-- The comment text of a block comment in the words of the specification, for an
opener line `first`, the lines `interior` and a closer line `last`: the text after
the opener, the trimmed text of every non-empty interior line and the text before
the closer, joined by spaces, lower-cased and whitespace-collapsed. The text after
the opener and the text before the closer are taken without their surrounding white
space, which the final collapse removes. -/
def specBlockComment (lowerTable : Char → Char) (first : GoString)
    (interior : List GoString) (last : GoString) : GoString :=
  Join [' '] (Fields (ToLower lowerTable (Join [' ']
    ([TrimSpace (afterFirst "/*".toList first)] ++
      (interior.map TrimSpace).filter (fun line => line != []) ++
      [TrimSpace (beforeFirst "*/".toList last)]))))

/-- The comment that the loop of `extractComments` appends for a slice `comment` of a
line: nothing when the slice is empty, and the trimmed slice otherwise. -/
def commentPiece (comment : GoString) : List GoString :=
  if comment = [] then [] else [TrimSpace comment]

/-! ## Function size -/

/-- Go `strings.Count(s, substr)` for a substring `substr` that is one character
long: the number of occurrences of the character. -/
def Count (s : GoString) (c : Char) : Nat := s.count c

/-- The change of `bracketCount` made by one counted line (lines 955 and 956). -/
def bracketDelta (line : GoString) : Int :=
  (Count line '\x7b' : Int) - (Count line '\x7d' : Int)

/-- The loop of `calculateFunctionSize` (lines 948 to 962) on the remaining lines,
with the current values of `size`, `inFunction` and `bracketCount`; the result is the
value of `size` when the loop ends or breaks. -/
def sizeLoop (needle : GoString) : List GoString → Int → Bool → Int → Int
  | [], size, _, _ => size
  | line :: rest, size, inFunction, bracketCount =>
    let inFunction := if Contains line needle then true else inFunction
    if inFunction then
      let size := size + 1
      let bracketCount := bracketCount + (Count line '\x7b' : Int)
      let bracketCount := bracketCount - (Count line '\x7d' : Int)
      if bracketCount = 0 ∧ size > 1 then size
      else sizeLoop needle rest size inFunction bracketCount
    else sizeLoop needle rest size inFunction bracketCount

/-- The function `calculateFunctionSize` (lines 942 to 965). -/
def calculateFunctionSize (code funcName : GoString) : Int :=
  sizeLoop ("func ".toList ++ funcName) (Split '\n' code) 0 false 0
/-- The running balance over some counted lines, in the words of the specification:
the count of `{` minus the count of `}`. -/
def specBalance (counted : List GoString) : Int :=
  (counted.map bracketDelta).sum

/-- The function size in the words of the specification. It is 0 when no line
contains `func ` followed by the name. Otherwise the lines are counted from the
first line that contains it; the size is the first `k`, from 2 to the number of
counted lines, such that the balance over the first `k` counted lines is zero, and
the number of counted lines when there is no such `k`. -/
def specFunctionSize (code funcName : GoString) : Nat :=
  let lines := Split '\n' code
  if lines.all (fun line => !Contains line ("func ".toList ++ funcName)) then 0
  else
    let counted := lines.dropWhile (fun line => !Contains line ("func ".toList ++ funcName))
    match (List.range' 2 (counted.length - 1)).find?
        (fun k => decide (specBalance (counted.take k) = 0)) with
    | some k => k
    | none => counted.length

/-- A source text of three lines: the opener of a block comment, the line `Secret`
inside the comment, and the closer. -/
def blockCommentSource : GoString := "/*\nSecret\n*/".toList

/-! ## Loader -/

/-- The `Project` literal of `loadProjects` (lines 154 to 161) for one source file:
`Name`, `Content`, `Comments`, `Identifiers`, `FilePath` and `Language` are
assigned, and every other field keeps its zero value. The value of
`extractIdentifiers(rawContent, lang)` is the argument `identifiers`; the result is
`none` when `extractComments` panics. -/
def loadedProject (lowerTable : Char → Char) (path projectName rawContent lang : GoString)
    (identifiers : Identifiers) : Option Project :=
  match extractComments lowerTable rawContent lang with
  | none => none
  | some comments =>
    some
      { Name := projectName
        Content := normalizeCode lowerTable rawContent lang
        Comments := comments
        Identifiers := identifiers
        ControlFlow := ⟨0, 0, 0, 0, 0, []⟩
        Functions := ⟨GoMap.empty, GoMap.empty, GoMap.empty, []⟩
        Imports := ⟨[], [], GoMap.empty⟩
        Formatting := ⟨[], [], []⟩
        Tokens := ⟨[], []⟩
        FilePath := path
        Language := lang }

/-- The result of the loader for a `golang` file with the two lines `// c` and
`x := 1`, in the directory `a`; the variable pattern of `extractIdentifiers` finds
the name `x`. -/
def loadedA : Project :=
  { zeroProject with
    Name := "a".toList
    Content := "x := 1".toList
    Comments := "c".toList
    Identifiers := ⟨["x".toList], [], [], [], []⟩
    FilePath := "a/m.go".toList
    Language := "golang".toList }

/-- The result of the loader for a `python` file with the two lines `import os` and
`if y:`, in the directory `b`; no pattern of `extractIdentifiers` finds a name. -/
def loadedB : Project :=
  { zeroProject with
    Name := "b".toList
    Content := "import os if y:".toList
    FilePath := "b/m.py".toList
    Language := "python".toList }

/-! # Theorems -/

/-! ## Facts about the library models -/

theorem Split_ne_nil (sep : Char) (s : GoString) : Split sep s ≠ [] := by
  cases s with
  | nil => simp [Split]
  | cons c cs =>
    unfold Split
    split
    · simp
    · split <;> simp

theorem Split_length_pos (sep : Char) (s : GoString) : 1 ≤ (Split sep s).length := by
  have h := Split_ne_nil sep s
  cases hs : Split sep s with
  | nil => exact absurd hs h
  | cons a l => simp

/-! ## Facts about `compareTexts` -/

theorem tokenFound_iff (token : GoString) (s2 : List GoString) :
    tokenFound token s2 = true ↔ token ∈ s2 := by
  induction s2 with
  | nil => simp [tokenFound]
  | cons t rest ih =>
    unfold tokenFound
    by_cases h : token = t
    · simp [h]
    · simp [h, ih]

theorem countMatches_le (s2 s1 : List GoString) : countMatches s2 s1 ≤ s1.length := by
  induction s1 with
  | nil => simp [countMatches]
  | cons t rest ih =>
    unfold countMatches
    split
    · simp; omega
    · split
      · simp; omega
      · simp; omega

theorem countMatches_eq_filter (s2 s1 : List GoString) :
    countMatches s2 s1 = (s1.filter (fun t => decide (t ≠ [] ∧ t ∈ s2))).length := by
  induction s1 with
  | nil => simp [countMatches]
  | cons t rest ih =>
    unfold countMatches
    by_cases h : t = []
    · simp [h, ih]
    · by_cases h2 : t ∈ s2
      · have : tokenFound t s2 = true := (tokenFound_iff t s2).2 h2
        simp [h, h2, this, ih]
      · have : tokenFound t s2 = false := by
          cases hf : tokenFound t s2 with
          | false => rfl
          | true => exact absurd ((tokenFound_iff t s2).1 hf) h2
        simp [h, h2, this, ih]

theorem compareTexts_eq (text1 text2 : GoString) :
    compareTexts text1 text2 =
      (countMatches (Split ' ' text2) (Split ' ' text1) : ℚ) /
        ((Split ' ' text1).length : ℚ) * 100 := by
  have h := Split_length_pos ' ' text1
  simp only [compareTexts]
  rw [if_neg (by omega)]

/-- C3: for all texts, `compareTexts text1 text2` is `100 × m / n`, where `n ≥ 1` is the
number of pieces of `text1` split on the space character (empty pieces counted) and
`m` is the number of non-empty pieces of `text1`, with multiplicity, that equal some
piece of `text2`. -/
theorem compareTexts_formula (text1 text2 : GoString) :
    compareTexts text1 text2 =
        100 * (specMatched text1 text2 : ℚ) / ((specPieces text1).length : ℚ) ∧
      1 ≤ (specPieces text1).length := by
  refine ⟨?_, Split_length_pos ' ' text1⟩
  rw [compareTexts_eq, countMatches_eq_filter]
  simp only [specMatched, specPieces]
  ring

/-- C4: for all texts, `0 ≤ compareTexts text1 text2 ≤ 100`. -/
theorem compareTexts_range (text1 text2 : GoString) :
    0 ≤ compareTexts text1 text2 ∧ compareTexts text1 text2 ≤ 100 := by
  rw [compareTexts_eq]
  have hn := Split_length_pos ' ' text1
  have hm := countMatches_le (Split ' ' text2) (Split ' ' text1)
  have hn' : (0 : ℚ) < ((Split ' ' text1).length : ℚ) := by exact_mod_cast hn
  have hm' : (countMatches (Split ' ' text2) (Split ' ' text1) : ℚ) ≤
      ((Split ' ' text1).length : ℚ) := by exact_mod_cast hm
  constructor
  · positivity
  · have : (countMatches (Split ' ' text2) (Split ' ' text1) : ℚ) /
        ((Split ' ' text1).length : ℚ) ≤ 1 := (div_le_one hn').2 hm'
    linarith

/-- C2, the claim refuted: with A = "x y" and B = "x y y", every one of the three
pieces of B (the repeated `y` included) is found among the pieces of A, so
`compareTexts B A` is 100 and not 2/3 × 100. -/
theorem compareTexts_example_not_two_thirds :
    ¬ (compareTexts "x y".toList "x y y".toList = 100 ∧
        compareTexts "x y y".toList "x y".toList = 2 / 3 * 100) := by
  have h1 : countMatches (Split ' ' "x y".toList) (Split ' ' "x y y".toList) = 3 := by decide
  have h2 : (Split ' ' "x y y".toList).length = 3 := by decide
  have h : compareTexts "x y y".toList "x y".toList = 100 := by
    rw [compareTexts_eq, h1, h2]; norm_num
  rw [h]
  norm_num

/-- C2, amended: with A = "x y" and B = "x y y" both directions score 100; the
asymmetry shows with B = "x y z", where `compareTexts A B = 100` and
`compareTexts B A = 2/3 × 100`. -/
theorem compareTexts_asymmetric :
    compareTexts "x y".toList "x y y".toList = 100 ∧
      compareTexts "x y y".toList "x y".toList = 100 ∧
      compareTexts "x y".toList "x y z".toList = 100 ∧
      compareTexts "x y z".toList "x y".toList = 2 / 3 * 100 := by
  have a1 : countMatches (Split ' ' "x y y".toList) (Split ' ' "x y".toList) = 2 := by decide
  have a2 : (Split ' ' "x y".toList).length = 2 := by decide
  have b1 : countMatches (Split ' ' "x y".toList) (Split ' ' "x y y".toList) = 3 := by decide
  have b2 : (Split ' ' "x y y".toList).length = 3 := by decide
  have c1 : countMatches (Split ' ' "x y z".toList) (Split ' ' "x y".toList) = 2 := by decide
  have d1 : countMatches (Split ' ' "x y".toList) (Split ' ' "x y z".toList) = 2 := by decide
  have d2 : (Split ' ' "x y z".toList).length = 3 := by decide
  refine ⟨?_, ?_, ?_, ?_⟩
  · rw [compareTexts_eq, a1, a2]; norm_num
  · rw [compareTexts_eq, b1, b2]; norm_num
  · rw [compareTexts_eq, c1, a2]; norm_num
  · rw [compareTexts_eq, d1, d2]; norm_num

/-! ## Facts about `findCommonElements` and `compareIdentifiers` -/

theorem findCommonElements_disjoint (s1 s2 : List GoString)
    (h : ∀ x ∈ s1, x ∉ s2) : findCommonElements s1 s2 = [] := by
  simp only [findCommonElements, List.filter_eq_nil_iff, decide_eq_true_eq]
  intro a ha ha1
  exact h a ha1 ha

theorem findCommonElements_nil_left (s2 : List GoString) : findCommonElements [] s2 = [] :=
  findCommonElements_disjoint [] s2 (by simp)

theorem findCommonElements_self (s : List GoString) : findCommonElements s s = s := by
  simp only [findCommonElements, List.filter_eq_self, decide_eq_true_eq]
  exact fun a ha => ha

theorem findCommonElements_length_le (s1 s2 : List GoString) :
    (findCommonElements s1 s2).length ≤ s2.length :=
  List.length_filter_le _ _

/-- C7: when in each of the five categories no name of `ids1` occurs in the same
category of `ids2`, `compareIdentifiers ids1 ids2 = 0`. -/
theorem compareIdentifiers_disjoint (ids1 ids2 : Identifiers)
    (hv : ∀ x ∈ ids1.Variables, x ∉ ids2.Variables)
    (hf : ∀ x ∈ ids1.Functions, x ∉ ids2.Functions)
    (hc : ∀ x ∈ ids1.Classes, x ∉ ids2.Classes)
    (hi : ∀ x ∈ ids1.Interfaces, x ∉ ids2.Interfaces)
    (hk : ∀ x ∈ ids1.Constants, x ∉ ids2.Constants) :
    compareIdentifiers ids1 ids2 = 0 := by
  simp only [compareIdentifiers, identifierMatches,
    findCommonElements_disjoint _ _ hv, findCommonElements_disjoint _ _ hf,
    findCommonElements_disjoint _ _ hc, findCommonElements_disjoint _ _ hi,
    findCommonElements_disjoint _ _ hk]
  split <;> simp

/-- C7, witness: variables `a`, `b` against `c` and functions `f` against `g`. -/
theorem compareIdentifiers_disjoint_witness :
    (∀ x ∈ ["a".toList, "b".toList], x ∉ ["c".toList]) ∧
      (∀ x ∈ ["f".toList], x ∉ ["g".toList]) ∧
      compareIdentifiers ⟨["a".toList, "b".toList], ["f".toList], [], [], []⟩
        ⟨["c".toList], ["g".toList], [], [], []⟩ = 0 :=
  ⟨by decide, by decide,
    compareIdentifiers_disjoint ⟨["a".toList, "b".toList], ["f".toList], [], [], []⟩
      ⟨["c".toList], ["g".toList], [], [], []⟩
      (by decide) (by decide) (by decide) (by decide) (by decide)⟩

theorem countMatches_blank (s2 s1 : List GoString) (h : ∀ t ∈ s1, t = []) :
    countMatches s2 s1 = 0 := by
  induction s1 with
  | nil => simp [countMatches]
  | cons t rest ih =>
    have ht : t = [] := h t (by simp)
    unfold countMatches
    rw [if_pos ht]
    exact ih (fun u hu => h u (by simp [hu]))

theorem Split_all_sep (sep : Char) (s : GoString) (h : ∀ c ∈ s, c = sep) :
    ∀ t ∈ Split sep s, t = [] := by
  induction s with
  | nil => simp [Split]
  | cons c cs ih =>
    have hc : c = sep := h c (by simp)
    have ih2 := ih (fun d hd => h d (by simp [hd]))
    unfold Split
    rw [if_pos hc]
    intro t ht
    rcases List.mem_cons.1 ht with h1 | h1
    · exact h1
    · exact ih2 t h1

/-- C8: the ratio comparators return 0 where the denominator would be zero:
`compareIdentifiers ids1 ids2 = 0` when the five sequences of `ids1` are empty, and
`compareTexts text1 text2 = 0` when `text1` is empty or made of spaces only. -/
theorem ratio_guards (ids1 ids2 : Identifiers) (text1 text2 : GoString)
    (hv : ids1.Variables = []) (hf : ids1.Functions = []) (hc : ids1.Classes = [])
    (hi : ids1.Interfaces = []) (hk : ids1.Constants = [])
    (ht : ∀ c ∈ text1, c = ' ') :
    compareIdentifiers ids1 ids2 = 0 ∧ compareTexts text1 text2 = 0 := by
  constructor
  · simp [compareIdentifiers, identifierTotal, hv, hf, hc, hi, hk]
  · rw [compareTexts_eq, countMatches_blank _ _ (Split_all_sep ' ' text1 ht)]
    simp

/-- C8, witness: no identifier at all against some identifiers, and a text of two
spaces against "x y". -/
theorem ratio_guards_witness :
    (∀ c ∈ "  ".toList, c = ' ') ∧
      compareIdentifiers ⟨[], [], [], [], []⟩ ⟨["a".toList], [], [], [], []⟩ = 0 ∧
      compareTexts "  ".toList "x y".toList = 0 :=
  ⟨by decide,
    ratio_guards ⟨[], [], [], [], []⟩ ⟨["a".toList], [], [], [], []⟩ "  ".toList "x y".toList
      rfl rfl rfl rfl rfl (by decide)⟩

/-- C5, the code at the failing input: one variable `a` in the first file and
three occurrences of `a` in the second give `compareIdentifiers = 300`, which is
above 100. -/
theorem compareIdentifiers_exceeds_100 :
    compareIdentifiers ⟨["a".toList], [], [], [], []⟩
        ⟨["a".toList, "a".toList, "a".toList], [], [], [], []⟩ = 300 ∧
      ¬ (compareIdentifiers ⟨["a".toList], [], [], [], []⟩
        ⟨["a".toList, "a".toList, "a".toList], [], [], [], []⟩ ≤ 100) := by
  have h1 : identifierMatches ⟨["a".toList], [], [], [], []⟩
      ⟨["a".toList, "a".toList, "a".toList], [], [], [], []⟩ = 3 := by decide
  have h2 : identifierTotal ⟨["a".toList], [], [], [], []⟩ = 1 := by decide
  have h : compareIdentifiers ⟨["a".toList], [], [], [], []⟩
      ⟨["a".toList, "a".toList, "a".toList], [], [], [], []⟩ = 300 := by
    simp only [compareIdentifiers, h1, h2]; norm_num
  rw [h]
  norm_num

theorem countMatches_self_aux (s2 s1 : List GoString) (h : ∀ t ∈ s1, t ∈ s2) :
    countMatches s2 s1 = (s1.filter (fun t => decide (t ≠ []))).length := by
  rw [countMatches_eq_filter]
  congr 1
  apply List.filter_congr
  intro t ht
  simp [h t ht]

theorem ratio_eq_100_iff (m n : ℕ) (hn : 1 ≤ n) : (m : ℚ) / (n : ℚ) * 100 = 100 ↔ m = n := by
  have hn' : (0 : ℚ) < (n : ℚ) := by exact_mod_cast hn
  constructor
  · intro h
    have h1 : (m : ℚ) / (n : ℚ) = 1 := by linarith
    rw [div_eq_one_iff_eq (ne_of_gt hn')] at h1
    exact_mod_cast h1
  · intro h
    rw [h, div_self (ne_of_gt hn')]
    norm_num

theorem compareTexts_self_iff (text : GoString) :
    compareTexts text text = 100 ↔ ∀ t ∈ Split ' ' text, t ≠ [] := by
  rw [compareTexts_eq, countMatches_self_aux _ _ (fun t ht => ht),
    ratio_eq_100_iff _ _ (Split_length_pos ' ' text), List.filter_length_eq_length]
  simp

theorem identifierMatches_self (ids : Identifiers) :
    identifierMatches ids ids = identifierTotal ids := by
  simp [identifierMatches, identifierTotal, findCommonElements_self]

theorem compareIdentifiers_self_iff (ids : Identifiers) :
    compareIdentifiers ids ids = 100 ↔ identifierTotal ids ≠ 0 := by
  simp only [compareIdentifiers, identifierMatches_self]
  by_cases h : identifierTotal ids = 0
  · simp [h]
  · have h' : ((identifierTotal ids : ℕ) : ℚ) ≠ 0 := by exact_mod_cast h
    simp [h, div_self h']

theorem compareControlFlow_self (cf : ControlFlow) : compareControlFlow cf cf = 100 := by
  simp [compareControlFlow, points]

theorem compareFormatting_self (f : FormatAnalysis) : compareFormatting f f = 100 := by
  simp [compareFormatting, points]

theorem sameOrder_self (l : List GoString) : sameOrder l l = true := by
  induction l with
  | nil => rfl
  | cons a as ih => simp [sameOrder, ih]

theorem find?_key_of_nodup {V : Type} (l : List (GoString × V))
    (hnd : (l.map Prod.fst).Nodup) (e : GoString × V) (he : e ∈ l) :
    l.find? (fun x => decide (x.1 = e.1)) = some e := by
  induction l with
  | nil => simp at he
  | cons a rest ih =>
    rw [List.map_cons, List.nodup_cons] at hnd
    rcases List.mem_cons.1 he with h | h
    · subst h; simp
    · have hne : a.1 ≠ e.1 := by
        intro heq
        apply hnd.1
        rw [heq]
        exact List.mem_map_of_mem Prod.fst h
      rw [List.find?_cons_of_neg _ (by simpa using hne)]
      exact ih hnd.2 h

theorem countSameEntries_self {V : Type} [DecidableEq V] (m : GoMap V) :
    countSameEntries m m = m.len := by
  simp only [countSameEntries, GoMap.len]
  rw [List.countP_eq_length]
  intro e he
  simp [GoMap.get?, find?_key_of_nodup m.entries m.nodup e he]

theorem compareFunctions_self (f : FunctionAnalysis) : compareFunctions f f = 100 := by
  simp only [compareFunctions, countSameEntries_self, sameOrder_self]
  rw [if_neg (by omega)]
  have h : ((f.ParamCount.len + f.ReturnTypes.len + f.FunctionSizes.len + 1 : ℕ) : ℚ) ≠ 0 := by
    exact_mod_cast Nat.succ_ne_zero (f.ParamCount.len + f.ReturnTypes.len + f.FunctionSizes.len)
  simp only [if_true]
  rw [div_self h]
  norm_num

theorem compareImports_self_iff (i : ImportAnalysis) :
    compareImports i i = 100 ↔ i.ImportList ≠ [] ∧ i.UsagePatterns.len ≠ 0 := by
  simp only [compareImports, importMatches, findCommonElements_self, countSameEntries_self]
  by_cases h1 : i.ImportList = []
  · by_cases h2 : i.UsagePatterns.len = 0
    · simp [h1, h2]
    · have h2' : ((i.UsagePatterns.len : ℕ) : ℚ) ≠ 0 := by exact_mod_cast h2
      simp [h1, h2, Nat.pos_of_ne_zero h2, div_self h2']; norm_num
  · have hl : i.ImportList.length ≠ 0 := by simpa using h1
    have hl' : ((i.ImportList.length : ℕ) : ℚ) ≠ 0 := by exact_mod_cast hl
    by_cases h2 : i.UsagePatterns.len = 0
    · simp [h1, h2, Nat.pos_of_ne_zero hl, div_self hl']; norm_num
    · have h2' : ((i.UsagePatterns.len : ℕ) : ℚ) ≠ 0 := by exact_mod_cast h2
      simp [h1, h2, Nat.pos_of_ne_zero hl, Nat.pos_of_ne_zero h2, div_self hl', div_self h2']
      norm_num
/-- C1, the claim refuted: comparing the zero-valued project with itself gives
overall, comment and identifier similarity 0 and import similarity 100/3, so the
seven scores are not all 100. -/
theorem compareProjects_self_not_all_100 :
    (compareProjects zeroProject zeroProject).Similarity = 0 ∧
      (compareProjects zeroProject zeroProject).CommentSimilarity = 0 ∧
      (compareProjects zeroProject zeroProject).IdentifierSimilarity = 0 ∧
      (compareProjects zeroProject zeroProject).ImportSimilarity = 100 / 3 ∧
      ¬ ((compareProjects zeroProject zeroProject).Similarity = 100 ∧
        (compareProjects zeroProject zeroProject).CommentSimilarity = 100 ∧
        (compareProjects zeroProject zeroProject).IdentifierSimilarity = 100 ∧
        (compareProjects zeroProject zeroProject).ControlFlowSimilarity = 100 ∧
        (compareProjects zeroProject zeroProject).FunctionSimilarity = 100 ∧
        (compareProjects zeroProject zeroProject).ImportSimilarity = 100 ∧
        (compareProjects zeroProject zeroProject).FormatSimilarity = 100) := by
  have h1 : (compareProjects zeroProject zeroProject).Similarity = 0 := by
    have a : countMatches (Split ' ' []) (Split ' ' []) = 0 := by decide
    simp only [compareProjects, zeroProject, compareTexts_eq, a]
    norm_num
  have h2 : (compareProjects zeroProject zeroProject).CommentSimilarity = 0 := by
    simp [compareProjects, zeroProject]
  have h3 : (compareProjects zeroProject zeroProject).IdentifierSimilarity = 0 := by
    simp [compareProjects, zeroProject, compareIdentifiers, identifierTotal]
  have h4 : (compareProjects zeroProject zeroProject).ImportSimilarity = 100 / 3 := by
    simp [compareProjects, zeroProject, compareImports, importMatches, findCommonElements,
      GoMap.len, GoMap.empty]
    norm_num
  refine ⟨h1, h2, h3, h4, ?_⟩
  rw [h1]
  norm_num

/-- C1, amended: the seven scores of `compareProjects p p` are all 100 exactly when
`Content` and `Comments` split on the space character into non-empty pieces only
(so neither is empty, and neither has a leading, trailing or doubled space), `p` has
at least one identifier, at least one import and at least one usage pattern; and
`ControlFlowSimilarity`, `FunctionSimilarity` and `FormatSimilarity` of
`compareProjects p p` are 100 for every `p`. -/
theorem compareProjects_self_iff (p : Project) :
    (((compareProjects p p).Similarity = 100 ∧
      (compareProjects p p).CommentSimilarity = 100 ∧
      (compareProjects p p).IdentifierSimilarity = 100 ∧
      (compareProjects p p).ControlFlowSimilarity = 100 ∧
      (compareProjects p p).FunctionSimilarity = 100 ∧
      (compareProjects p p).ImportSimilarity = 100 ∧
      (compareProjects p p).FormatSimilarity = 100) ↔
    ((∀ t ∈ Split ' ' p.Content, t ≠ []) ∧ (∀ t ∈ Split ' ' p.Comments, t ≠ []) ∧
      identifierTotal p.Identifiers ≠ 0 ∧ p.Imports.ImportList ≠ [] ∧
      p.Imports.UsagePatterns.len ≠ 0))
    ∧ (compareProjects p p).ControlFlowSimilarity = 100
    ∧ (compareProjects p p).FunctionSimilarity = 100
    ∧ (compareProjects p p).FormatSimilarity = 100 := by
  refine ⟨?_, compareControlFlow_self _, compareFunctions_self _, compareFormatting_self _⟩
  have hc : (if p.Comments ≠ [] ∧ p.Comments ≠ [] then compareTexts p.Comments p.Comments
      else (0 : ℚ)) = 100 ↔ ∀ t ∈ Split ' ' p.Comments, t ≠ [] := by
    by_cases h : p.Comments = []
    · simp [h, Split]
    · simp only [ne_eq, h, not_false_eq_true, and_self, if_true]
      exact compareTexts_self_iff p.Comments
  simp only [compareProjects, compareTexts_self_iff, hc, compareIdentifiers_self_iff,
    compareControlFlow_self, compareFunctions_self, compareImports_self_iff,
    compareFormatting_self, true_and, and_true]

/-- C1, witness: the sample project, populated in every record, scores 100 seven
times against itself. -/
theorem compareProjects_self_witness :
    ((∀ t ∈ Split ' ' sampleProject.Content, t ≠ []) ∧
        (∀ t ∈ Split ' ' sampleProject.Comments, t ≠ []) ∧
        identifierTotal sampleProject.Identifiers ≠ 0 ∧
        sampleProject.Imports.ImportList ≠ [] ∧
        sampleProject.Imports.UsagePatterns.len ≠ 0) ∧
      (compareProjects sampleProject sampleProject).Similarity = 100 ∧
      (compareProjects sampleProject sampleProject).CommentSimilarity = 100 ∧
      (compareProjects sampleProject sampleProject).IdentifierSimilarity = 100 ∧
      (compareProjects sampleProject sampleProject).ControlFlowSimilarity = 100 ∧
      (compareProjects sampleProject sampleProject).FunctionSimilarity = 100 ∧
      (compareProjects sampleProject sampleProject).ImportSimilarity = 100 ∧
      (compareProjects sampleProject sampleProject).FormatSimilarity = 100 :=
  ⟨⟨by decide, by decide, by decide, by decide, by decide⟩,
    (compareProjects_self_iff sampleProject).1.2
      ⟨by decide, by decide, by decide, by decide, by decide⟩⟩

/-! ## Facts about `Join` and `Fields` -/

theorem Join_cons_cons (sep : GoString) (c : Char) (f : GoString) (fs : List GoString) :
    Join sep ((c :: f) :: fs) = c :: Join sep (f :: fs) := by
  cases fs with
  | nil => rfl
  | cons g gs => simp [Join]

theorem Fields_space (c : Char) (cs : GoString) (hc : isSpace c = true) :
    Fields (c :: cs) = Fields cs := by
  cases cs <;> simp [Fields, hc]

theorem Fields_break (c d : Char) (ds : GoString) (hc : isSpace c = false)
    (hd : isSpace d = true) : Fields (c :: d :: ds) = [c] :: Fields (d :: ds) := by
  simp [Fields, hc, hd]

theorem Fields_ne_nil (d : Char) (ds : GoString) (hd : isSpace d = false) :
    Fields (d :: ds) ≠ [] := by
  cases ds with
  | nil => simp [Fields, hd]
  | cons e es =>
    rw [Fields]
    simp only [hd, Bool.false_eq_true, if_false]
    split
    · simp
    · split <;> simp

theorem Fields_glue (c d : Char) (ds : GoString) (hc : isSpace c = false)
    (hd : isSpace d = false) :
    ∃ f fs, Fields (d :: ds) = f :: fs ∧ Fields (c :: d :: ds) = (c :: f) :: fs := by
  cases hf : Fields (d :: ds) with
  | nil => exact absurd hf (Fields_ne_nil d ds hd)
  | cons f fs =>
    refine ⟨f, fs, rfl, ?_⟩
    rw [Fields]
    simp [hc, hd, hf]

theorem Fields_eq_nil_iff (s : GoString) : Fields s = [] ↔ ∀ c ∈ s, isSpace c = true := by
  induction s with
  | nil => simp [Fields]
  | cons c cs ih =>
    by_cases hc : isSpace c = true
    · rw [Fields_space c cs hc, ih]
      simp [hc]
    · have hne := Fields_ne_nil c cs (by simpa using hc)
      simp [hne, hc]

theorem collapse_space (c : Char) (cs : GoString) (hc : isSpace c = true) :
    Join [' '] (Fields (c :: cs)) = Join [' '] (Fields cs) := by
  rw [Fields_space c cs hc]

theorem collapse_last (c : Char) (hc : isSpace c = false) :
    Join [' '] (Fields [c]) = [c] := by
  simp [Fields, hc, Join]

theorem collapse_break (c d : Char) (ds : GoString) (hc : isSpace c = false)
    (hd : isSpace d = true) :
    Join [' '] (Fields (c :: d :: ds)) =
      if Fields (d :: ds) = [] then [c]
      else c :: ' ' :: Join [' '] (Fields (d :: ds)) := by
  rw [Fields_break c d ds hc hd]
  cases hf : Fields (d :: ds) with
  | nil => simp [Join]
  | cons g gs => simp [Join]

theorem collapse_glue (c d : Char) (ds : GoString) (hc : isSpace c = false)
    (hd : isSpace d = false) :
    Join [' '] (Fields (c :: d :: ds)) = c :: Join [' '] (Fields (d :: ds)) := by
  obtain ⟨f, fs, h1, h2⟩ := Fields_glue c d ds hc hd
  rw [h2, h1, Join_cons_cons]

/-- The shape of the collapse of a text that starts with a non-space character: the
character, followed by nothing when only white space follows, by a space and the
collapse of the rest, or directly by the collapse of the rest when the rest starts
with a non-space character. -/
theorem collapse_cons (c : Char) (cs : GoString) (hc : isSpace c = false) :
    (Join [' '] (Fields (c :: cs)) = [c] ∧ ∀ x ∈ cs, isSpace x = true) ∨
      (Join [' '] (Fields (c :: cs)) = c :: ' ' :: Join [' '] (Fields cs) ∧
        Fields cs ≠ []) ∨
      (Join [' '] (Fields (c :: cs)) = c :: Join [' '] (Fields cs) ∧
        ∃ d ds, cs = d :: ds ∧ isSpace d = false) := by
  cases cs with
  | nil => exact Or.inl ⟨collapse_last c hc, by simp⟩
  | cons d ds =>
    by_cases hd : isSpace d = true
    · rw [collapse_break c d ds hc hd]
      by_cases hf : Fields (d :: ds) = []
      · left
        exact ⟨by simp [hf], (Fields_eq_nil_iff _).1 hf⟩
      · right; left; simp [hf]
    · right; right
      have hd' : isSpace d = false := by simpa using hd
      exact ⟨collapse_glue c d ds hc hd', d, ds, rfl, hd'⟩

theorem collapse_cons_head (c : Char) (cs : GoString) (hc : isSpace c = false) :
    ∃ t, Join [' '] (Fields (c :: cs)) = c :: t := by
  rcases collapse_cons c cs hc with ⟨h, _⟩ | ⟨h, _⟩ | ⟨h, _⟩ <;> exact ⟨_, h⟩

theorem collapse_eq_nil_iff (s : GoString) :
    Join [' '] (Fields s) = [] ↔ ∀ c ∈ s, isSpace c = true := by
  induction s with
  | nil => simp [Fields, Join]
  | cons c cs ih =>
    by_cases hc : isSpace c = true
    · rw [collapse_space c cs hc, ih]
      simp [hc]
    · have hc' : isSpace c = false := by simpa using hc
      have hne : Join [' '] (Fields (c :: cs)) ≠ [] := by
        rcases collapse_cons c cs hc' with ⟨h, _⟩ | ⟨h, _⟩ | ⟨h, _⟩ <;> rw [h] <;> simp
      simp [hne, hc]

theorem collapse_ne_nil_of_Fields (s : GoString) (h : Fields s ≠ []) :
    Join [' '] (Fields s) ≠ [] := by
  rw [Ne, collapse_eq_nil_iff, ← Fields_eq_nil_iff]
  exact h

/-- Every character of the collapsed text is the space character or a
non-space character of the text. -/
theorem mem_collapse (s : GoString) :
    ∀ x ∈ Join [' '] (Fields s), x = ' ' ∨ (x ∈ s ∧ isSpace x = false) := by
  induction s with
  | nil => simp [Fields, Join]
  | cons c cs ih =>
    intro x hx
    by_cases hc : isSpace c = true
    · rw [collapse_space c cs hc] at hx
      rcases ih x hx with h | ⟨h1, h2⟩
      · exact Or.inl h
      · exact Or.inr ⟨List.mem_cons_of_mem _ h1, h2⟩
    · have hc' : isSpace c = false := by simpa using hc
      have key : x = c ∨ x = ' ' ∨ x ∈ Join [' '] (Fields cs) := by
        rcases collapse_cons c cs hc' with ⟨h, _⟩ | ⟨h, _⟩ | ⟨h, _⟩ <;> rw [h] at hx <;>
          simp at hx <;> tauto
      rcases key with h | h | h
      · subst h; exact Or.inr ⟨by simp, hc'⟩
      · exact Or.inl h
      · rcases ih x h with h | ⟨h1, h2⟩
        · exact Or.inl h
        · exact Or.inr ⟨List.mem_cons_of_mem _ h1, h2⟩

/-- The collapsed text does not start with white space. -/
theorem collapse_head (s : GoString) :
    ∀ x t, Join [' '] (Fields s) = x :: t → isSpace x = false := by
  induction s with
  | nil => simp [Fields, Join]
  | cons c cs ih =>
    intro x t hx
    by_cases hc : isSpace c = true
    · rw [collapse_space c cs hc] at hx
      exact ih x t hx
    · have hc' : isSpace c = false := by simpa using hc
      have : x = c := by
        rcases collapse_cons c cs hc' with ⟨h, _⟩ | ⟨h, _⟩ | ⟨h, _⟩ <;> rw [h] at hx <;>
          simp at hx <;> exact hx.1.symm
      rw [this]; exact hc'

/-- The collapsed text does not end with white space. -/
theorem collapse_last_char (s : GoString) :
    ∀ x, [x] <:+ Join [' '] (Fields s) → isSpace x = false := by
  induction s with
  | nil =>
    intro x hx
    simp [Fields, Join] at hx
  | cons c cs ih =>
    intro x hx
    by_cases hc : isSpace c = true
    · rw [collapse_space c cs hc] at hx
      exact ih x hx
    · have hc' : isSpace c = false := by simpa using hc
      rcases collapse_cons c cs hc' with ⟨h, _⟩ | ⟨h, hne⟩ | ⟨h, d, ds, hcs, hd⟩
      · rw [h] at hx
        have := List.IsSuffix.eq_of_length hx (by simp)
        simp at this
        rw [this]; exact hc'
      · rw [h] at hx
        have hk := collapse_ne_nil_of_Fields cs hne
        rcases List.suffix_cons_iff.1 hx with h1 | h1
        · simp at h1
        · rcases List.suffix_cons_iff.1 h1 with h2 | h2
          · simp at h2
            exact absurd h2.2 hk
          · exact ih x h2
      · rw [h] at hx
        have hk : Join [' '] (Fields cs) ≠ [] := by
          rw [hcs]
          exact collapse_ne_nil_of_Fields _ (Fields_ne_nil d ds hd)
        rcases List.suffix_cons_iff.1 hx with h1 | h1
        · simp at h1
          exact absurd h1.2 hk
        · exact ih x h1

/-- No two adjacent characters of the collapsed text are both white space. -/
theorem collapse_no_double (s : GoString) :
    ∀ a b, [a, b] <:+: Join [' '] (Fields s) → ¬ (isSpace a = true ∧ isSpace b = true) := by
  induction s with
  | nil =>
    intro a b hab
    simp [Fields, Join] at hab
  | cons c cs ih =>
    intro a b hab
    by_cases hc : isSpace c = true
    · rw [collapse_space c cs hc] at hab
      exact ih a b hab
    · have hc' : isSpace c = false := by simpa using hc
      rcases collapse_cons c cs hc' with ⟨h, _⟩ | ⟨h, hne⟩ | ⟨h, d, ds, hcs, hd⟩
      · rw [h] at hab
        have := hab.length_le
        simp at this
      · rw [h] at hab
        rcases List.infix_cons_iff.1 hab with h1 | h1
        · rw [List.cons_prefix_cons] at h1
          rw [h1.1]; simp [hc']
        · rcases List.infix_cons_iff.1 h1 with h2 | h2
          · rw [List.cons_prefix_cons] at h2
            obtain ⟨t, ht⟩ := h2.2
            have := collapse_head cs b t (by simpa using ht.symm)
            simp [this]
          · exact ih a b h2
      · rw [h] at hab
        rcases List.infix_cons_iff.1 hab with h1 | h1
        · rw [List.cons_prefix_cons] at h1
          rw [h1.1]; simp [hc']
        · exact ih a b h1

theorem LastOK_of_suffix {s t : GoString} (h : LastOK s) (hts : t <:+ s) : LastOK t :=
  fun c hc => h c (hc.trans hts)

theorem LastOK_all_space {c : Char} {cs : GoString} (h : LastOK (c :: cs))
    (hall : ∀ x ∈ cs, isSpace x = true) : cs = [] := by
  rcases List.eq_nil_or_concat cs with h1 | ⟨l, x, h1⟩
  · exact h1
  · exfalso
    have hx : isSpace x = true := hall x (by rw [h1]; simp)
    have hs : [x] <:+ c :: cs := by
      rw [h1]
      exact ⟨c :: l, by simp⟩
    have := h x hs
    rw [hx] at this
    exact Bool.noConfusion this

/-- A prefix without space character of the collapsed text is a prefix of the
text, when the text does not start with white space. -/
theorem collapse_prefix (s : GoString) :
    ∀ p : GoString, HeadOK s → p <+: Join [' '] (Fields s) → ' ' ∉ p → p <+: s := by
  induction s with
  | nil =>
    intro p _ hp _
    simpa [Fields, Join] using hp
  | cons c cs ih =>
    intro p hs hp hsp
    have hc : isSpace c = false := hs c cs rfl
    cases p with
    | nil => exact List.nil_prefix
    | cons x p' =>
      have hsp' : ' ' ∉ p' := fun h => hsp (List.mem_cons_of_mem _ h)
      rcases collapse_cons c cs hc with ⟨h, _⟩ | ⟨h, _⟩ | ⟨h, d, ds, hcs, hd⟩
      · rw [h, List.cons_prefix_cons] at hp
        rw [List.cons_prefix_cons]
        have : p' = [] := by simpa using hp.2
        exact ⟨hp.1, by rw [this]; exact List.nil_prefix⟩
      · rw [h, List.cons_prefix_cons] at hp
        rw [List.cons_prefix_cons]
        refine ⟨hp.1, ?_⟩
        cases p' with
        | nil => exact List.nil_prefix
        | cons y p'' =>
          have := hp.2
          rw [List.cons_prefix_cons] at this
          exact absurd (by rw [this.1]; simp) hsp'
      · rw [h, List.cons_prefix_cons] at hp
        rw [List.cons_prefix_cons]
        refine ⟨hp.1, ih p' ?_ hp.2 hsp'⟩
        intro e t he
        rw [hcs] at he
        injection he with h1 h2
        rw [← h1]; exact hd

theorem collapse_eq_self (s : GoString) :
    ' ' ∉ Join [' '] (Fields s) → HeadOK s → LastOK s → Join [' '] (Fields s) = s := by
  induction s with
  | nil => intro _ _ _; rfl
  | cons c cs ih =>
    intro hsp hh hl
    have hc : isSpace c = false := hh c cs rfl
    rcases collapse_cons c cs hc with ⟨h, hall⟩ | ⟨h, _⟩ | ⟨h, d, ds, hcs, hd⟩
    · rw [h, LastOK_all_space hl hall]
    · rw [h] at hsp
      simp at hsp
    · rw [h] at hsp ⊢
      have h1 : ' ' ∉ Join [' '] (Fields cs) := fun hm => hsp (List.mem_cons_of_mem _ hm)
      have h2 : HeadOK cs := by
        intro e t he
        rw [hcs] at he
        injection he with h1 h2
        rw [← h1]; exact hd
      rw [ih h1 h2 (LastOK_of_suffix hl (List.suffix_cons c cs))]

/-- A suffix without space character of the collapsed text is a suffix of the
text, when the text does not end with white space. -/
theorem collapse_suffix (s : GoString) :
    ∀ p : GoString, LastOK s → p <:+ Join [' '] (Fields s) → ' ' ∉ p → p <:+ s := by
  induction s with
  | nil =>
    intro p _ hp _
    simpa [Fields, Join] using hp
  | cons c cs ih =>
    intro p hl hp hsp
    have hl' : LastOK cs := LastOK_of_suffix hl (List.suffix_cons c cs)
    by_cases hc : isSpace c = true
    · rw [collapse_space c cs hc] at hp
      exact (ih p hl' hp hsp).trans (List.suffix_cons c cs)
    · have hc' : isSpace c = false := by simpa using hc
      rcases collapse_cons c cs hc' with ⟨h, hall⟩ | ⟨h, _⟩ | ⟨h, d, ds, hcs, hd⟩
      · rw [h] at hp
        rw [LastOK_all_space hl hall]
        exact hp
      · rw [h] at hp
        rcases List.suffix_cons_iff.1 hp with h1 | h1
        · exact absurd (by rw [h1]; simp) hsp
        · rcases List.suffix_cons_iff.1 h1 with h2 | h2
          · exact absurd (by rw [h2]; simp) hsp
          · exact (ih p hl' h2 hsp).trans (List.suffix_cons c cs)
      · rw [h] at hp
        rcases List.suffix_cons_iff.1 hp with h1 | h1
        · have h3 : ' ' ∉ Join [' '] (Fields cs) := by
            intro hm
            exact hsp (by rw [h1]; exact List.mem_cons_of_mem _ hm)
          have h2 : HeadOK cs := by
            intro e t he
            rw [hcs] at he
            injection he with h1 h2
            rw [← h1]; exact hd
          rw [h1, collapse_eq_self cs h3 h2 hl']
        · exact (ih p hl' h1 hsp).trans (List.suffix_cons c cs)

/-- Collapsing a collapsed text changes nothing. -/
theorem collapse_idem (s : GoString) :
    Join [' '] (Fields (Join [' '] (Fields s))) = Join [' '] (Fields s) := by
  induction s with
  | nil => rfl
  | cons c cs ih =>
    by_cases hc : isSpace c = true
    · rw [collapse_space c cs hc]
      exact ih
    · have hc' : isSpace c = false := by simpa using hc
      rcases collapse_cons c cs hc' with ⟨h, _⟩ | ⟨h, hne⟩ | ⟨h, d, ds, hcs, hd⟩
      · rw [h, collapse_last c hc']
      · rw [h, collapse_break c ' ' _ hc' (by decide), Fields_space ' ' _ (by decide), ih]
        have hk := collapse_ne_nil_of_Fields cs hne
        have : Fields (Join [' '] (Fields cs)) ≠ [] := by
          rw [Ne, Fields_eq_nil_iff]
          intro hall
          cases hj : Join [' '] (Fields cs) with
          | nil => exact hk hj
          | cons x t =>
            have h1 := collapse_head cs x t hj
            have h2 := hall x (by rw [hj]; simp)
            rw [h1] at h2
            exact Bool.noConfusion h2
        rw [if_neg this]
      · rw [h]
        obtain ⟨t, ht⟩ := collapse_cons_head d ds hd
        rw [hcs] at ih ⊢
        rw [ht] at ih ⊢
        rw [collapse_glue c d t hc' hd, ih]

/-! ## Facts about the quoted-stretch replacement -/

theorem replaceQuotedFrom_false_cons (q c : Char) (cs : GoString) :
    replaceQuotedFrom q false (c :: cs) =
      if c = q then (if q ∈ cs then q :: replaceQuotedFrom q true cs else c :: cs)
      else c :: replaceQuotedFrom q false cs := by
  rw [replaceQuotedFrom]

theorem replaceQuotedFrom_true_cons (q c : Char) (cs : GoString) :
    replaceQuotedFrom q true (c :: cs) =
      if c = q then q :: replaceQuotedFrom q false cs else replaceQuotedFrom q true cs := by
  rw [replaceQuotedFrom]

/-- Every character of the result is a character of the text. -/
theorem mem_replaceQuotedFrom (q : Char) (s : GoString) :
    ∀ st x, x ∈ replaceQuotedFrom q st s → x ∈ s := by
  induction s with
  | nil => intro st x hx; cases st <;> simp [replaceQuotedFrom] at hx
  | cons c cs ih =>
    intro st x hx
    cases st with
    | true =>
      rw [replaceQuotedFrom_true_cons] at hx
      split at hx
      · rename_i hcq
        rcases List.mem_cons.1 hx with h | h
        · rw [h, ← hcq]; simp
        · exact List.mem_cons_of_mem _ (ih false x h)
      · exact List.mem_cons_of_mem _ (ih true x hx)
    | false =>
      rw [replaceQuotedFrom_false_cons] at hx
      split at hx
      · rename_i hcq
        split at hx
        · rcases List.mem_cons.1 hx with h | h
          · rw [h, ← hcq]; simp
          · exact List.mem_cons_of_mem _ (ih true x h)
        · exact hx
      · rcases List.mem_cons.1 hx with h | h
        · rw [h]; simp
        · exact List.mem_cons_of_mem _ (ih false x h)

/-- A text without the quote character is left unchanged. -/
theorem replaceQuotedFrom_of_not_mem (q : Char) (s : GoString) (h : q ∉ s) :
    replaceQuotedFrom q false s = s := by
  induction s with
  | nil => rfl
  | cons c cs ih =>
    have hc : c ≠ q := fun e => h (by rw [e]; simp)
    rw [replaceQuotedFrom_false_cons, if_neg hc, ih (fun hm => h (List.mem_cons_of_mem _ hm))]

/-- Outside a quoted stretch the first quote of the text is copied, so a result
without quote comes from a text without quote. -/
theorem not_mem_of_replaceQuotedFrom (q : Char) (s : GoString)
    (h : q ∉ replaceQuotedFrom q false s) : q ∉ s := by
  induction s with
  | nil => simp
  | cons c cs ih =>
    rw [replaceQuotedFrom_false_cons] at h
    by_cases hc : c = q
    · rw [if_pos hc] at h
      split at h
      · simp at h
      · rw [hc] at h; simp at h
    · rw [if_neg hc] at h
      intro hm
      rcases List.mem_cons.1 hm with h1 | h1
      · exact hc h1.symm
      · exact ih (fun hm2 => h (List.mem_cons_of_mem _ hm2)) h1

/-- Inside a quoted stretch that has a closing quote, the result starts with the
closing quote. -/
theorem replaceQuotedFrom_true_head (q : Char) (s : GoString) (h : q ∈ s) :
    ∃ t, replaceQuotedFrom q true s = q :: t := by
  induction s with
  | nil => simp at h
  | cons c cs ih =>
    rw [replaceQuotedFrom_true_cons]
    by_cases hc : c = q
    · rw [if_pos hc]; exact ⟨_, rfl⟩
    · rw [if_neg hc]
      rcases List.mem_cons.1 h with h1 | h1
      · exact absurd h1.symm hc
      · exact ih h1

/-- A prefix without quote of the result is a prefix of the text. -/
theorem replaceQuoted_prefix (q : Char) (s : GoString) :
    ∀ p : GoString, p <+: replaceQuotedFrom q false s → q ∉ p → p <+: s := by
  induction s with
  | nil => intro p hp _; simpa [replaceQuotedFrom] using hp
  | cons c cs ih =>
    intro p hp hq
    cases p with
    | nil => exact List.nil_prefix
    | cons x p' =>
      have hx : x ≠ q := fun e => hq (by rw [e]; simp)
      have hq' : q ∉ p' := fun hm => hq (List.mem_cons_of_mem _ hm)
      rw [replaceQuotedFrom_false_cons] at hp
      by_cases hc : c = q
      · rw [if_pos hc] at hp
        split at hp
        · rw [List.cons_prefix_cons] at hp
          exact absurd hp.1 hx
        · exact hp
      · rw [if_neg hc, List.cons_prefix_cons] at hp
        rw [List.cons_prefix_cons]
        exact ⟨hp.1, ih p' hp.2 hq'⟩

/-- A suffix without quote of the result is a suffix of the text. -/
theorem replaceQuoted_suffix (q : Char) (s : GoString) :
    ∀ (st : Bool) (p : GoString), p <:+ replaceQuotedFrom q st s → q ∉ p → p <:+ s := by
  induction s with
  | nil => intro st p hp _; cases st <;> simpa [replaceQuotedFrom] using hp
  | cons c cs ih =>
    intro st p hp hq
    cases st with
    | true =>
      rw [replaceQuotedFrom_true_cons] at hp
      split at hp
      · rcases List.suffix_cons_iff.1 hp with h1 | h1
        · exact absurd (by rw [h1]; simp) hq
        · exact (ih false p h1 hq).trans (List.suffix_cons c cs)
      · exact (ih true p hp hq).trans (List.suffix_cons c cs)
    | false =>
      rw [replaceQuotedFrom_false_cons] at hp
      by_cases hc : c = q
      · rw [if_pos hc] at hp
        split at hp
        · rcases List.suffix_cons_iff.1 hp with h1 | h1
          · exact absurd (by rw [h1]; simp) hq
          · exact (ih true p h1 hq).trans (List.suffix_cons c cs)
        · exact hp
      · rw [if_neg hc] at hp
        rcases List.suffix_cons_iff.1 hp with h1 | h1
        · have h2 : q ∉ replaceQuotedFrom q false cs := by
            intro hm
            exact hq (by rw [h1]; exact List.mem_cons_of_mem _ hm)
          have h3 := not_mem_of_replaceQuotedFrom q cs h2
          rw [h1, replaceQuotedFrom_of_not_mem q cs h3]
        · exact (ih false p h1 hq).trans (List.suffix_cons c cs)

theorem pairedFrom_false_cons (q c : Char) (cs : GoString) :
    pairedFrom q false (c :: cs) =
      if c = q then (if q ∈ cs then pairedFrom q true cs else true)
      else pairedFrom q false cs := by
  rw [pairedFrom]

theorem pairedFrom_true_cons (q c : Char) (cs : GoString) :
    pairedFrom q true (c :: cs) = if c = q then pairedFrom q false cs else false := by
  rw [pairedFrom]

theorem pairedFrom_of_not_mem (q : Char) (s : GoString) (h : q ∉ s) :
    pairedFrom q false s = true := by
  induction s with
  | nil => rfl
  | cons c cs ih =>
    have hc : c ≠ q := fun e => h (by rw [e]; simp)
    rw [pairedFrom_false_cons, if_neg hc]
    exact ih (fun hm => h (List.mem_cons_of_mem _ hm))

theorem pairedFrom_true_inv (q : Char) (s : GoString) (hs : s ≠ [])
    (h : pairedFrom q true s = true) : ∃ cs, s = q :: cs ∧ pairedFrom q false cs = true := by
  cases s with
  | nil => exact absurd rfl hs
  | cons c cs =>
    rw [pairedFrom_true_cons] at h
    by_cases hc : c = q
    · rw [if_pos hc] at h
      exact ⟨cs, by rw [hc], h⟩
    · rw [if_neg hc] at h
      exact Bool.noConfusion h

/-- A paired text is a fixed point of the replacement. -/
theorem replaceQuotedFrom_of_paired (q : Char) (s : GoString) :
    ∀ st, pairedFrom q st s = true → replaceQuotedFrom q st s = s := by
  induction s with
  | nil => intro st _; cases st <;> rfl
  | cons c cs ih =>
    intro st h
    cases st with
    | true =>
      rw [pairedFrom_true_cons] at h
      rw [replaceQuotedFrom_true_cons]
      by_cases hc : c = q
      · rw [if_pos hc] at h
        rw [if_pos hc, ih false h, hc]
      · rw [if_neg hc] at h
        exact Bool.noConfusion h
    | false =>
      rw [pairedFrom_false_cons] at h
      rw [replaceQuotedFrom_false_cons]
      by_cases hc : c = q
      · rw [if_pos hc] at h
        rw [if_pos hc]
        by_cases hm : q ∈ cs
        · rw [if_pos hm] at h
          rw [if_pos hm, ih true h, hc]
        · rw [if_neg hm]
      · rw [if_neg hc] at h
        rw [if_neg hc, ih false h]

/-- The result of the replacement is paired. -/
theorem paired_replaceQuotedFrom (q : Char) (s : GoString) :
    ∀ st, (st = true → q ∈ s) → pairedFrom q st (replaceQuotedFrom q st s) = true := by
  induction s with
  | nil => intro st _; cases st <;> rfl
  | cons c cs ih =>
    intro st hst
    cases st with
    | true =>
      rw [replaceQuotedFrom_true_cons]
      by_cases hc : c = q
      · rw [if_pos hc, pairedFrom_true_cons, if_pos rfl]
        exact ih false (fun h => Bool.noConfusion h)
      · rw [if_neg hc]
        apply ih true
        intro _
        rcases List.mem_cons.1 (hst rfl) with h1 | h1
        · exact absurd h1.symm hc
        · exact h1
    | false =>
      rw [replaceQuotedFrom_false_cons]
      by_cases hc : c = q
      · rw [if_pos hc]
        by_cases hm : q ∈ cs
        · rw [if_pos hm, pairedFrom_false_cons, if_pos rfl]
          split
          · exact ih true (fun _ => hm)
          · rfl
        · rw [if_neg hm, pairedFrom_false_cons, if_pos hc, if_neg hm]
      · rw [if_neg hc, pairedFrom_false_cons, if_neg hc]
        exact ih false (fun h => Bool.noConfusion h)

/-- Replacing the stretches quoted by another character keeps a text paired. -/
theorem paired_replaceQuotedFrom_other (q q' : Char) (hq : q ≠ q') (s : GoString) :
    (pairedFrom q false s = true → pairedFrom q false (replaceQuotedFrom q' false s) = true) ∧
    (pairedFrom q false s = true → pairedFrom q false (replaceQuotedFrom q' true s) = true) ∧
    (pairedFrom q true s = true → pairedFrom q true (replaceQuotedFrom q' false s) = true) ∧
    (pairedFrom q true s = true → pairedFrom q false (replaceQuotedFrom q' true s) = true) := by
  induction s with
  | nil => simp [replaceQuotedFrom, pairedFrom]
  | cons c cs ih =>
    obtain ⟨ihA, ihB, ihC, ihD⟩ := ih
    have hq2 : ¬ q' = q := fun e => hq e.symm
    refine ⟨?_, ?_, ?_, ?_⟩
    · intro h
      rw [pairedFrom_false_cons] at h
      rw [replaceQuotedFrom_false_cons]
      by_cases hc' : c = q'
      · have hc : c ≠ q := by rw [hc']; exact hq2
        rw [if_neg hc] at h
        rw [if_pos hc']
        split
        · rw [pairedFrom_false_cons, if_neg hq2]
          exact ihB h
        · rw [pairedFrom_false_cons, if_neg hc]
          exact h
      · rw [if_neg hc', pairedFrom_false_cons]
        by_cases hc : c = q
        · rw [if_pos hc] at h
          rw [if_pos hc]
          split
          · rename_i hm
            have hm2 : q ∈ cs := mem_replaceQuotedFrom q' cs false q hm
            rw [if_pos hm2] at h
            exact ihC h
          · rfl
        · rw [if_neg hc] at h
          rw [if_neg hc]
          exact ihA h
    · intro h
      rw [pairedFrom_false_cons] at h
      rw [replaceQuotedFrom_true_cons]
      by_cases hc' : c = q'
      · have hc : c ≠ q := by rw [hc']; exact hq2
        rw [if_neg hc] at h
        rw [if_pos hc', pairedFrom_false_cons, if_neg hq2]
        exact ihA h
      · rw [if_neg hc']
        by_cases hc : c = q
        · rw [if_pos hc] at h
          by_cases hm : q ∈ cs
          · rw [if_pos hm] at h
            exact ihD h
          · exact ihB (pairedFrom_of_not_mem q cs hm)
        · rw [if_neg hc] at h
          exact ihB h
    · intro h
      rw [pairedFrom_true_cons] at h
      by_cases hc : c = q
      · rw [if_pos hc] at h
        have hc' : c ≠ q' := by rw [hc]; exact hq
        rw [replaceQuotedFrom_false_cons, if_neg hc', pairedFrom_true_cons, if_pos hc]
        exact ihA h
      · rw [if_neg hc] at h
        exact Bool.noConfusion h
    · intro h
      rw [pairedFrom_true_cons] at h
      by_cases hc : c = q
      · rw [if_pos hc] at h
        have hc' : c ≠ q' := by rw [hc]; exact hq
        rw [replaceQuotedFrom_true_cons, if_neg hc']
        exact ihB h
      · rw [if_neg hc] at h
        exact Bool.noConfusion h

/-- Collapsing the white space keeps a text paired, for a quote that is not white
space. -/
theorem paired_collapse (q : Char) (hq : isSpace q = false) (s : GoString) :
    (pairedFrom q false s = true → pairedFrom q false (Join [' '] (Fields s)) = true) ∧
    (pairedFrom q true s = true → pairedFrom q true (Join [' '] (Fields s)) = true) := by
  have hqs : ¬ ' ' = q := by
    intro e; rw [← e] at hq; exact absurd hq (by decide)
  induction s with
  | nil => simp [Fields, Join, pairedFrom]
  | cons c cs ih =>
    obtain ⟨ihA, ihC⟩ := ih
    have tailA : pairedFrom q false cs = true →
        ∀ rest, (rest = [] ∨ rest = ' ' :: Join [' '] (Fields cs) ∨
          rest = Join [' '] (Fields cs)) → pairedFrom q false rest = true := by
      intro h rest hr
      rcases hr with h1 | h1 | h1
      · rw [h1]; rfl
      · rw [h1, pairedFrom_false_cons, if_neg hqs]; exact ihA h
      · rw [h1]; exact ihA h
    constructor
    · intro h
      rw [pairedFrom_false_cons] at h
      by_cases hc : c = q
      · rw [if_pos hc] at h
        have hcs : isSpace c = false := by rw [hc]; exact hq
        by_cases hm : q ∈ cs
        · rw [if_pos hm] at h
          have hne : cs ≠ [] := by intro e; rw [e] at hm; simp at hm
          obtain ⟨cs', hcs', _⟩ := pairedFrom_true_inv q cs hne h
          rw [hcs', collapse_glue c q cs' hcs hq, pairedFrom_false_cons, if_pos hc, ← hcs']
          split
          · exact ihC h
          · rfl
        · have hnm : q ∉ Join [' '] (Fields cs) := by
            intro hx
            rcases mem_collapse cs q hx with h1 | ⟨h1, _⟩
            · exact hqs h1.symm
            · exact hm h1
          rcases collapse_cons c cs hcs with ⟨h1, _⟩ | ⟨h1, _⟩ | ⟨h1, _⟩ <;>
            rw [h1, pairedFrom_false_cons, if_pos hc]
          · simp
          · rw [if_neg (by simp [hnm, Ne.symm hqs])]
          · rw [if_neg hnm]
      · rw [if_neg hc] at h
        by_cases hcs : isSpace c = true
        · rw [collapse_space c cs hcs]; exact ihA h
        · have hcs' : isSpace c = false := by simpa using hcs
          rcases collapse_cons c cs hcs' with ⟨h1, _⟩ | ⟨h1, _⟩ | ⟨h1, _⟩ <;>
            rw [h1, pairedFrom_false_cons, if_neg hc]
          · exact tailA h _ (Or.inl rfl)
          · exact tailA h _ (Or.inr (Or.inl rfl))
          · exact tailA h _ (Or.inr (Or.inr rfl))
    · intro h
      rw [pairedFrom_true_cons] at h
      by_cases hc : c = q
      · rw [if_pos hc] at h
        have hcs : isSpace c = false := by rw [hc]; exact hq
        rcases collapse_cons c cs hcs with ⟨h1, _⟩ | ⟨h1, _⟩ | ⟨h1, _⟩ <;>
          rw [h1, pairedFrom_true_cons, if_pos hc]
        · exact tailA h _ (Or.inl rfl)
        · exact tailA h _ (Or.inr (Or.inl rfl))
        · exact tailA h _ (Or.inr (Or.inr rfl))
      · rw [if_neg hc] at h
        exact Bool.noConfusion h

theorem toNat_ofNat_small (n : Nat) (h : n < 0xD800) : (Char.ofNat n).toNat = n := by
  have hv : n.isValidChar := Or.inl h
  simp [Char.ofNat, hv, Char.ofNatAux, Char.toNat, UInt32.toNat]

theorem Char_eq_of_toNat_eq {a b : Char} (h : a.toNat = b.toNat) : a = b := by
  rw [← Char.ofNat_toNat a, ← Char.ofNat_toNat b, h]

theorem toLowerRune_ascii_upper (tbl : Char → Char) (r : Char)
    (h1 : 65 ≤ r.toNat) (h2 : r.toNat ≤ 90) :
    (toLowerRune tbl r).toNat = r.toNat + 32 := by
  have : toLowerRune tbl r = Char.ofNat (r.toNat + 32) := by
    simp only [toLowerRune, show 'A'.toNat = 65 from rfl, show 'Z'.toNat = 90 from rfl]
    rw [if_pos (by omega), if_pos ⟨h1, h2⟩]
  rw [this, toNat_ofNat_small _ (by omega)]

theorem toLowerRune_ascii_other (tbl : Char → Char) (r : Char)
    (h1 : r.toNat ≤ 127) (h2 : ¬ (65 ≤ r.toNat ∧ r.toNat ≤ 90)) :
    toLowerRune tbl r = r := by
  simp only [toLowerRune, show 'A'.toNat = 65 from rfl, show 'Z'.toNat = 90 from rfl]
  rw [if_pos h1, if_neg h2]

theorem toLowerRune_high (tbl : Char → Char) (r : Char) (h1 : 127 < r.toNat) :
    toLowerRune tbl r = tbl r := by
  unfold toLowerRune
  rw [if_neg (by omega)]

theorem toLowerRune_idem (tbl : Char → Char) (h : CaseTableSound tbl) (r : Char) :
    toLowerRune tbl (toLowerRune tbl r) = toLowerRune tbl r := by
  by_cases h1 : r.toNat ≤ 127
  · by_cases h2 : 65 ≤ r.toNat ∧ r.toNat ≤ 90
    · have h3 := toLowerRune_ascii_upper tbl r h2.1 h2.2
      exact toLowerRune_ascii_other tbl _ (by omega) (by omega)
    · rw [toLowerRune_ascii_other tbl r h1 h2, toLowerRune_ascii_other tbl r h1 h2]
  · rw [toLowerRune_high tbl r (by omega)]
    exact (h r (by omega)).1

theorem isSpace_iff (r : Char) : isSpace r = true ↔
    ((9 ≤ r.toNat ∧ r.toNat ≤ 13) ∨ r.toNat = 0x20 ∨ r.toNat = 0x85 ∨ r.toNat = 0xA0 ∨
      r.toNat = 0x1680 ∨ (0x2000 ≤ r.toNat ∧ r.toNat ≤ 0x200A) ∨ r.toNat = 0x2028 ∨
      r.toNat = 0x2029 ∨ r.toNat = 0x202F ∨ r.toNat = 0x205F ∨ r.toNat = 0x3000) := by
  simp [isSpace, or_assoc]

theorem isSpace_toLowerRune (tbl : Char → Char) (h : CaseTableSound tbl) (r : Char)
    (hs : isSpace (toLowerRune tbl r) = true) : isSpace r = true := by
  by_cases h1 : r.toNat ≤ 127
  · by_cases h2 : 65 ≤ r.toNat ∧ r.toNat ≤ 90
    · have h3 := toLowerRune_ascii_upper tbl r h2.1 h2.2
      rw [isSpace_iff, h3] at hs
      omega
    · rwa [toLowerRune_ascii_other tbl r h1 h2] at hs
  · rw [toLowerRune_high tbl r (by omega)] at hs
    exact (h r (by omega)).2.1 hs

/-- The characters `/`, `*` and `#` are the small form of themselves only. -/
theorem toLowerRune_rigid (tbl : Char → Char) (h : CaseTableSound tbl) (r x : Char)
    (hx : x = '/' ∨ x = '*' ∨ x = '#') (hr : toLowerRune tbl r = x) : r = x := by
  have hxn : x.toNat = 47 ∨ x.toNat = 42 ∨ x.toNat = 35 := by
    rcases hx with e | e | e <;> rw [e] <;> decide
  by_cases h1 : r.toNat ≤ 127
  · by_cases h2 : 65 ≤ r.toNat ∧ r.toNat ≤ 90
    · have h3 := toLowerRune_ascii_upper tbl r h2.1 h2.2
      rw [hr] at h3
      omega
    · rwa [toLowerRune_ascii_other tbl r h1 h2] at hr
  · rw [toLowerRune_high tbl r (by omega)] at hr
    obtain ⟨_, _, a, b, c⟩ := h r (by omega)
    rw [hr] at a b c
    rcases hx with e | e | e
    · exact absurd e a
    · exact absurd e b
    · exact absurd e c

/-! ## Prefixes and suffixes through the stages of `normalizeCode` -/

theorem Marker_ne_nil {p : GoString} (h : Marker p) : p ≠ [] := by
  rcases h with e | e | e | e <;> rw [e] <;> simp

theorem Marker_chars {p : GoString} (h : Marker p) :
    ∀ x ∈ p, x = '/' ∨ x = '*' ∨ x = '#' := by
  rcases h with e | e | e | e <;> rw [e] <;> simp

theorem Marker_not_mem {p : GoString} (h : Marker p) (q : Char)
    (hq : q ≠ '/' ∧ q ≠ '*' ∧ q ≠ '#') : q ∉ p := by
  intro hm
  rcases Marker_chars h q hm with e | e | e
  · exact hq.1 e
  · exact hq.2.1 e
  · exact hq.2.2 e

theorem HeadOK_of_prefix_imp {s y : GoString} (hy : HeadOK y)
    (h : ∀ c, isSpace c = true → [c] <+: s → [c] <+: y) : HeadOK s := by
  intro c t hs
  cases hc : isSpace c with
  | false => rfl
  | true =>
    have h1 : [c] <+: s := by rw [hs]; exact ⟨t, rfl⟩
    obtain ⟨u, hu⟩ := h c hc h1
    have := hy c u (by simpa using hu.symm)
    rw [hc] at this
    exact Bool.noConfusion this

theorem LastOK_of_suffix_imp {s y : GoString} (hy : LastOK y)
    (h : ∀ c, isSpace c = true → [c] <:+ s → [c] <:+ y) : LastOK s := by
  intro c hs
  cases hc : isSpace c with
  | false => rfl
  | true =>
    have := hy c (h c hc hs)
    rw [hc] at this
    exact Bool.noConfusion this

/-- The replacement of quoted stretches, for a quote that is neither white space
nor part of a marker. -/
theorem Follows_replaceQuoted (q : Char) (hq : isSpace q = false)
    (hm : q ≠ '/' ∧ q ≠ '*' ∧ q ≠ '#') (y : GoString) (hy1 : HeadOK y) (hy2 : LastOK y) :
    Follows (replaceQuoted q y) y := by
  have hne : ∀ c, isSpace c = true → q ∉ [c] := by
    intro c hc hmem
    have : q = c := by simpa using hmem
    rw [this, hc] at hq
    exact Bool.noConfusion hq
  refine ⟨?_, ?_, ?_⟩
  · exact HeadOK_of_prefix_imp hy1 (fun c hc h => replaceQuoted_prefix q y [c] h (hne c hc))
  · exact LastOK_of_suffix_imp hy2
      (fun c hc h => replaceQuoted_suffix q y false [c] h (hne c hc))
  · intro p hp
    exact ⟨fun h => replaceQuoted_prefix q y p h (Marker_not_mem hp q hm),
      fun h => replaceQuoted_suffix q y false p h (Marker_not_mem hp q hm)⟩

/-- The whitespace collapse. -/
theorem Follows_collapse (y : GoString) (hy1 : HeadOK y) (hy2 : LastOK y) :
    Follows (Join [' '] (Fields y)) y := by
  refine ⟨fun c t h => collapse_head y c t h, collapse_last_char y, ?_⟩
  intro p hp
  have hsp : ' ' ∉ p := Marker_not_mem hp ' ' (by decide)
  exact ⟨fun h => collapse_prefix y p hy1 h hsp, fun h => collapse_suffix y p hy2 h hsp⟩

theorem map_eq_of_rigid (f : Char → Char) (p : GoString)
    (hp : ∀ x ∈ p, ∀ r, f r = x → r = x) : ∀ s : GoString, s.map f = p → s = p := by
  induction p with
  | nil => intro s h; simpa using h
  | cons x p' ih =>
    intro s h
    cases s with
    | nil => simp at h
    | cons r s' =>
      simp only [List.map_cons, List.cons.injEq] at h
      rw [hp x (by simp) r h.1, ih (fun z hz => hp z (List.mem_cons_of_mem _ hz)) s' h.2]

theorem prefix_of_map (f : Char → Char) (p s : GoString)
    (hp : ∀ x ∈ p, ∀ r, f r = x → r = x) (h : p <+: s.map f) : p <+: s := by
  obtain ⟨t, ht⟩ := h
  obtain ⟨s1, s2, hs, h1, _⟩ := List.map_eq_append_iff.1 ht.symm
  rw [hs, map_eq_of_rigid f p hp s1 h1]
  exact List.prefix_append _ _

theorem suffix_of_map (f : Char → Char) (p s : GoString)
    (hp : ∀ x ∈ p, ∀ r, f r = x → r = x) (h : p <:+ s.map f) : p <:+ s := by
  obtain ⟨t, ht⟩ := h
  obtain ⟨s1, s2, hs, _, h2⟩ := List.map_eq_append_iff.1 ht.symm
  rw [hs, map_eq_of_rigid f p hp s2 h2]
  exact List.suffix_append _ _

/-- The case folding `strings.ToLower`. -/
theorem Follows_ToLower (tbl : Char → Char) (h : CaseTableSound tbl) (y : GoString)
    (hy1 : HeadOK y) (hy2 : LastOK y) : Follows (ToLower tbl y) y := by
  refine ⟨?_, ?_, ?_⟩
  · intro c t hc
    cases y with
    | nil => simp [ToLower] at hc
    | cons r y' =>
      simp only [ToLower, List.map_cons, List.cons.injEq] at hc
      have hr := hy1 r y' rfl
      cases hs : isSpace c with
      | false => rfl
      | true =>
        rw [← hc.1] at hs
        rw [isSpace_toLowerRune tbl h r hs] at hr
        exact Bool.noConfusion hr
  · intro c hc
    obtain ⟨t, ht⟩ := hc
    have ht' : List.map (toLowerRune tbl) y = t ++ [c] := ht.symm
    obtain ⟨s1, s2, hs, _, h2⟩ := List.map_eq_append_iff.1 ht'
    cases s2 with
    | nil => simp at h2
    | cons r s2' =>
      simp only [List.map_cons, List.cons.injEq, List.map_eq_nil_iff] at h2
      have hr : isSpace r = false := hy2 r (by rw [hs, h2.2]; exact List.suffix_append _ _)
      cases hsc : isSpace c with
      | false => rfl
      | true =>
        rw [← h2.1] at hsc
        rw [isSpace_toLowerRune tbl h r hsc] at hr
        exact Bool.noConfusion hr
  · intro p hp
    have hrig : ∀ x ∈ p, ∀ r, toLowerRune tbl r = x → r = x :=
      fun x hx r hr => toLowerRune_rigid tbl h r x (Marker_chars hp x hx) hr
    exact ⟨fun hh => prefix_of_map _ p y hrig hh, fun hh => suffix_of_map _ p y hrig hh⟩

theorem Follows_trans {a b c : GoString} (h1 : Follows a b) (h2 : Follows b c) :
    Follows a c :=
  ⟨h1.1, h1.2.1, fun p hp =>
    ⟨fun h => (h2.2.2 p hp).1 ((h1.2.2 p hp).1 h), fun h => (h2.2.2 p hp).2 ((h1.2.2 p hp).2 h)⟩⟩

/-! ## Facts about `TrimSpace`, `Split` and the line filter -/

theorem trimLeft_suffix (s : GoString) : trimLeft s <:+ s := by
  induction s with
  | nil => exact List.suffix_refl _
  | cons c cs ih =>
    unfold trimLeft
    split
    · exact ih.trans (List.suffix_cons c cs)
    · exact List.suffix_refl _

theorem trimLeft_HeadOK (s : GoString) : HeadOK (trimLeft s) := by
  induction s with
  | nil => intro c t h; simp [trimLeft] at h
  | cons c cs ih =>
    unfold trimLeft
    split
    · exact ih
    · rename_i hc
      intro x t h
      injection h with h1 h2
      rw [← h1]; simpa using hc

theorem trimLeft_of_HeadOK (s : GoString) (h : HeadOK s) : trimLeft s = s := by
  cases s with
  | nil => rfl
  | cons c cs =>
    have := h c cs rfl
    simp [trimLeft, this]

theorem HeadOK_reverse_iff (s : GoString) : HeadOK s.reverse ↔ LastOK s := by
  constructor
  · intro h c hc
    obtain ⟨t, ht⟩ := hc
    exact h c t.reverse (by rw [← ht]; simp)
  · intro h c t hc
    apply h c
    refine ⟨t.reverse, ?_⟩
    have := congrArg List.reverse hc
    simpa using this.symm

theorem TrimSpace_HeadOK (s : GoString) : HeadOK (TrimSpace s) := by
  intro c t h
  unfold TrimSpace at h
  have h1 : trimLeft (trimLeft s).reverse <:+ (trimLeft s).reverse := trimLeft_suffix _
  have h2 : (trimLeft (trimLeft s).reverse).reverse <+: trimLeft s := by
    have := List.reverse_prefix.2 h1
    simpa using this
  rw [h] at h2
  obtain ⟨u, hu⟩ := h2
  exact trimLeft_HeadOK s c (t ++ u) (by simpa using hu.symm)

theorem TrimSpace_LastOK (s : GoString) : LastOK (TrimSpace s) := by
  rw [← HeadOK_reverse_iff]
  unfold TrimSpace
  rw [List.reverse_reverse]
  exact trimLeft_HeadOK _

theorem TrimSpace_of_trimmed (s : GoString) (h1 : HeadOK s) (h2 : LastOK s) :
    TrimSpace s = s := by
  unfold TrimSpace
  rw [trimLeft_of_HeadOK s h1, trimLeft_of_HeadOK _ ((HeadOK_reverse_iff s).2 h2),
    List.reverse_reverse]

theorem Split_of_not_mem (sep : Char) (s : GoString) (h : sep ∉ s) : Split sep s = [s] := by
  induction s with
  | nil => rfl
  | cons c cs ih =>
    have hc : c ≠ sep := fun e => h (by rw [e]; simp)
    unfold Split
    rw [if_neg hc, ih (fun hm => h (List.mem_cons_of_mem _ hm))]

theorem startsWith_iff (s p : GoString) : startsWith s p = true ↔ p <+: s := by
  unfold startsWith
  exact List.isPrefixOf_iff_prefix

theorem endsWith_iff (s p : GoString) : endsWith s p = true ↔ p <:+ s := by
  unfold endsWith
  rw [List.isPrefixOf_iff_prefix, List.reverse_prefix]

theorem keepPythonLine_iff (line : GoString) :
    keepPythonLine line = true ↔ line ≠ [] ∧ ¬ ['#'] <+: line := by
  simp only [keepPythonLine, Bool.and_eq_true, Bool.not_eq_true', bne_iff_ne, ne_eq]
  rw [← Bool.not_eq_true, startsWith_iff]
  tauto

theorem keepDefaultLine_iff (line : GoString) :
    keepDefaultLine line = true ↔
      line ≠ [] ∧ ¬ ['/', '/'] <+: line ∧ ¬ ['/', '*'] <+: line ∧ ¬ ['*', '/'] <:+ line := by
  simp only [keepDefaultLine, Bool.and_eq_true, Bool.not_eq_true', bne_iff_ne, ne_eq]
  rw [← Bool.not_eq_true, ← Bool.not_eq_true, ← Bool.not_eq_true, startsWith_iff,
    startsWith_iff, endsWith_iff]
  tauto

theorem prefix_of_append_sep (a t p : GoString) (hp : ' ' ∉ p)
    (h : p <+: a ++ ' ' :: t) : p <+: a := by
  induction a generalizing p with
  | nil =>
    cases p with
    | nil => exact List.nil_prefix
    | cons x p' =>
      simp only [List.nil_append, List.cons_prefix_cons] at h
      exact absurd (by rw [h.1]; simp) hp
  | cons c a' ih =>
    cases p with
    | nil => exact List.nil_prefix
    | cons x p' =>
      simp only [List.cons_append, List.cons_prefix_cons] at h
      rw [List.cons_prefix_cons]
      exact ⟨h.1, ih p' (fun hm => hp (List.mem_cons_of_mem _ hm)) h.2⟩

theorem suffix_of_append_sep (a t p : GoString) (hp : ' ' ∉ p)
    (h : p <:+ a ++ ' ' :: t) : p <:+ t := by
  induction a with
  | nil =>
    rcases List.suffix_cons_iff.1 h with h1 | h1
    · exact absurd (by rw [h1]; simp) hp
    · exact h1
  | cons c a' ih =>
    rcases List.suffix_cons_iff.1 h with h1 | h1
    · exact absurd (by rw [h1]; simp) hp
    · exact ih h1

/-- The join of non-empty trimmed lines with single spaces: it is trimmed, and a
comment marker that starts (ends) it starts (ends) one of the lines. -/
theorem Join_lines (ks : List GoString)
    (hk : ∀ k ∈ ks, k ≠ [] ∧ HeadOK k ∧ LastOK k) :
    HeadOK (Join [' '] ks) ∧ LastOK (Join [' '] ks) ∧
      (ks ≠ [] → Join [' '] ks ≠ []) ∧
      ∀ p, ' ' ∉ p → p ≠ [] →
        (p <+: Join [' '] ks → ∃ k ∈ ks, p <+: k) ∧
        (p <:+ Join [' '] ks → ∃ k ∈ ks, p <:+ k) := by
  induction ks with
  | nil =>
    refine ⟨fun c t h => by simp [Join] at h, fun c h => by simp [Join] at h,
      fun h => absurd rfl h, ?_⟩
    intro p _ hp
    constructor <;> intro h <;> simp [Join] at h <;> exact absurd h hp
  | cons a rest ih =>
    obtain ⟨ha0, ha1, ha2⟩ := hk a (by simp)
    cases rest with
    | nil =>
      refine ⟨ha1, ha2, fun _ => ha0, ?_⟩
      intro p _ _
      exact ⟨fun h => ⟨a, by simp, h⟩, fun h => ⟨a, by simp, h⟩⟩
    | cons b rest' =>
      obtain ⟨ih1, ih2, ih3, ih4⟩ := ih (fun k hk' => hk k (List.mem_cons_of_mem _ hk'))
      have hJ : Join [' '] (a :: b :: rest') = a ++ ' ' :: Join [' '] (b :: rest') := by
        simp [Join]
      have hne := ih3 (by simp)
      rw [hJ]
      refine ⟨?_, ?_, by simp, ?_⟩
      · intro c t h
        cases a with
        | nil => exact absurd rfl ha0
        | cons x a' =>
          simp only [List.cons_append, List.cons.injEq] at h
          rw [← h.1]
          exact ha1 x a' rfl
      · intro c h
        rcases List.eq_nil_or_concat (Join [' '] (b :: rest')) with e | ⟨l, x, e⟩
        · exact absurd e hne
        · apply ih2 c
          rw [List.concat_eq_append] at e
          rw [e] at h ⊢
          obtain ⟨u, hu⟩ := h
          have hu' : (u ++ [c]) = (a ++ ' ' :: l) ++ [x] := by simpa using hu
          have := List.append_inj_right' hu' rfl
          rw [List.cons.injEq] at this
          rw [this.1]
          exact List.suffix_append _ _
      · intro p hp hpne
        constructor
        · intro h
          exact ⟨a, by simp, prefix_of_append_sep a _ p hp h⟩
        · intro h
          obtain ⟨k, hk1, hk2⟩ := (ih4 p hp hpne).2 (suffix_of_append_sep a _ p hp h)
          exact ⟨k, List.mem_cons_of_mem _ hk1, hk2⟩

/-! ## The normalizer -/

theorem keepLine_nil (l : GoString) : keepLine l [] = false := by
  unfold keepLine
  split <;> rfl

/-- The text left by the comment filter is trimmed and carries no comment marker
that the language's line test rejects. -/
theorem filterLines_facts (c l : GoString) :
    HeadOK (filterLines c l) ∧ LastOK (filterLines c l) ∧
      ∀ p, Marker p → (p <+: filterLines c l → ∃ k, keepLine l k = true ∧ p <+: k) ∧
        (p <:+ filterLines c l → ∃ k, keepLine l k = true ∧ p <:+ k) := by
  have hk : ∀ k ∈ ((Split '\n' c).map TrimSpace).filter (keepLine l),
      k ≠ [] ∧ HeadOK k ∧ LastOK k := by
    intro k hk
    rw [List.mem_filter, List.mem_map] at hk
    obtain ⟨⟨line, _, hline⟩, hkeep⟩ := hk
    refine ⟨?_, ?_, ?_⟩
    · intro e
      rw [e, keepLine_nil] at hkeep
      exact Bool.noConfusion hkeep
    · rw [← hline]; exact TrimSpace_HeadOK line
    · rw [← hline]; exact TrimSpace_LastOK line
  obtain ⟨h1, h2, _, h4⟩ := Join_lines _ hk
  refine ⟨h1, h2, ?_⟩
  intro p hp
  have hsp : ' ' ∉ p := Marker_not_mem hp ' ' (by decide)
  obtain ⟨h5, h6⟩ := h4 p hsp (Marker_ne_nil hp)
  constructor
  · intro h
    obtain ⟨k, hk1, hk2⟩ := h5 h
    exact ⟨k, (List.mem_filter.1 hk1).2, hk2⟩
  · intro h
    obtain ⟨k, hk1, hk2⟩ := h6 h
    exact ⟨k, (List.mem_filter.1 hk1).2, hk2⟩

/-- A non-empty text that follows the filtered text passes the line test. -/
theorem keepLine_of_Follows (c l out : GoString) (h : Follows out (filterLines c l))
    (hne : out ≠ []) : keepLine l out = true := by
  obtain ⟨_, _, hf⟩ := filterLines_facts c l
  have key : ∀ p, Marker p →
      (p <+: out → ∃ k, keepLine l k = true ∧ p <+: k) ∧
      (p <:+ out → ∃ k, keepLine l k = true ∧ p <:+ k) := fun p hp =>
    ⟨fun hh => (hf p hp).1 ((h.2.2 p hp).1 hh), fun hh => (hf p hp).2 ((h.2.2 p hp).2 hh)⟩
  unfold keepLine at key ⊢
  by_cases hl : l = "python".toList
  · simp only [hl, if_true] at key ⊢
    rw [keepPythonLine_iff]
    refine ⟨hne, ?_⟩
    intro hh
    obtain ⟨k, hk1, hk2⟩ := (key _ (Or.inr (Or.inr (Or.inr rfl)))).1 hh
    exact ((keepPythonLine_iff k).1 hk1).2 hk2
  · simp only [hl, if_false] at key ⊢
    rw [keepDefaultLine_iff]
    refine ⟨hne, ?_, ?_, ?_⟩
    · intro hh
      obtain ⟨k, hk1, hk2⟩ := (key _ (Or.inl rfl)).1 hh
      exact ((keepDefaultLine_iff k).1 hk1).2.1 hk2
    · intro hh
      obtain ⟨k, hk1, hk2⟩ := (key _ (Or.inr (Or.inl rfl))).1 hh
      exact ((keepDefaultLine_iff k).1 hk1).2.2.1 hk2
    · intro hh
      obtain ⟨k, hk1, hk2⟩ := (key _ (Or.inr (Or.inr (Or.inl rfl)))).2 hh
      exact ((keepDefaultLine_iff k).1 hk1).2.2.2 hk2

/-- The comment filter leaves a trimmed one-line text that passes the line test
unchanged; the empty text too. -/
theorem filterLines_fixed (l out : GoString) (hnl : '\n' ∉ out) (h1 : HeadOK out)
    (h2 : LastOK out) (hk : out ≠ [] → keepLine l out = true) :
    filterLines out l = out := by
  unfold filterLines
  simp only [Split_of_not_mem '\n' out hnl, List.map_cons, List.map_nil,
    TrimSpace_of_trimmed out h1 h2]
  by_cases hne : out = []
  · rw [hne]
    simp [keepLine_nil, Join]
  · simp [hk hne, Join]

theorem normalizeCode_Follows (tbl : Char → Char) (h : CaseTableSound tbl) (c l : GoString) :
    Follows (normalizeCode tbl c l) (filterLines c l) := by
  obtain ⟨hy1, hy2, _⟩ := filterLines_facts c l
  have f1 := Follows_ToLower tbl h (filterLines c l) hy1 hy2
  have f2 := Follows_replaceQuoted '"' (by decide) (by decide) _ f1.1 f1.2.1
  have f3 := Follows_replaceQuoted '\'' (by decide) (by decide) _ f2.1 f2.2.1
  have f4 := Follows_collapse _ f3.1 f3.2.1
  exact Follows_trans f4 (Follows_trans f3 (Follows_trans f2 f1))

theorem normalizeCode_eq (tbl : Char → Char) (c l : GoString) :
    normalizeCode tbl c l =
      Join [' '] (Fields (removeStringLiterals (ToLower tbl (filterLines c l)))) := rfl

/-- Every character of the normalized text is the space character, or a non-space
character that is the small form of a character of the input. -/
theorem mem_normalizeCode (tbl : Char → Char) (c l : GoString) :
    ∀ x ∈ normalizeCode tbl c l,
      x = ' ' ∨ (isSpace x = false ∧ ∃ r, x = toLowerRune tbl r) := by
  intro x hx
  unfold normalizeCode at hx
  rcases mem_collapse _ x hx with h1 | ⟨h1, h2⟩
  · exact Or.inl h1
  · right
    refine ⟨h2, ?_⟩
    unfold removeStringLiterals replaceQuoted at h1
    have h3 := mem_replaceQuotedFrom '"' _ false x (mem_replaceQuotedFrom '\'' _ false x h1)
    unfold ToLower at h3
    obtain ⟨r, _, hr⟩ := List.mem_map.1 h3
    exact ⟨r, hr.symm⟩

theorem normalizeCode_paired (tbl : Char → Char) (c l : GoString) :
    pairedFrom '"' false (normalizeCode tbl c l) = true ∧
      pairedFrom '\'' false (normalizeCode tbl c l) = true := by
  unfold normalizeCode removeStringLiterals replaceQuoted
  constructor
  · apply (paired_collapse '"' (by decide) _).1
    apply (paired_replaceQuotedFrom_other '"' '\'' (by decide) _).1
    exact paired_replaceQuotedFrom '"' _ false (fun h => Bool.noConfusion h)
  · apply (paired_collapse '\'' (by decide) _).1
    exact paired_replaceQuotedFrom '\'' _ false (fun h => Bool.noConfusion h)

theorem not_newline_mem_normalizeCode (tbl : Char → Char) (c l : GoString) :
    '\n' ∉ normalizeCode tbl c l := by
  intro hx
  rcases mem_normalizeCode tbl c l '\n' hx with h | ⟨h, _⟩
  · exact absurd h (by decide)
  · exact absurd h (by decide)

/-- C9: normalization is idempotent. For every case table with the stated facts of
Go's `unicode` table, every text `c` and every language tag `l`, normalizing the
normalized text again returns it unchanged. -/
theorem normalizeCode_idempotent (lowerTable : Char → Char)
    (h : CaseTableSound lowerTable) (c l : GoString) :
    normalizeCode lowerTable (normalizeCode lowerTable c l) l =
      normalizeCode lowerTable c l := by
  have hF := normalizeCode_Follows lowerTable h c l
  have hA : filterLines (normalizeCode lowerTable c l) l = normalizeCode lowerTable c l :=
    filterLines_fixed l _ (not_newline_mem_normalizeCode lowerTable c l) hF.1 hF.2.1
      (fun hne => keepLine_of_Follows c l _ hF hne)
  have hB : ToLower lowerTable (normalizeCode lowerTable c l) =
      normalizeCode lowerTable c l := by
    unfold ToLower
    conv_rhs => rw [← List.map_id (normalizeCode lowerTable c l)]
    apply List.map_congr_left
    intro x hx
    rcases mem_normalizeCode lowerTable c l x hx with e | ⟨_, r, e⟩
    · rw [e]
      exact toLowerRune_ascii_other lowerTable ' ' (by decide) (by decide)
    · rw [e]
      exact toLowerRune_idem lowerTable h r
  obtain ⟨hp1, hp2⟩ := normalizeCode_paired lowerTable c l
  have hC : removeStringLiterals (normalizeCode lowerTable c l) =
      normalizeCode lowerTable c l := by
    unfold removeStringLiterals replaceQuoted
    rw [replaceQuotedFrom_of_paired '"' _ false hp1,
      replaceQuotedFrom_of_paired '\'' _ false hp2]
  have hD : Join [' '] (Fields (normalizeCode lowerTable c l)) =
      normalizeCode lowerTable c l := by
    rw [normalizeCode_eq lowerTable c l]
    exact collapse_idem _
  rw [normalizeCode_eq lowerTable (normalizeCode lowerTable c l) l, hA, hB, hC, hD]

theorem latin1Lower_of_not (x : Char)
    (h : ¬ (0xC0 ≤ x.toNat ∧ x.toNat ≤ 0xDE ∧ x.toNat ≠ 0xD7)) : latin1Lower x = x := by
  unfold latin1Lower
  rw [if_neg h]

theorem latin1Lower_sound : CaseTableSound latin1Lower := by
  intro r hr
  by_cases hin : 0xC0 ≤ r.toNat ∧ r.toNat ≤ 0xDE ∧ r.toNat ≠ 0xD7
  · have e : latin1Lower r = Char.ofNat (r.toNat + 32) := by
      unfold latin1Lower
      rw [if_pos hin]
    have hn : (latin1Lower r).toNat = r.toNat + 32 := by
      rw [e, toNat_ofNat_small _ (by omega)]
    refine ⟨?_, ?_, ?_, ?_, ?_⟩
    · rw [toLowerRune_high latin1Lower _ (by omega)]
      have : ¬ (0xC0 ≤ (latin1Lower r).toNat ∧ (latin1Lower r).toNat ≤ 0xDE ∧
          (latin1Lower r).toNat ≠ 0xD7) := by omega
      exact latin1Lower_of_not _ this
    · intro hs
      rw [isSpace_iff, hn] at hs
      omega
    · intro e2
      have := congrArg Char.toNat e2
      rw [hn] at this
      have h47 : '/'.toNat = 47 := rfl
      omega
    · intro e2
      have := congrArg Char.toNat e2
      rw [hn] at this
      have h42 : '*'.toNat = 42 := rfl
      omega
    · intro e2
      have := congrArg Char.toNat e2
      rw [hn] at this
      have h35 : '#'.toNat = 35 := rfl
      omega
  · have e : latin1Lower r = r := by
      unfold latin1Lower
      rw [if_neg hin]
    rw [e]
    refine ⟨?_, fun hs => hs, ?_, ?_, ?_⟩
    · rw [toLowerRune_high latin1Lower r hr, e]
    · intro e2
      have := congrArg Char.toNat e2
      have h47 : '/'.toNat = 47 := rfl
      omega
    · intro e2
      have := congrArg Char.toNat e2
      have h42 : '*'.toNat = 42 := rfl
      omega
    · intro e2
      have := congrArg Char.toNat e2
      have h35 : '#'.toNat = 35 := rfl
      omega

theorem latin1Lower_no_capital :
    ∀ r : Char, 0x7F < r.toNat →
      ¬ ('A'.toNat ≤ (latin1Lower r).toNat ∧ (latin1Lower r).toNat ≤ 'Z'.toNat) := by
  intro r hr
  have hA : 'A'.toNat = 65 := rfl
  have hZ : 'Z'.toNat = 90 := rfl
  by_cases hin : 0xC0 ≤ r.toNat ∧ r.toNat ≤ 0xDE ∧ r.toNat ≠ 0xD7
  · have hn : (latin1Lower r).toNat = r.toNat + 32 := by
      unfold latin1Lower
      rw [if_pos hin, toNat_ofNat_small _ (by omega)]
    omega
  · have e : latin1Lower r = r := by
      unfold latin1Lower
      rw [if_neg hin]
    rw [e]
    omega

/-- C9, witness: with the Latin-1 fragment of the case table, the text of three
lines `Été  "A"`, `// c` and ` x` in language golang normalizes to `été "" x`, and
normalizing that again returns it unchanged. -/
theorem normalizeCode_idempotent_witness :
    CaseTableSound latin1Lower ∧
      normalizeCode latin1Lower "Été  \"A\"\n// c\n x".toList "golang".toList =
        "été \"\" x".toList ∧
      normalizeCode latin1Lower
          (normalizeCode latin1Lower "Été  \"A\"\n// c\n x".toList "golang".toList)
          "golang".toList =
        normalizeCode latin1Lower "Été  \"A\"\n// c\n x".toList "golang".toList :=
  ⟨latin1Lower_sound, by decide,
    normalizeCode_idempotent latin1Lower latin1Lower_sound
      "Été  \"A\"\n// c\n x".toList "golang".toList⟩

theorem toLowerRune_no_capital (tbl : Char → Char)
    (hup : ∀ r : Char, 0x7F < r.toNat →
      ¬ ('A'.toNat ≤ (tbl r).toNat ∧ (tbl r).toNat ≤ 'Z'.toNat)) (r : Char) :
    ¬ ('A'.toNat ≤ (toLowerRune tbl r).toNat ∧ (toLowerRune tbl r).toNat ≤ 'Z'.toNat) := by
  have hA : 'A'.toNat = 65 := rfl
  have hZ : 'Z'.toNat = 90 := rfl
  by_cases h1 : r.toNat ≤ 127
  · by_cases h2 : 65 ≤ r.toNat ∧ r.toNat ≤ 90
    · rw [toLowerRune_ascii_upper tbl r h2.1 h2.2]
      omega
    · rw [toLowerRune_ascii_other tbl r h1 h2]
      omega
  · rw [toLowerRune_high tbl r (by omega)]
    exact hup r (by omega)

/-- C10: for every text `c` and language tag `l`, the normalized text is one line,
case-folded and whitespace-collapsed: it has no newline, no ASCII capital letter
(for a case table that gives no ASCII capital letter as a small form), it neither
starts nor ends with white space, no two adjacent characters are both white space,
and its only white space is the space character. -/
theorem normalizeCode_shape (lowerTable : Char → Char)
    (hup : ∀ r : Char, 0x7F < r.toNat →
      ¬ ('A'.toNat ≤ (lowerTable r).toNat ∧ (lowerTable r).toNat ≤ 'Z'.toNat))
    (c l : GoString) :
    '\n' ∉ normalizeCode lowerTable c l ∧
      (∀ x ∈ normalizeCode lowerTable c l, ¬ ('A'.toNat ≤ x.toNat ∧ x.toNat ≤ 'Z'.toNat)) ∧
      (∀ x ∈ (normalizeCode lowerTable c l).head?, isSpace x = false) ∧
      (∀ x ∈ (normalizeCode lowerTable c l).getLast?, isSpace x = false) ∧
      (∀ a b, [a, b] <:+: normalizeCode lowerTable c l →
        ¬ (isSpace a = true ∧ isSpace b = true)) ∧
      (∀ x ∈ normalizeCode lowerTable c l, isSpace x = true → x = ' ') := by
  refine ⟨not_newline_mem_normalizeCode lowerTable c l, ?_, ?_, ?_, ?_, ?_⟩
  · intro x hx
    rcases mem_normalizeCode lowerTable c l x hx with e | ⟨_, r, e⟩
    · rw [e]; decide
    · rw [e]; exact toLowerRune_no_capital lowerTable hup r
  · intro x hx
    rw [normalizeCode_eq] at hx
    cases hj : Join [' '] (Fields (removeStringLiterals
        (ToLower lowerTable (filterLines c l)))) with
    | nil => rw [hj] at hx; simp at hx
    | cons y t =>
      rw [hj] at hx
      simp only [List.head?_cons, Option.mem_def, Option.some.injEq] at hx
      rw [← hx]
      exact collapse_head _ y t hj
  · intro x hx
    rw [normalizeCode_eq] at hx
    apply collapse_last_char (removeStringLiterals (ToLower lowerTable (filterLines c l))) x
    rw [Option.mem_def, List.getLast?_eq_some_iff] at hx
    obtain ⟨ys, hys⟩ := hx
    rw [hys]
    exact List.suffix_append _ _
  · intro a b hab
    rw [normalizeCode_eq] at hab
    exact collapse_no_double _ a b hab
  · intro x hx hs
    rcases mem_normalizeCode lowerTable c l x hx with e | ⟨e, _⟩
    · exact e
    · rw [e] at hs
      exact Bool.noConfusion hs

/-- C10, witness: with the Latin-1 fragment of the case table, on the text of three
lines `Été  "A"`, `// c` and ` x` in language golang. -/
theorem normalizeCode_shape_witness :
    (∀ r : Char, 0x7F < r.toNat →
        ¬ ('A'.toNat ≤ (latin1Lower r).toNat ∧ (latin1Lower r).toNat ≤ 'Z'.toNat)) ∧
      '\n' ∉ normalizeCode latin1Lower "Été  \"A\"\n// c\n x".toList "golang".toList ∧
      (∀ x ∈ normalizeCode latin1Lower "Été  \"A\"\n// c\n x".toList "golang".toList,
        ¬ ('A'.toNat ≤ x.toNat ∧ x.toNat ≤ 'Z'.toNat)) ∧
      (∀ x ∈ (normalizeCode latin1Lower "Été  \"A\"\n// c\n x".toList "golang".toList).head?,
        isSpace x = false) ∧
      (∀ x ∈ (normalizeCode latin1Lower
          "Été  \"A\"\n// c\n x".toList "golang".toList).getLast?,
        isSpace x = false) ∧
      (∀ a b, [a, b] <:+: normalizeCode latin1Lower
          "Été  \"A\"\n// c\n x".toList "golang".toList →
        ¬ (isSpace a = true ∧ isSpace b = true)) ∧
      (∀ x ∈ normalizeCode latin1Lower "Été  \"A\"\n// c\n x".toList "golang".toList,
        isSpace x = true → x = ' ') :=
  ⟨latin1Lower_no_capital,
    normalizeCode_shape latin1Lower latin1Lower_no_capital
      "Été  \"A\"\n// c\n x".toList "golang".toList⟩

/-! ## Facts about `compareAllProjects` -/

theorem compareAllStep_eq (ps : List Project) (i j : Nat) (results : List ComparisonResult) :
    compareAllStep ps i results j = results ++ (specRetained ps (i, j)).toList := by
  unfold compareAllStep specRetained
  cases hi : ps[i]? with
  | none => simp
  | some p =>
    cases hj : ps[j]? with
    | none => simp
    | some q =>
      by_cases hl : p.Language = q.Language
      · by_cases hs : 50 < (compareProjects p q).Similarity
        · simp [hl, hs]
        · simp [hl, hs]
      · simp [hl]

theorem foldl_append_eq {α β : Type} (g : α → List β) (l : List α) (init : List β) :
    l.foldl (fun acc x => acc ++ g x) init = init ++ l.flatMap g := by
  induction l generalizing init with
  | nil => simp
  | cons a l ih => simp [List.foldl_cons, ih, List.append_assoc]

theorem filter_range_lt (n i : Nat) :
    (List.range n).filter (fun j => decide (i < j)) = List.range' (i + 1) (n - (i + 1)) := by
  induction n with
  | zero => simp
  | succ n ih =>
    rw [List.range_succ, List.filter_append, ih]
    by_cases h : i < n
    · have e : n + 1 - (i + 1) = (n - (i + 1)) + 1 := by omega
      rw [e, List.range'_concat]
      simp [h]
      omega
    · have e1 : n + 1 - (i + 1) = 0 := by omega
      have e2 : n - (i + 1) = 0 := by omega
      simp [h, e1, e2]

theorem specPairs_eq (n : Nat) :
    specPairs n =
      (List.range n).flatMap (fun i => (List.range' (i + 1) (n - (i + 1))).map (fun j => (i, j))) := by
  unfold specPairs List.product
  show List.filter _ ((List.range n).flatMap _) = _
  rw [List.filter_flatMap]
  congr 1
  funext i
  rw [List.filter_map]
  congr 1
  exact filter_range_lt n i

/-- The loops of `compareAllProjects` produce the retained records of the index
pairs in pair-discovery order. -/
theorem compareAllProjects_eq_spec (ps : List Project) :
    compareAllProjects ps = specCompareAll ps := by
  unfold compareAllProjects specCompareAll
  have h1 : ∀ i, (fun results j => compareAllStep ps i results j) =
      (fun results j => results ++ (specRetained ps (i, j)).toList) := by
    intro i; funext results j; exact compareAllStep_eq ps i j results
  have h2 : (fun results i =>
      (List.range' (i + 1) (ps.length - (i + 1))).foldl (compareAllStep ps i) results) =
      (fun results i => results ++
        (List.range' (i + 1) (ps.length - (i + 1))).flatMap
          (fun j => (specRetained ps (i, j)).toList)) := by
    funext results i
    have := h1 i
    simp only at this
    rw [show compareAllStep ps i = fun results j => results ++ (specRetained ps (i, j)).toList
      from this]
    exact foldl_append_eq _ _ _
  rw [h2, foldl_append_eq, List.nil_append, specPairs_eq, List.filterMap_flatMap]
  congr 1
  funext i
  rw [List.filterMap_map]
  induction (List.range' (i + 1) (ps.length - (i + 1))) with
  | nil => rfl
  | cons j l ih =>
    rw [List.flatMap_cons, List.filterMap_cons, ih]
    cases h : specRetained ps (i, j) <;> simp [h]

theorem toList_ite {α : Type} (c : Prop) [Decidable c] (r : α) :
    (if c then some r else none : Option α).toList = if c then [r] else [] := by
  split <;> rfl

theorem filterMap_eq_toList {α β : Type} (f : α → Option β) (l : List α) :
    l.filterMap f = l.flatMap (fun x => (f x).toList) := by
  induction l with
  | nil => rfl
  | cons a l ih =>
    rw [List.filterMap_cons, List.flatMap_cons, ← ih]
    cases h : f a <;> simp [h]

theorem compareAllProjects_pair (p q : Project) :
    compareAllProjects [p, q] =
      if p.Language = q.Language ∧ 50 < (compareProjects p q).Similarity then
        [compareProjects p q]
      else [] := by
  rw [compareAllProjects_eq_spec]
  have h : specPairs 2 = [(0, 1)] := by decide
  simp only [specCompareAll, List.length_cons, List.length_nil, h, filterMap_eq_toList,
    List.flatMap_cons, List.flatMap_nil, List.append_nil, specRetained,
    List.getElem?_cons_zero, List.getElem?_cons_succ, toList_ite]

theorem compareAllProjects_triple (a b c : Project) :
    compareAllProjects [a, b, c] =
      (if a.Language = b.Language ∧ 50 < (compareProjects a b).Similarity then
        [compareProjects a b] else []) ++
      ((if a.Language = c.Language ∧ 50 < (compareProjects a c).Similarity then
        [compareProjects a c] else []) ++
      (if b.Language = c.Language ∧ 50 < (compareProjects b c).Similarity then
        [compareProjects b c] else [])) := by
  rw [compareAllProjects_eq_spec]
  have h : specPairs 3 = [(0, 1), (0, 2), (1, 2)] := by decide
  simp only [specCompareAll, List.length_cons, List.length_nil, h, filterMap_eq_toList,
    List.flatMap_cons, List.flatMap_nil, List.append_nil, specRetained,
    List.getElem?_cons_zero, List.getElem?_cons_succ, toList_ite]

theorem mem_specPairs {n : Nat} {ij : Nat × Nat} (h : ij ∈ specPairs n) :
    ij.1 < ij.2 ∧ ij.2 < n := by
  unfold specPairs at h
  rw [List.mem_filter] at h
  obtain ⟨h1, h2⟩ := h
  have h3 := List.mem_product.1 h1
  exact ⟨by simpa using h2, List.mem_range.1 h3.2⟩

theorem specRetained_some {ps : List Project} {ij : Nat × Nat} {r : ComparisonResult}
    (h : specRetained ps ij = some r) :
    ∃ p q, ps[ij.1]? = some p ∧ ps[ij.2]? = some q ∧ p.Language = q.Language ∧
      50 < (compareProjects p q).Similarity ∧ r = compareProjects p q := by
  unfold specRetained at h
  cases hi : ps[ij.1]? with
  | none => simp [hi] at h
  | some p =>
    cases hj : ps[ij.2]? with
    | none => simp [hi, hj] at h
    | some q =>
      simp only [hi, hj] at h
      split at h
      · rename_i hc
        exact ⟨p, q, rfl, rfl, hc.1, hc.2, (Option.some.inj h).symm⟩
      · exact absurd h (by simp)

/-- Every record returned by `compareAllProjects` is the comparison of an earlier
with a later project of the list, with equal language tags and an overall
similarity above 50. -/
theorem mem_compareAllProjects {ps : List Project} {r : ComparisonResult}
    (h : r ∈ compareAllProjects ps) :
    ∃ (i j : Nat) (p q : Project), i < j ∧ ps[i]? = some p ∧ ps[j]? = some q ∧ p.Language = q.Language ∧
      50 < (compareProjects p q).Similarity ∧ r = compareProjects p q := by
  rw [compareAllProjects_eq_spec] at h
  unfold specCompareAll at h
  obtain ⟨ij, hij, hr⟩ := List.mem_filterMap.1 h
  obtain ⟨p, q, h1, h2, h3, h4, h5⟩ := specRetained_some hr
  exact ⟨ij.1, ij.2, p, q, (mem_specPairs hij).1, h1, h2, h3, h4, h5⟩

theorem similarity_scenario :
    (compareProjects scenarioA scenarioB).Similarity = 95 ∧
      (compareProjects scenarioA scenarioC).Similarity = 10 ∧
      (compareProjects scenarioB scenarioC).Similarity = 10 := by
  have n1 : (Split ' ' scenarioA.Content).length = 20 := by decide
  have n2 : (Split ' ' scenarioB.Content).length = 20 := by decide
  have m1 : countMatches (Split ' ' scenarioB.Content) (Split ' ' scenarioA.Content) = 19 := by
    decide
  have m2 : countMatches (Split ' ' scenarioC.Content) (Split ' ' scenarioA.Content) = 2 := by
    decide
  have m3 : countMatches (Split ' ' scenarioC.Content) (Split ' ' scenarioB.Content) = 2 := by
    decide
  refine ⟨?_, ?_, ?_⟩
  · show compareTexts scenarioA.Content scenarioB.Content = 95
    rw [compareTexts_eq, n1, m1]; norm_num
  · show compareTexts scenarioA.Content scenarioC.Content = 10
    rw [compareTexts_eq, n1, m2]; norm_num
  · show compareTexts scenarioB.Content scenarioC.Content = 10
    rw [compareTexts_eq, n2, m3]; norm_num

/-- C12: the result of `compareAllProjects` is the sequence, in pair-discovery order,
of the comparisons of `ps[i]` with `ps[j]` over the index pairs `i < j` with equal
language tags and overall similarity strictly above 50; every returned record has
similarity above 50; and for three projects of one language where only the first
pair exceeds 50 the result is the single record of that pair. -/
theorem compareAllProjects_retained :
    (∀ ps : List Project, compareAllProjects ps = specCompareAll ps) ∧
      (∀ (ps : List Project) (r : ComparisonResult),
        r ∈ compareAllProjects ps → 50 < r.Similarity) ∧
      (∀ a b c : Project, a.Language = b.Language → b.Language = c.Language →
        50 < (compareProjects a b).Similarity →
        ¬ 50 < (compareProjects a c).Similarity →
        ¬ 50 < (compareProjects b c).Similarity →
        compareAllProjects [a, b, c] = [compareProjects a b]) := by
  refine ⟨compareAllProjects_eq_spec, ?_, ?_⟩
  · intro ps r h
    obtain ⟨_, _, p, q, _, _, _, _, h4, h5⟩ := mem_compareAllProjects h
    rw [h5]; exact h4
  · intro a b c hab hbc h1 h2 h3
    rw [compareAllProjects_triple, if_pos ⟨hab, h1⟩, if_neg (fun h => h2 h.2),
      if_neg (fun h => h3 h.2)]
    rfl

/-- C12, witness: three golang projects where A against B scores 95 and C scores 10
against both; the engine returns the single record of the pair (A, B). -/
theorem compareAllProjects_retained_witness :
    (compareProjects scenarioA scenarioB).Similarity = 95 ∧
      (compareProjects scenarioA scenarioC).Similarity = 10 ∧
      (compareProjects scenarioB scenarioC).Similarity = 10 ∧
      compareAllProjects [scenarioA, scenarioB, scenarioC] =
        [compareProjects scenarioA scenarioB] := by
  obtain ⟨h1, h2, h3⟩ := similarity_scenario
  refine ⟨h1, h2, h3, ?_⟩
  exact compareAllProjects_retained.2.2 scenarioA scenarioB scenarioC rfl rfl
    (by rw [h1]; norm_num) (by rw [h2]; norm_num) (by rw [h3]; norm_num)

/-- C13: two projects with different language tags give no record, whatever their
contents; and every record returned by `compareAllProjects` compares an earlier
with a later project of the list whose language tags are equal. -/
theorem compareAllProjects_same_language :
    (∀ p q : Project, p.Language ≠ q.Language → compareAllProjects [p, q] = []) ∧
      (∀ (ps : List Project) (r : ComparisonResult), r ∈ compareAllProjects ps →
        ∃ (i j : Nat) (p q : Project), i < j ∧ ps[i]? = some p ∧ ps[j]? = some q ∧
          p.Language = q.Language ∧ r = compareProjects p q) := by
  constructor
  · intro p q h
    rw [compareAllProjects_pair, if_neg (fun hc => h hc.1)]
  · intro ps r h
    obtain ⟨i, j, p, q, h1, h2, h3, h4, _, h6⟩ := mem_compareAllProjects h
    exact ⟨i, j, p, q, h1, h2, h3, h4, h6⟩

/-- C13, witness: a python and a golang project with the same content "x". -/
theorem compareAllProjects_same_language_witness :
    (shortProject "python".toList).Content = (shortProject "golang".toList).Content ∧
      (shortProject "python".toList).Language ≠ (shortProject "golang".toList).Language ∧
      compareAllProjects [shortProject "python".toList, shortProject "golang".toList] = [] :=
  ⟨rfl, by decide,
    compareAllProjects_same_language.1 (shortProject "python".toList)
      (shortProject "golang".toList) (by decide)⟩

/-- C20: the overall similarity of a record is `compareTexts` of the earlier content
against the later content, and retention depends on the input order: with contents
"x" and "x y z" in one language, the engine returns one record for the order
(short, long) and none for the order (long, short). -/
theorem compareAllProjects_order_dependent :
    (∀ p q : Project, (compareProjects p q).Similarity = compareTexts p.Content q.Content) ∧
      ∃ a b : Project, a.Language = b.Language ∧
        compareAllProjects [a, b] = [compareProjects a b] ∧
        compareAllProjects [b, a] = [] := by
  refine ⟨fun p q => rfl, shortProject "golang".toList, longProject "golang".toList, rfl, ?_, ?_⟩
  · have n1 : (Split ' ' "x".toList).length = 1 := by decide
    have m1 : countMatches (Split ' ' "x y z".toList) (Split ' ' "x".toList) = 1 := by decide
    have h : (compareProjects (shortProject "golang".toList)
        (longProject "golang".toList)).Similarity = 100 := by
      show compareTexts "x".toList "x y z".toList = 100
      rw [compareTexts_eq, n1, m1]; norm_num
    rw [compareAllProjects_pair, if_pos ⟨rfl, by rw [h]; norm_num⟩]
  · have n1 : (Split ' ' "x y z".toList).length = 3 := by decide
    have m1 : countMatches (Split ' ' "x".toList) (Split ' ' "x y z".toList) = 1 := by decide
    have h : (compareProjects (longProject "golang".toList)
        (shortProject "golang".toList)).Similarity = 100 / 3 := by
      show compareTexts "x y z".toList "x".toList = 100 / 3
      rw [compareTexts_eq, n1, m1]; norm_num
    rw [compareAllProjects_pair, if_neg]
    rw [h]
    norm_num

/-! ## Facts about the weighted comparators -/

/-- C11: `compareFormatting f1 f2` is 100 when the indentation style, the spacing
pattern and the line-break pattern are pairwise equal, and 2/3 × 100 when exactly one
of the three differs. -/
theorem compareFormatting_values (f1 f2 : FormatAnalysis) :
    (f1.IndentStyle = f2.IndentStyle → f1.SpacingPattern = f2.SpacingPattern →
        f1.LineBreaks = f2.LineBreaks → compareFormatting f1 f2 = 100) ∧
      ((f1.IndentStyle ≠ f2.IndentStyle ∧ f1.SpacingPattern = f2.SpacingPattern ∧
          f1.LineBreaks = f2.LineBreaks) ∨
        (f1.IndentStyle = f2.IndentStyle ∧ f1.SpacingPattern ≠ f2.SpacingPattern ∧
          f1.LineBreaks = f2.LineBreaks) ∨
        (f1.IndentStyle = f2.IndentStyle ∧ f1.SpacingPattern = f2.SpacingPattern ∧
          f1.LineBreaks ≠ f2.LineBreaks) →
        compareFormatting f1 f2 = 2 / 3 * 100) := by
  constructor
  · intro h1 h2 h3
    simp only [compareFormatting, points, h1, h2, h3, if_true]
    norm_num
  · intro h
    rcases h with ⟨h1, h2, h3⟩ | ⟨h1, h2, h3⟩ | ⟨h1, h2, h3⟩ <;>
      simp only [compareFormatting, points, h1, h2, h3, if_true, if_false] <;> norm_num

/-- C11, witness: two profiles equal in all three fields, and two profiles that
differ in the indentation style only. -/
theorem compareFormatting_values_witness :
    compareFormatting ⟨"tabs".toList, "a=b".toList, "single".toList⟩
        ⟨"tabs".toList, "a=b".toList, "single".toList⟩ = 100 ∧
      compareFormatting ⟨"tabs".toList, "a=b".toList, "single".toList⟩
        ⟨"spaces".toList, "a=b".toList, "single".toList⟩ = 2 / 3 * 100 :=
  ⟨(compareFormatting_values ⟨"tabs".toList, "a=b".toList, "single".toList⟩
      ⟨"tabs".toList, "a=b".toList, "single".toList⟩).1 rfl rfl rfl,
    (compareFormatting_values ⟨"tabs".toList, "a=b".toList, "single".toList⟩
      ⟨"spaces".toList, "a=b".toList, "single".toList⟩).2
      (Or.inl ⟨by decide, rfl, rfl⟩)⟩

/-- C14, the claim refuted: two equal control-flow records earn 7 points, and
`compareControlFlow` returns 100, not 7/6 × 100, so the points are not divided by 6. -/
theorem compareControlFlow_not_over_six :
    compareControlFlow ⟨0, 0, 0, 0, 0, []⟩ ⟨0, 0, 0, 0, 0, []⟩ = 100 ∧
      specControlPoints ⟨0, 0, 0, 0, 0, []⟩ ⟨0, 0, 0, 0, 0, []⟩ = 7 ∧
      ¬ (compareControlFlow ⟨0, 0, 0, 0, 0, []⟩ ⟨0, 0, 0, 0, 0, []⟩ =
        (specControlPoints ⟨0, 0, 0, 0, 0, []⟩ ⟨0, 0, 0, 0, 0, []⟩ : ℚ) / 6 * 100) := by
  have h1 : compareControlFlow ⟨0, 0, 0, 0, 0, []⟩ ⟨0, 0, 0, 0, 0, []⟩ = 100 :=
    compareControlFlow_self _
  have h2 : specControlPoints ⟨0, 0, 0, 0, 0, []⟩ ⟨0, 0, 0, 0, 0, []⟩ = 7 := by decide
  refine ⟨h1, h2, ?_⟩
  rw [h1, h2]
  norm_num

/-- C14, amended: `compareControlFlow cf1 cf2` is the points earned (1 point each for
equal IfCount, ForCount, WhileCount, SwitchCount and MaxNesting, 2 points for equal
ControlPattern) divided by a total of 7 possible points, times 100. -/
theorem compareControlFlow_over_seven (cf1 cf2 : ControlFlow) :
    compareControlFlow cf1 cf2 = (specControlPoints cf1 cf2 : ℚ) / 7 * 100 := by
  simp only [compareControlFlow, specControlPoints, points]
  norm_num

theorem specSameNames_eq {V : Type} [DecidableEq V] (m1 m2 : GoMap V) :
    specSameNames m1 m2 = countSameEntries m1 m2 := by
  unfold specSameNames countSameEntries GoMap.keys
  rw [List.filter_map, List.length_map, ← List.countP_eq_length_filter]
  apply List.countP_congr
  intro e he
  have h1 : m1.get? e.1 = some e.2 := by
    simp [GoMap.get?, find?_key_of_nodup m1.entries m1.nodup e he]
  simp only [Function.comp, h1, decide_eq_true_eq]
  constructor
  · intro h; exact h.2.symm
  · intro h; rw [h]; simp

theorem sameOrder_iff_eq (l1 l2 : List GoString) : sameOrder l1 l2 = true ↔ l1 = l2 := by
  induction l1 generalizing l2 with
  | nil => cases l2 <;> simp [sameOrder]
  | cons a as ih =>
    cases l2 with
    | nil => simp [sameOrder]
    | cons b bs =>
      by_cases h : a = b
      · simp [sameOrder, h, ih]
      · simp [sameOrder, h]

theorem sameOrder_iff_spec (l1 l2 : List GoString) :
    sameOrder l1 l2 = true ↔
      (l1.length = l2.length ∧ ∀ i : Fin l1.length, l2[i.val]? = some l1[i]) := by
  rw [sameOrder_iff_eq]
  constructor
  · intro h
    subst h
    exact ⟨rfl, fun i => by simp⟩
  · intro ⟨hlen, h⟩
    apply List.ext_getElem hlen
    intro n h1 h2
    have := h ⟨n, h1⟩
    rw [List.getElem?_eq_getElem h2] at this
    exact (Option.some.inj this).symm

/-- C17: `compareFunctions f1 f2` is `100 × matched / total`, where `total` is the
number of names of the three maps of `f1` plus 1 and `matched` counts the names of
`f1` that `f2` maps to the same value, plus 1 for equal declaration orders; the
total is never 0, and two empty profiles score 100. -/
theorem compareFunctions_formula :
    (∀ f1 f2 : FunctionAnalysis,
        compareFunctions f1 f2 =
          100 * (specFunctionMatched f1 f2 : ℚ) / (specFunctionTotal f1 : ℚ) ∧
        specFunctionTotal f1 ≠ 0) ∧
      compareFunctions ⟨GoMap.empty, GoMap.empty, GoMap.empty, []⟩
        ⟨GoMap.empty, GoMap.empty, GoMap.empty, []⟩ = 100 := by
  refine ⟨fun f1 f2 => ⟨?_, Nat.succ_ne_zero _⟩, compareFunctions_self _⟩
  have ht : specFunctionTotal f1 =
      f1.ParamCount.len + f1.ReturnTypes.len + f1.FunctionSizes.len + 1 := by
    simp [specFunctionTotal, GoMap.keys, GoMap.len]
  have hm : specFunctionMatched f1 f2 =
      countSameEntries f1.ParamCount f2.ParamCount +
        countSameEntries f1.ReturnTypes f2.ReturnTypes +
        countSameEntries f1.FunctionSizes f2.FunctionSizes +
        (if sameOrder f1.DeclareOrder f2.DeclareOrder then 1 else 0) := by
    simp only [specFunctionMatched, specSameNames_eq, sameOrder_iff_spec]
  rw [ht, hm]
  simp only [compareFunctions]
  rw [if_neg (Nat.succ_ne_zero _)]
  ring

/-! ## Facts about the control-flow extractor -/

theorem lineKeyword_eq_spec (line : GoString) : lineKeyword line = specLineKeyword line := by
  unfold lineKeyword specLineKeyword
  simp only [List.find?, startsWith, List.isPrefixOf_iff_prefix, decide_eq_true_eq]
  by_cases h1 : ['i', 'f'] <+: TrimSpace line
  · simp [h1]
  · by_cases h2 : ['f', 'o', 'r'] <+: TrimSpace line
    · simp [h1, h2]
    · by_cases h3 : ['s', 'w', 'i', 't', 'c', 'h'] <+: TrimSpace line
      · simp [h1, h2, h3]
      · by_cases h4 : ['w', 'h', 'i', 'l', 'e'] <+: TrimSpace line
        · simp [h1, h2, h3, h4]
        · simp [h1, h2, h3, h4]

theorem createControlPattern_eq_spec (code : GoString) :
    createControlPattern code = specControlPattern code := by
  unfold createControlPattern specControlPattern controlKeywords
  congr 1
  apply List.filterMap_congr
  intro line _
  exact lineKeyword_eq_spec line

/-- C15, the claim refuted: in the scenario source with an `else if` branch the lines
that start with a keyword are an `if` line, a `for` line and an `if` line, and the
pattern is `if->for->if`, but `IfCount` is 3 and not 2, since the counts are those
of the whole-word occurrences in the entire text. Likewise the three lines `iffy()`,
`format()` and `if c {` give the pattern `if->for->if` with `IfCount = 1` and
`ForCount = 0`. -/
theorem analyzeControlFlow_counts_not_lines :
    (Split '\n' scenarioSourceElse).filterMap specLineKeyword =
        ["if".toList, "for".toList, "if".toList] ∧
      (analyzeControlFlow scenarioSourceElse "golang".toList).ControlPattern =
        "if->for->if".toList ∧
      (analyzeControlFlow scenarioSourceElse "golang".toList).IfCount = 3 ∧
      ¬ ((analyzeControlFlow scenarioSourceElse "golang".toList).IfCount = 2 ∧
        (analyzeControlFlow scenarioSourceElse "golang".toList).ForCount = 1) ∧
      (analyzeControlFlow scenarioSourceNames "golang".toList).ControlPattern =
        "if->for->if".toList ∧
      (analyzeControlFlow scenarioSourceNames "golang".toList).IfCount = 1 ∧
      (analyzeControlFlow scenarioSourceNames "golang".toList).ForCount = 0 := by
  decide

/-- C15, amended: for every golang text the control pattern is the `->`-join, in line
order, of one keyword per line whose trimmed text starts with `if`, `for`, `switch`
or `while`; when those keywords are `if`, `for`, `if` the pattern is `if->for->if`;
`IfCount` and `ForCount` are the numbers of whole-word occurrences of `if` and `for`
in the entire text, which are 2 and 1 on the scenario source. -/
theorem analyzeControlFlow_pattern (code : GoString) :
    (analyzeControlFlow code "golang".toList).ControlPattern = specControlPattern code ∧
      (analyzeControlFlow code "golang".toList).IfCount = countWord "if".toList code ∧
      (analyzeControlFlow code "golang".toList).ForCount = countWord "for".toList code ∧
      ((Split '\n' code).filterMap specLineKeyword =
          ["if".toList, "for".toList, "if".toList] →
        (analyzeControlFlow code "golang".toList).ControlPattern = "if->for->if".toList) ∧
      (analyzeControlFlow scenarioSource "golang".toList).IfCount = 2 ∧
      (analyzeControlFlow scenarioSource "golang".toList).ForCount = 1 := by
  have h : (analyzeControlFlow code "golang".toList).ControlPattern =
      specControlPattern code := by
    simp only [analyzeControlFlow, if_true]
    exact createControlPattern_eq_spec code
  refine ⟨h, ?_, ?_, ?_, by decide, by decide⟩
  · simp only [analyzeControlFlow, if_true]
  · simp only [analyzeControlFlow, if_true]
  · intro hk
    rw [h, specControlPattern, hk]
    decide

/-- C15, witness: the scenario source. -/
theorem analyzeControlFlow_pattern_witness :
    (Split '\n' scenarioSource).filterMap specLineKeyword =
        ["if".toList, "for".toList, "if".toList] ∧
      (analyzeControlFlow scenarioSource "golang".toList).ControlPattern =
        "if->for->if".toList ∧
      (analyzeControlFlow scenarioSource "golang".toList).IfCount = 2 ∧
      (analyzeControlFlow scenarioSource "golang".toList).ForCount = 1 :=
  ⟨by decide, (analyzeControlFlow_pattern scenarioSource).2.2.2.1 (by decide),
    (analyzeControlFlow_pattern scenarioSource).2.2.2.2.1,
    (analyzeControlFlow_pattern scenarioSource).2.2.2.2.2⟩

theorem lineKeyword_mem {line k : GoString} (h : lineKeyword line = some k) :
    k = "if".toList ∨ k = "for".toList ∨ k = "switch".toList ∨ k = "while".toList := by
  unfold lineKeyword at h
  simp only at h
  split at h
  · exact Or.inl (Option.some.inj h).symm
  · split at h
    · exact Or.inr (Or.inl (Option.some.inj h).symm)
    · split at h
      · exact Or.inr (Or.inr (Or.inl (Option.some.inj h).symm))
      · split at h
        · exact Or.inr (Or.inr (Or.inr (Option.some.inj h).symm))
        · exact absurd h (by simp)

theorem controlKeywords_mem {code k : GoString} (h : k ∈ controlKeywords code) :
    k = "if".toList ∨ k = "for".toList ∨ k = "switch".toList ∨ k = "while".toList := by
  unfold controlKeywords at h
  obtain ⟨line, _, hl⟩ := List.mem_filterMap.1 h
  exact lineKeyword_mem hl

theorem countArrows_keyword_arrow (k rest : GoString)
    (hk : k = "if".toList ∨ k = "for".toList ∨ k = "switch".toList ∨ k = "while".toList) :
    countArrows (k ++ "->".toList ++ rest) = countArrows rest + 1 := by
  rcases hk with e | e | e | e <;> subst e <;> simp [countArrows]

theorem countArrows_keyword (k : GoString)
    (hk : k = "if".toList ∨ k = "for".toList ∨ k = "switch".toList ∨ k = "while".toList) :
    countArrows k = 0 := by
  rcases hk with e | e | e | e <;> subst e <;> simp [countArrows]

/-- The pattern built from a list of keywords has as many keywords as the list. -/
theorem patternLength_Join (ks : List GoString)
    (hk : ∀ k ∈ ks,
      k = "if".toList ∨ k = "for".toList ∨ k = "switch".toList ∨ k = "while".toList) :
    patternLength (Join "->".toList ks) = ks.length := by
  have hne : ∀ k ∈ ks, k ≠ [] := by
    intro k hm
    rcases hk k hm with e | e | e | e <;> subst e <;> simp
  induction ks with
  | nil => simp [Join, patternLength]
  | cons a rest ih =>
    cases rest with
    | nil =>
      simp only [Join, patternLength, List.length_singleton]
      rw [if_neg (hne a (by simp)), countArrows_keyword a (hk a (by simp))]
    | cons b rest' =>
      have ih' := ih (fun k hm => hk k (List.mem_cons_of_mem _ hm))
        (fun k hm => hne k (List.mem_cons_of_mem _ hm))
      have hJ : Join "->".toList (a :: b :: rest') =
          a ++ "->".toList ++ Join "->".toList (b :: rest') := rfl
      have hne2 : Join "->".toList (b :: rest') ≠ [] := by
        cases rest' with
        | nil => simpa [Join] using hne b (by simp)
        | cons c r => simp [Join, hne b (by simp)]
      have hne1 : a ++ "->".toList ++ Join "->".toList (b :: rest') ≠ [] := by
        simp [hne a (by simp)]
      unfold patternLength at ih' ⊢
      rw [if_neg hne2] at ih'
      rw [hJ, if_neg hne1, countArrows_keyword_arrow a _ (hk a (by simp)), ih']
      simp

/-- C16, the claim refuted: for the golang text `while x {` the four counts are 0 and
the control pattern is `while`, one keyword, so the pattern has more keywords than
the sum of the counts. -/
theorem analyzeControlFlow_pattern_exceeds_counts :
    (analyzeControlFlow "while x \x7b".toList "golang".toList).ControlPattern = "while".toList ∧
      patternLength (analyzeControlFlow "while x \x7b".toList "golang".toList).ControlPattern = 1 ∧
      (analyzeControlFlow "while x \x7b".toList "golang".toList).IfCount +
        (analyzeControlFlow "while x \x7b".toList "golang".toList).ForCount +
        (analyzeControlFlow "while x \x7b".toList "golang".toList).WhileCount +
        (analyzeControlFlow "while x \x7b".toList "golang".toList).SwitchCount = 0 ∧
      ¬ ((patternLength
          (analyzeControlFlow "while x \x7b".toList "golang".toList).ControlPattern : Int) ≤
        (analyzeControlFlow "while x \x7b".toList "golang".toList).IfCount +
        (analyzeControlFlow "while x \x7b".toList "golang".toList).ForCount +
        (analyzeControlFlow "while x \x7b".toList "golang".toList).WhileCount +
        (analyzeControlFlow "while x \x7b".toList "golang".toList).SwitchCount) := by
  decide

/-! ## Whole-word counts against keyword lines -/

theorem trimLeft_decomp (s : GoString) :
    ∃ ws, s = ws ++ trimLeft s ∧ ∀ c ∈ ws, isSpace c = true := by
  induction s with
  | nil => exact ⟨[], rfl, by simp⟩
  | cons c cs ih =>
    unfold trimLeft
    by_cases hc : isSpace c = true
    · obtain ⟨ws, h1, h2⟩ := ih
      refine ⟨c :: ws, ?_, ?_⟩
      · rw [if_pos hc, List.cons_append, ← h1]
      · intro x hx
        rcases List.mem_cons.1 hx with e | e
        · rw [e]; exact hc
        · exact h2 x e
    · exact ⟨[], by rw [if_neg hc]; rfl, by simp⟩

/-- A text is its trimmed text between two stretches of white space. -/
theorem TrimSpace_decomp (s : GoString) :
    ∃ ws ws', s = ws ++ TrimSpace s ++ ws' ∧ (∀ c ∈ ws, isSpace c = true) ∧
      (∀ c ∈ ws', isSpace c = true) := by
  obtain ⟨ws, h1, h2⟩ := trimLeft_decomp s
  obtain ⟨wr, h3, h4⟩ := trimLeft_decomp (trimLeft s).reverse
  refine ⟨ws, wr.reverse, ?_, h2, ?_⟩
  · unfold TrimSpace
    have h5 : trimLeft s = (trimLeft (trimLeft s).reverse).reverse ++ wr.reverse := by
      have := congrArg List.reverse h3
      simpa using this
    rw [List.append_assoc, ← h5]
    exact h1
  · intro c hc
    exact h4 c (List.mem_reverse.1 hc)

theorem isWordChar_of_isSpace (c : Char) (h : isSpace c = true) : isWordChar c = false := by
  rw [isSpace_iff] at h
  simp only [isWordChar, Bool.or_eq_false_iff, Bool.and_eq_false_iff, decide_eq_false_iff_not,
    beq_eq_false_iff_ne, ne_eq]
  omega

theorem Join_Split (sep : Char) (s : GoString) : Join [sep] (Split sep s) = s := by
  induction s with
  | nil => rfl
  | cons c cs ih =>
    unfold Split
    by_cases hc : c = sep
    · rw [if_pos hc]
      have hne := Split_ne_nil sep cs
      cases hs : Split sep cs with
      | nil => exact absurd hs hne
      | cons p ps =>
        rw [hs] at ih
        simp only [Join, List.nil_append, List.singleton_append]
        rw [ih, hc]
    · rw [if_neg hc]
      cases hs : Split sep cs with
      | nil => exact absurd hs (Split_ne_nil sep cs)
      | cons p ps =>
        rw [hs] at ih
        simp only
        rw [Join_cons_cons, ih]

theorem prevAfter_nil (prev : Option Char) : prevAfter prev [] = prev := rfl

theorem prevAfter_cons (prev : Option Char) (c : Char) (a : GoString) :
    prevAfter prev (c :: a) = prevAfter (some c) a := by
  unfold prevAfter
  cases a with
  | nil => rfl
  | cons d a' =>
    rw [List.getLast?_cons_cons]
    cases h : (d :: a').getLast? with
    | none => simp at h
    | some x => rfl

theorem prevAfter_append_cons (prev : Option Char) (a : GoString) (c : Char) (b : GoString) :
    prevAfter prev (a ++ c :: b) = prevAfter (some c) b := by
  induction a generalizing prev with
  | nil => exact prevAfter_cons prev c b
  | cons d a' ih => rw [List.cons_append, prevAfter_cons, ih]

theorem boundaryAfter_prevAfter (prev : Option Char) (ws : GoString)
    (hp : boundaryAfter prev = true) (hws : ∀ c ∈ ws, isSpace c = true) :
    boundaryAfter (prevAfter prev ws) = true := by
  rcases List.eq_nil_or_concat ws with e | ⟨l, x, e⟩
  · rw [e]; exact hp
  · rw [List.concat_eq_append] at e
    rw [e, prevAfter_append_cons, prevAfter_nil]
    simp [boundaryAfter, isWordChar_of_isSpace x (hws x (by rw [e]; simp))]

theorem countWordFrom_cons (w : GoString) (prev : Option Char) (c : Char) (cs : GoString) :
    countWordFrom w prev (c :: cs) =
      (if wordAt w prev (c :: cs) then 1 else 0) + countWordFrom w (some c) cs := by
  rw [countWordFrom]

/-- Skipping a stretch of text does not add matches. -/
theorem countWordFrom_skip (w : GoString) (a b : GoString) :
    ∀ prev, countWordFrom w (prevAfter prev a) b ≤ countWordFrom w prev (a ++ b) := by
  induction a with
  | nil => intro prev; exact Nat.le_refl _
  | cons c a' ih =>
    intro prev
    rw [prevAfter_cons, List.cons_append, countWordFrom_cons]
    exact Nat.le_trans (ih (some c)) (Nat.le_add_left _ _)

theorem wordAt_of_boundaries (w R : GoString) (prev : Option Char)
    (hp : boundaryAfter prev = true) (hR : boundaryBefore R = true) :
    wordAt w prev (w ++ R) = true := by
  have h2 : w.isPrefixOf (w ++ R) = true := by
    rw [List.isPrefixOf_iff_prefix]
    exact List.prefix_append _ _
  unfold wordAt
  rw [h2, List.drop_left, hp, hR]
  rfl

/-- A line that starts, after its leading white space, with the keyword as a whole
word adds one match. -/
theorem countWordFrom_line (w0 : Char) (wt tail ws ws' t : GoString) (prev : Option Char)
    (hp : boundaryAfter prev = true) (hws : ∀ c ∈ ws, isSpace c = true)
    (hws' : ∀ c ∈ ws', isSpace c = true) (htail : boundaryBefore tail = true)
    (ht : boundaryBefore t = true) :
    1 + countWordFrom (w0 :: wt) (prevAfter prev (ws ++ ((w0 :: wt) ++ tail) ++ ws')) t ≤
      countWordFrom (w0 :: wt) prev ((ws ++ ((w0 :: wt) ++ tail) ++ ws') ++ t) := by
  have hR : boundaryBefore (tail ++ ws' ++ t) = true := by
    cases tail with
    | cons d r => exact htail
    | nil =>
      cases ws' with
      | cons d r => simp [boundaryBefore, isWordChar_of_isSpace d (hws' d (by simp))]
      | nil => exact ht
  have e1 : (ws ++ ((w0 :: wt) ++ tail) ++ ws') ++ t =
      ws ++ ((w0 :: wt) ++ (tail ++ ws' ++ t)) := by simp
  have e2 : (w0 :: wt) ++ (tail ++ ws' ++ t) = w0 :: ((wt ++ tail ++ ws') ++ t) := by simp
  have e3 : ws ++ ((w0 :: wt) ++ tail) ++ ws' = ws ++ w0 :: (wt ++ tail ++ ws') := by simp
  have s1 := countWordFrom_skip (w0 :: wt) ws ((w0 :: wt) ++ (tail ++ ws' ++ t)) prev
  have hw := wordAt_of_boundaries (w0 :: wt) (tail ++ ws' ++ t) (prevAfter prev ws)
    (boundaryAfter_prevAfter prev ws hp hws) hR
  have s2 := countWordFrom_skip (w0 :: wt) (wt ++ tail ++ ws') t (some w0)
  rw [e1]
  rw [e3, prevAfter_append_cons]
  have s3 : countWordFrom (w0 :: wt) (prevAfter prev ws) ((w0 :: wt) ++ (tail ++ ws' ++ t)) =
      1 + countWordFrom (w0 :: wt) (some w0) ((wt ++ tail ++ ws') ++ t) := by
    conv_lhs => rw [e2, countWordFrom_cons]
    rw [← e2, hw]
    rfl
  omega

theorem lineKeyword_some_prefix {line k : GoString} (h : lineKeyword line = some k) :
    k <+: TrimSpace line := by
  unfold lineKeyword at h
  simp only at h
  split at h
  · rename_i hc
    rw [← Option.some.inj h]; exact (startsWith_iff _ _).1 hc
  · split at h
    · rename_i hc
      rw [← Option.some.inj h]; exact (startsWith_iff _ _).1 hc
    · split at h
      · rename_i hc
        rw [← Option.some.inj h]; exact (startsWith_iff _ _).1 hc
      · split at h
        · rename_i hc
          rw [← Option.some.inj h]; exact (startsWith_iff _ _).1 hc
        · exact absurd h (by simp)

theorem countWordFrom_one_line (w0 : Char) (wt l t : GoString) (prev : Option Char)
    (hp : boundaryAfter prev = true) (ht : boundaryBefore t = true)
    (hq : lineKeyword l = some (w0 :: wt) →
      boundaryBefore ((TrimSpace l).drop (w0 :: wt).length) = true) :
    (if lineKeyword l = some (w0 :: wt) then 1 else 0) +
        countWordFrom (w0 :: wt) (prevAfter prev l) t ≤
      countWordFrom (w0 :: wt) prev (l ++ t) := by
  by_cases hk : lineKeyword l = some (w0 :: wt)
  · rw [if_pos hk]
    obtain ⟨ws, ws', hl, hws, hws'⟩ := TrimSpace_decomp l
    obtain ⟨tail, htail⟩ := lineKeyword_some_prefix hk
    have hb := hq hk
    rw [← htail, List.drop_left] at hb
    have key := countWordFrom_line w0 wt tail ws ws' t prev hp hws hws' hb ht
    rw [htail, ← hl] at key
    exact key
  · rw [if_neg hk, Nat.zero_add]
    exact countWordFrom_skip _ l t prev

/-- The whole-word matches of a keyword in a text are at least as many as the lines
that add this keyword to the control pattern as a whole word. -/
theorem countP_le_countWordFrom (w0 : Char) (wt : GoString) (lines : List GoString) :
    ∀ prev, boundaryAfter prev = true →
      (∀ line ∈ lines, lineKeyword line = some (w0 :: wt) →
        boundaryBefore ((TrimSpace line).drop (w0 :: wt).length) = true) →
      lines.countP (fun line => decide (lineKeyword line = some (w0 :: wt))) ≤
        countWordFrom (w0 :: wt) prev (Join ['\n'] lines) := by
  induction lines with
  | nil => intro prev _ _; simp [Join, countWordFrom]
  | cons l rest ih =>
    intro prev hp hq
    have hq1 := hq l (by simp)
    cases rest with
    | nil =>
      have key := countWordFrom_one_line w0 wt l [] prev hp rfl hq1
      rw [List.append_nil] at key
      simp only [Join, List.countP_cons, List.countP_nil, decide_eq_true_eq, Nat.zero_add]
      have : countWordFrom (w0 :: wt) (prevAfter prev l) [] = 0 := by
        cases prevAfter prev l <;> rfl
      omega
    | cons l2 ls =>
      have hJ : Join ['\n'] (l :: l2 :: ls) = l ++ '\n' :: Join ['\n'] (l2 :: ls) := by
        simp [Join]
      have ih' := ih (some '\n') rfl
        (fun line hm => hq line (List.mem_cons_of_mem _ hm))
      have key := countWordFrom_one_line w0 wt l ('\n' :: Join ['\n'] (l2 :: ls)) prev hp
        rfl hq1
      rw [countWordFrom_cons] at key
      rw [hJ, List.countP_cons]
      simp only [decide_eq_true_eq]
      omega

theorem length_controlKeywords (lines : List GoString) :
    (lines.filterMap lineKeyword).length =
      lines.countP (fun line => decide (lineKeyword line = some "if".toList)) +
      lines.countP (fun line => decide (lineKeyword line = some "for".toList)) +
      lines.countP (fun line => decide (lineKeyword line = some "switch".toList)) +
      lines.countP (fun line => decide (lineKeyword line = some "while".toList)) := by
  induction lines with
  | nil => rfl
  | cons l rest ih =>
    simp only [List.countP_cons, List.filterMap_cons]
    cases hk : lineKeyword l with
    | none => simp [ih]
    | some k =>
      rcases lineKeyword_mem hk with e | e | e | e <;> subst e <;>
        simp [ih] <;> omega

theorem length_controlKeywords_eq_filter (lines : List GoString) :
    (lines.filterMap lineKeyword).length =
      (lines.filter (fun line => (specLineKeyword line).isSome)).length := by
  induction lines with
  | nil => rfl
  | cons l rest ih =>
    rw [List.filterMap_cons, List.filter_cons, ← lineKeyword_eq_spec]
    cases hk : lineKeyword l with
    | none => simpa using ih
    | some k => simpa using ih

/-- C16, amended: the four counts are non-negative; for a language other than golang
the control pattern is empty; for golang the number of keywords of the pattern is
the number of lines whose trimmed text starts with `if`, `for`, `switch` or `while`;
and this number is at most `IfCount + ForCount + WhileCount + SwitchCount` when each
such line starts with `if`, `for` or `switch` as a whole word. -/
theorem analyzeControlFlow_invariant (code language : GoString) :
    0 ≤ (analyzeControlFlow code language).IfCount ∧
      0 ≤ (analyzeControlFlow code language).ForCount ∧
      0 ≤ (analyzeControlFlow code language).WhileCount ∧
      0 ≤ (analyzeControlFlow code language).SwitchCount ∧
      (language ≠ "golang".toList → (analyzeControlFlow code language).ControlPattern = []) ∧
      (language = "golang".toList →
        patternLength (analyzeControlFlow code language).ControlPattern =
          ((Split '\n' code).filter (fun line => (specLineKeyword line).isSome)).length) ∧
      (KeywordLinesWhole code →
        (patternLength (analyzeControlFlow code language).ControlPattern : Int) ≤
          (analyzeControlFlow code language).IfCount +
          (analyzeControlFlow code language).ForCount +
          (analyzeControlFlow code language).WhileCount +
          (analyzeControlFlow code language).SwitchCount) := by
  have hlen : patternLength (createControlPattern code) =
      ((Split '\n' code).filterMap lineKeyword).length := by
    unfold createControlPattern
    rw [patternLength_Join _ (fun k hk => controlKeywords_mem hk)]
    rfl
  by_cases hg : language = "golang".toList
  · subst hg
    simp only [analyzeControlFlow, if_true]
    refine ⟨Int.natCast_nonneg _, Int.natCast_nonneg _, Int.le_refl _, Int.natCast_nonneg _,
      fun h => absurd rfl h, fun _ => ?_, fun hw => ?_⟩
    · rw [hlen, length_controlKeywords_eq_filter]
    · rw [hlen, length_controlKeywords]
      have hcode : ∀ w, countWord w code = countWordFrom w none (Join ['\n'] (Split '\n' code)) := by
        intro w; rw [Join_Split]; rfl
      have h1 := countP_le_countWordFrom 'i' ['f'] (Split '\n' code) none rfl
        (fun line hm hk => (hw line hm _ hk).2)
      have h2 := countP_le_countWordFrom 'f' ['o', 'r'] (Split '\n' code) none rfl
        (fun line hm hk => (hw line hm _ hk).2)
      have h3 := countP_le_countWordFrom 's' ['w', 'i', 't', 'c', 'h'] (Split '\n' code) none
        rfl (fun line hm hk => (hw line hm _ hk).2)
      have h4 : (Split '\n' code).countP
          (fun line => decide (lineKeyword line = some "while".toList)) = 0 := by
        rw [List.countP_eq_zero]
        intro line hm
        simp only [decide_eq_true_eq]
        intro hk
        exact (hw line hm _ hk).1 rfl
      rw [← hcode] at h1 h2 h3
      rw [h4]
      have e1 : "if".toList = ['i', 'f'] := rfl
      have e2 : "for".toList = ['f', 'o', 'r'] := rfl
      have e3 : "switch".toList = ['s', 'w', 'i', 't', 'c', 'h'] := rfl
      rw [e1, e2, e3]
      omega
  · by_cases hp : language = "python".toList
    · subst hp
      simp only [analyzeControlFlow, hg, if_false, if_true]
      refine ⟨Int.natCast_nonneg _, Int.natCast_nonneg _, Int.natCast_nonneg _, Int.le_refl _,
        ?_, ?_, fun _ => ?_⟩
      · simp
      · simp [hg]
      simp only [patternLength, if_true]
      have := Int.natCast_nonneg (countWord "if".toList code)
      have := Int.natCast_nonneg (countWord "for".toList code)
      have := Int.natCast_nonneg (countWord "while".toList code)
      omega
    · simp only [analyzeControlFlow, hg, hp, if_false]
      refine ⟨Int.le_refl _, Int.le_refl _, Int.le_refl _, Int.le_refl _,
        ?_, ?_, fun _ => ?_⟩
      · simp
      · simp [hg]
      · simp [patternLength]

/-- C16, witness: the scenario source, whose keyword lines start with `if` and `for`
as whole words, has a pattern of 3 keywords and counts of sum 3. -/
theorem analyzeControlFlow_invariant_witness :
    KeywordLinesWhole scenarioSource ∧
      (patternLength (analyzeControlFlow scenarioSource "golang".toList).ControlPattern : Int) ≤
        (analyzeControlFlow scenarioSource "golang".toList).IfCount +
        (analyzeControlFlow scenarioSource "golang".toList).ForCount +
        (analyzeControlFlow scenarioSource "golang".toList).WhileCount +
        (analyzeControlFlow scenarioSource "golang".toList).SwitchCount := by
  have hw : KeywordLinesWhole scenarioSource := by
    unfold KeywordLinesWhole
    have hs : Split '\n' scenarioSource =
        ["if a \x7b".toList, "    for b \x7b".toList, "    \x7d".toList, "\x7d".toList,
          "if c \x7b".toList, "\x7d".toList] := by decide
    rw [hs]
    intro line hm k hk
    simp only [List.mem_cons, List.mem_singleton, List.not_mem_nil, or_false] at hm
    rcases hm with e | e | e | e | e | e <;> subst e
    · have : lineKeyword "if a \x7b".toList = some "if".toList := by decide
      rw [this] at hk
      rw [← Option.some.inj hk]
      exact ⟨by decide, by decide⟩
    · have : lineKeyword "    for b \x7b".toList = some "for".toList := by decide
      rw [this] at hk
      rw [← Option.some.inj hk]
      exact ⟨by decide, by decide⟩
    · have : lineKeyword "    \x7d".toList = none := by decide
      rw [this] at hk
      exact absurd hk (by simp)
    · have : lineKeyword "\x7d".toList = none := by decide
      rw [this] at hk
      exact absurd hk (by simp)
    · have : lineKeyword "if c \x7b".toList = some "if".toList := by decide
      rw [this] at hk
      rw [← Option.some.inj hk]
      exact ⟨by decide, by decide⟩
    · have : lineKeyword "\x7d".toList = none := by decide
      rw [this] at hk
      exact absurd hk (by simp)
  exact ⟨hw, (analyzeControlFlow_invariant scenarioSource "golang".toList).2.2.2.2.2.2 hw⟩

/-! ## Facts about `Index`, `Contains` and the marker slices -/

theorem indexNat?_facts (m : GoString) (s : GoString) :
    ∀ i, indexNat? m s = some i →
      afterFirst m s = s.drop (i + m.length) ∧ beforeFirst m s = s.take i ∧
        i + m.length ≤ s.length := by
  induction s with
  | nil =>
    intro i h
    unfold indexNat? at h
    split at h
    · rename_i hm
      have : i = 0 := by simpa using h.symm
      subst this
      simp [afterFirst, beforeFirst, hm]
    · exact absurd h (by simp)
  | cons c cs ih =>
    intro i h
    unfold indexNat? at h
    by_cases hp : m.isPrefixOf (c :: cs) = true
    · rw [if_pos hp] at h
      have : i = 0 := by simpa using h.symm
      subst this
      have hle : m.length ≤ (c :: cs).length :=
        (List.isPrefixOf_iff_prefix.1 hp).length_le
      simp only [afterFirst, beforeFirst, if_pos hp, Nat.zero_add, List.take_zero]
      exact ⟨trivial, trivial, hle⟩
    · rw [if_neg hp] at h
      cases hj : indexNat? m cs with
      | none => rw [hj] at h; exact absurd h (by simp)
      | some j =>
        rw [hj] at h
        have hi : i = j + 1 := by simpa using h.symm
        obtain ⟨h1, h2, h3⟩ := ih j hj
        subst hi
        simp only [afterFirst, beforeFirst, if_neg hp]
        refine ⟨?_, ?_, ?_⟩
        · rw [h1]
          have : j + 1 + m.length = (j + m.length) + 1 := by omega
          rw [this, List.drop_succ_cons]
        · rw [h2, List.take_succ_cons]
        · simp only [List.length_cons]; omega

theorem Index_of_some {m s : GoString} {i : Nat} (h : indexNat? m s = some i) :
    Index s m = (i : Int) := by
  unfold Index; rw [h]

theorem Contains_iff (s m : GoString) :
    Contains s m = true ↔ ∃ i, indexNat? m s = some i := by
  unfold Contains Index
  cases h : indexNat? m s with
  | none => simp
  | some i => simp

theorem Contains_false_iff (s m : GoString) :
    Contains s m = false ↔ indexNat? m s = none := by
  unfold Contains Index
  cases h : indexNat? m s with
  | none => simp
  | some i => simp

/-- The markers of the program are two characters that are not white space. -/
theorem isPrefixOf_space_cons (a b c : Char) (rest : GoString) (ha : isSpace a = false)
    (hc : isSpace c = true) : [a, b].isPrefixOf (c :: rest) = false := by
  have hne : a ≠ c := by
    intro e; rw [e, hc] at ha; exact Bool.noConfusion ha
  simp [List.isPrefixOf, hne]

theorem isPrefixOf_append_spaces (a b : Char) (x ws : GoString) (ha : isSpace a = false)
    (hb : isSpace b = false) (hws : ∀ c ∈ ws, isSpace c = true) :
    [a, b].isPrefixOf (x ++ ws) = [a, b].isPrefixOf x := by
  have hsp : ∀ (p : Char), isSpace p = false → ∀ r, [p].isPrefixOf ws = false ∧
      [p, r].isPrefixOf ws = false := by
    intro p hp r
    cases ws with
    | nil => simp [List.isPrefixOf]
    | cons d ds =>
      have hd := hws d (by simp)
      have hne : p ≠ d := by
        intro e; rw [e, hd] at hp; exact Bool.noConfusion hp
      simp [List.isPrefixOf, hne]
  cases x with
  | nil => simpa [List.isPrefixOf] using (hsp a ha b).2
  | cons c x' =>
    cases x' with
    | nil =>
      have := (hsp b hb b).1
      show [a, b].isPrefixOf (c :: ws) = [a, b].isPrefixOf [c]
      simp only [List.isPrefixOf, this, Bool.and_false]
    | cons d x'' => simp [List.isPrefixOf]

theorem indexNat?_spaces_append (a b : Char) (ws x : GoString) (ha : isSpace a = false)
    (hws : ∀ c ∈ ws, isSpace c = true) :
    indexNat? [a, b] (ws ++ x) = (indexNat? [a, b] x).map (fun i => i + ws.length) := by
  induction ws with
  | nil => simp
  | cons c ws' ih =>
    have hc := hws c (by simp)
    rw [List.cons_append, indexNat?,
      if_neg (by rw [isPrefixOf_space_cons a b c _ ha hc]; simp),
      ih (fun d hd => hws d (List.mem_cons_of_mem _ hd))]
    cases indexNat? [a, b] x with
    | none => rfl
    | some i => simp [Nat.add_assoc]

theorem indexNat?_append_spaces (a b : Char) (x ws : GoString) (ha : isSpace a = false)
    (hb : isSpace b = false) (hws : ∀ c ∈ ws, isSpace c = true) :
    indexNat? [a, b] (x ++ ws) = indexNat? [a, b] x := by
  induction x with
  | nil =>
    have h1 : indexNat? [a, b] ([] : GoString) = none := by simp [indexNat?]
    rw [h1, List.nil_append]
    have h0 := indexNat?_spaces_append a b ws [] ha hws
    rw [List.append_nil, h1] at h0
    exact h0
  | cons c x' ih =>
    rw [List.cons_append, indexNat?, indexNat?, ← List.cons_append,
      isPrefixOf_append_spaces a b (c :: x') ws ha hb hws, ih]

theorem afterFirst_spaces_append (a b : Char) (ws x : GoString) (ha : isSpace a = false)
    (hws : ∀ c ∈ ws, isSpace c = true) :
    afterFirst [a, b] (ws ++ x) = afterFirst [a, b] x := by
  induction ws with
  | nil => rfl
  | cons c ws' ih =>
    have hc := hws c (by simp)
    rw [List.cons_append, afterFirst,
      if_neg (by rw [isPrefixOf_space_cons a b c _ ha hc]; simp),
      ih (fun d hd => hws d (List.mem_cons_of_mem _ hd))]

theorem beforeFirst_spaces_append (a b : Char) (ws x : GoString) (ha : isSpace a = false)
    (hws : ∀ c ∈ ws, isSpace c = true) :
    beforeFirst [a, b] (ws ++ x) = ws ++ beforeFirst [a, b] x := by
  induction ws with
  | nil => rfl
  | cons c ws' ih =>
    have hc := hws c (by simp)
    rw [List.cons_append, beforeFirst,
      if_neg (by rw [isPrefixOf_space_cons a b c _ ha hc]; simp),
      ih (fun d hd => hws d (List.mem_cons_of_mem _ hd)), List.cons_append]

theorem afterFirst_append_spaces (a b : Char) (x ws : GoString) (ha : isSpace a = false)
    (hb : isSpace b = false) (hws : ∀ c ∈ ws, isSpace c = true)
    (hx : ∃ i, indexNat? [a, b] x = some i) :
    afterFirst [a, b] (x ++ ws) = afterFirst [a, b] x ++ ws := by
  obtain ⟨i, hi⟩ := hx
  have h1 := indexNat?_facts [a, b] x i hi
  have h2 := indexNat?_facts [a, b] (x ++ ws) i
    (by rw [indexNat?_append_spaces a b x ws ha hb hws]; exact hi)
  rw [h1.1, h2.1, List.drop_append_of_le_length h1.2.2]

theorem beforeFirst_append_spaces (a b : Char) (x ws : GoString) (ha : isSpace a = false)
    (hb : isSpace b = false) (hws : ∀ c ∈ ws, isSpace c = true)
    (hx : ∃ i, indexNat? [a, b] x = some i) :
    beforeFirst [a, b] (x ++ ws) = beforeFirst [a, b] x := by
  obtain ⟨i, hi⟩ := hx
  have h1 := indexNat?_facts [a, b] x i hi
  have h2 := indexNat?_facts [a, b] (x ++ ws) i
    (by rw [indexNat?_append_spaces a b x ws ha hb hws]; exact hi)
  rw [h1.2.1, h2.2.1, List.take_append_of_le_length (by have := h1.2.2; omega)]

/-! ## Facts about trimming and fields of joined texts -/

theorem trimLeft_spaces_append (ws y : GoString) (hws : ∀ c ∈ ws, isSpace c = true) :
    trimLeft (ws ++ y) = trimLeft y := by
  induction ws with
  | nil => rfl
  | cons c ws' ih =>
    rw [List.cons_append, trimLeft, if_pos (hws c (by simp)),
      ih (fun d hd => hws d (List.mem_cons_of_mem _ hd))]

theorem TrimSpace_spaces_append (ws y : GoString) (hws : ∀ c ∈ ws, isSpace c = true) :
    TrimSpace (ws ++ y) = TrimSpace y := by
  unfold TrimSpace
  rw [trimLeft_spaces_append ws y hws]

theorem TrimSpace_append_spaces (y ws : GoString) (hws : ∀ c ∈ ws, isSpace c = true) :
    TrimSpace (y ++ ws) = TrimSpace y := by
  induction y with
  | nil =>
    have := TrimSpace_spaces_append ws [] hws
    rw [List.append_nil] at this
    rw [List.nil_append, this]
  | cons c y' ih =>
    by_cases hc : isSpace c = true
    · have e1 : TrimSpace (c :: y' ++ ws) = TrimSpace (y' ++ ws) := by
        unfold TrimSpace
        rw [List.cons_append, trimLeft, if_pos hc]
      have e2 : TrimSpace (c :: y') = TrimSpace y' := by
        unfold TrimSpace
        rw [trimLeft, if_pos hc]
      rw [e1, e2, ih]
    · unfold TrimSpace
      rw [List.cons_append, trimLeft, if_neg hc, trimLeft, if_neg hc, ← List.cons_append,
        List.reverse_append,
        trimLeft_spaces_append ws.reverse _ (fun d hd => hws d (List.mem_reverse.1 hd))]

theorem TrimSpace_idem (s : GoString) : TrimSpace (TrimSpace s) = TrimSpace s :=
  TrimSpace_of_trimmed _ (TrimSpace_HeadOK s) (TrimSpace_LastOK s)

theorem Fields_append_space (a b : GoString) :
    Fields (a ++ ' ' :: b) = Fields a ++ Fields b := by
  induction a with
  | nil => rw [List.nil_append, Fields_space ' ' b (by decide)]; rfl
  | cons c a' ih =>
    by_cases hc : isSpace c = true
    · rw [List.cons_append, Fields_space c _ hc, Fields_space c _ hc, ih]
    · have hc' : isSpace c = false := by simpa using hc
      cases a' with
      | nil =>
        have h1 : Fields [c] = [[c]] := by simp [Fields, hc']
        have h2 : Fields ([c] ++ ' ' :: b) = [c] :: Fields (' ' :: b) :=
          Fields_break c ' ' b hc' (by decide)
        rw [h2, h1, Fields_space ' ' b (by decide)]
        rfl
      | cons d a'' =>
        by_cases hd : isSpace d = true
        · have h1 := Fields_break c d (a'' ++ ' ' :: b) hc' hd
          have h2 := Fields_break c d a'' hc' hd
          rw [List.cons_append, List.cons_append, h1, h2, ← List.cons_append, ih]
          rfl
        · have hd' : isSpace d = false := by simpa using hd
          obtain ⟨f, fs, h1, h2⟩ := Fields_glue c d (a'' ++ ' ' :: b) hc' hd'
          obtain ⟨g, gs, h3, h4⟩ := Fields_glue c d a'' hc' hd'
          rw [List.cons_append, List.cons_append, h2, h4]
          rw [List.cons_append, h1, h3, List.cons_append] at ih
          injection ih with e1 e2
          rw [e1, e2]
          rfl

theorem Fields_Join (qs : List GoString) :
    Fields (Join [' '] qs) = qs.flatMap Fields := by
  induction qs with
  | nil => rfl
  | cons a rest ih =>
    cases rest with
    | nil => simp [Join]
    | cons b rest' =>
      have hJ : Join [' '] (a :: b :: rest') = a ++ ' ' :: Join [' '] (b :: rest') := by
        simp [Join]
      rw [hJ, Fields_append_space, ih]
      simp [List.flatMap_cons]

theorem ToLower_Join (tbl : Char → Char) (qs : List GoString) :
    ToLower tbl (Join [' '] qs) = Join [' '] (qs.map (ToLower tbl)) := by
  induction qs with
  | nil => rfl
  | cons a rest ih =>
    cases rest with
    | nil => rfl
    | cons b rest' =>
      have hJ : ∀ (x y : GoString) (r : List GoString),
          Join [' '] (x :: y :: r) = x ++ ' ' :: Join [' '] (y :: r) := by
        intro x y r; simp [Join]
      have hsp : toLowerRune tbl ' ' = ' ' :=
        toLowerRune_ascii_other tbl ' ' (by decide) (by decide)
      rw [hJ, List.map_cons, List.map_cons, hJ, ← List.map_cons, ← ih]
      simp [ToLower, hsp]

/-- The normalized comment text depends on the fields of the lower-cased comments
only. -/
theorem normalizeComments_eq (tbl : Char → Char) (comments : List GoString) :
    normalizeComments tbl comments =
      Join [' '] ((comments.map (ToLower tbl)).flatMap Fields) := by
  unfold normalizeComments
  rw [ToLower_Join, Fields_Join]

/-! ## The loop of `extractComments` on a block comment -/

theorem Contains_TrimSpace (a b : Char) (ha : isSpace a = false) (hb : isSpace b = false)
    (s : GoString) : Contains (TrimSpace s) [a, b] = Contains s [a, b] := by
  obtain ⟨ws, ws', hs, hws, hws'⟩ := TrimSpace_decomp s
  have h : indexNat? [a, b] s =
      (indexNat? [a, b] (TrimSpace s)).map (fun i => i + ws.length) := by
    conv_lhs => rw [hs, List.append_assoc]
    rw [indexNat?_spaces_append a b ws _ ha hws,
      indexNat?_append_spaces a b _ ws' ha hb hws']
  unfold Contains Index
  rw [h]
  cases indexNat? [a, b] (TrimSpace s) with
  | none => rfl
  | some i =>
    have h1 : (0 : Int) ≤ ((i + ws.length : Nat) : Int) := Int.natCast_nonneg _
    have h2 : (0 : Int) ≤ ((i : Nat) : Int) := Int.natCast_nonneg _
    simp only [Option.map_some', h1, h2, decide_True]

theorem afterFirst_TrimSpace (a b : Char) (ha : isSpace a = false) (hb : isSpace b = false)
    (s : GoString) (hc : Contains s [a, b] = true) :
    TrimSpace (afterFirst [a, b] s) = TrimSpace (afterFirst [a, b] (TrimSpace s)) := by
  obtain ⟨ws, ws', hs, hws, hws'⟩ := TrimSpace_decomp s
  have hc' : Contains (TrimSpace s) [a, b] = true := by
    rw [Contains_TrimSpace a b ha hb]; exact hc
  conv_lhs => rw [hs, List.append_assoc]
  rw [afterFirst_spaces_append a b ws _ ha hws,
    afterFirst_append_spaces a b _ ws' ha hb hws' ((Contains_iff _ _).1 hc'),
    TrimSpace_append_spaces _ ws' hws']

theorem beforeFirst_TrimSpace (a b : Char) (ha : isSpace a = false) (hb : isSpace b = false)
    (s : GoString) (hc : Contains s [a, b] = true) :
    TrimSpace (beforeFirst [a, b] s) = TrimSpace (beforeFirst [a, b] (TrimSpace s)) := by
  obtain ⟨ws, ws', hs, hws, hws'⟩ := TrimSpace_decomp s
  have hc' : Contains (TrimSpace s) [a, b] = true := by
    rw [Contains_TrimSpace a b ha hb]; exact hc
  conv_lhs => rw [hs, List.append_assoc]
  rw [beforeFirst_spaces_append a b ws _ ha hws,
    beforeFirst_append_spaces a b _ ws' ha hb hws' ((Contains_iff _ _).1 hc'),
    TrimSpace_spaces_append ws _ hws]

/-- The step of the loop on a line with an opener and no closer: the flag is set,
and the text after the opener is appended when it is not empty. -/
theorem commentStep_opener (state : Bool × List GoString) (line : GoString)
    (h1 : Contains line "/*".toList = true) (h2 : Contains line "*/".toList = false) :
    commentStep state line =
      some (true, state.2 ++ commentPiece (afterFirst "/*".toList (TrimSpace line))) := by
  have e1 : "/*".toList = ['/', '*'] := rfl
  have e2 : "*/".toList = ['*', '/'] := rfl
  rw [e1] at h1 ⊢
  rw [e2] at h2
  have c1 : Contains (TrimSpace line) ['/', '*'] = true := by
    rw [Contains_TrimSpace _ _ (by decide) (by decide)]; exact h1
  have c2 : Contains (TrimSpace line) ['*', '/'] = false := by
    rw [Contains_TrimSpace _ _ (by decide) (by decide)]; exact h2
  obtain ⟨i, hi⟩ := (Contains_iff _ _).1 c1
  obtain ⟨f1, _, f3⟩ := indexNat?_facts _ _ i hi
  have hidx := Index_of_some hi
  simp only [List.length_cons, List.length_nil] at f1 f3
  unfold commentStep
  simp only [e1, e2, c1, c2, Bool.and_false, Bool.false_eq_true, if_false, if_true, hidx]
  by_cases hlt : (i : Int) < ((TrimSpace line).length : Int) - 2
  · have hs : goSlice (TrimSpace line) ((i : Int) + 2) ((TrimSpace line).length : Int) =
        some (afterFirst ['/', '*'] (TrimSpace line)) := by
      unfold goSlice
      rw [if_pos ⟨by omega, by omega, Int.le_refl _⟩, f1]
      have t1 : ((TrimSpace line).length : Int).toNat = (TrimSpace line).length := by simp
      have t2 : ((i : Int) + 2).toNat = i + 2 := by omega
      rw [t1, t2, List.take_length]
    have hne : afterFirst ['/', '*'] (TrimSpace line) ≠ [] := by
      rw [f1]
      intro e
      have := congrArg List.length e
      simp only [List.length_drop, List.length_nil] at this
      omega
    rw [if_pos hlt, hs]
    simp only [hne, ne_eq, not_false_eq_true, if_true, commentPiece, if_false]
  · have he : afterFirst ['/', '*'] (TrimSpace line) = [] := by
      rw [f1]
      apply List.drop_of_length_le
      omega
    rw [if_neg hlt, he]
    simp [commentPiece]

/-- The step of the loop on a line with a closer and no opener: the flag is cleared,
and the text before the closer is appended when it is not empty. -/
theorem commentStep_closer (state : Bool × List GoString) (line : GoString)
    (h1 : Contains line "*/".toList = true) (h2 : Contains line "/*".toList = false) :
    commentStep state line =
      some (false, state.2 ++ commentPiece (beforeFirst "*/".toList (TrimSpace line))) := by
  have e1 : "/*".toList = ['/', '*'] := rfl
  have e2 : "*/".toList = ['*', '/'] := rfl
  rw [e2] at h1 ⊢
  rw [e1] at h2
  have c1 : Contains (TrimSpace line) ['*', '/'] = true := by
    rw [Contains_TrimSpace _ _ (by decide) (by decide)]; exact h1
  have c2 : Contains (TrimSpace line) ['/', '*'] = false := by
    rw [Contains_TrimSpace _ _ (by decide) (by decide)]; exact h2
  obtain ⟨j, hj⟩ := (Contains_iff _ _).1 c1
  obtain ⟨_, f2, f3⟩ := indexNat?_facts _ _ j hj
  have hidx := Index_of_some hj
  simp only [List.length_cons, List.length_nil] at f3
  unfold commentStep
  simp only [e1, e2, c1, c2, Bool.false_and, Bool.false_eq_true, if_false, if_true, hidx]
  by_cases hgt : (j : Int) > 0
  · have hs : goSlice (TrimSpace line) 0 (j : Int) =
        some (beforeFirst ['*', '/'] (TrimSpace line)) := by
      unfold goSlice
      rw [if_pos ⟨Int.le_refl _, by omega, by omega⟩, f2]
      simp
    have hne : beforeFirst ['*', '/'] (TrimSpace line) ≠ [] := by
      rw [f2]
      intro e
      have := congrArg List.length e
      simp only [List.length_take, List.length_nil] at this
      omega
    rw [if_pos hgt, hs]
    simp only [hne, ne_eq, not_false_eq_true, if_true, commentPiece, if_false]
  · have he : beforeFirst ['*', '/'] (TrimSpace line) = [] := by
      rw [f2]
      have : j = 0 := by omega
      rw [this, List.take_zero]
    rw [if_neg hgt, he]
    simp [commentPiece]

/-- The step of the loop inside a block comment, on a line without marker: the
trimmed line is appended when it is not empty. -/
theorem commentStep_interior (comments : List GoString) (line : GoString)
    (h1 : Contains line "/*".toList = false) (h2 : Contains line "*/".toList = false) :
    commentStep (true, comments) line =
      some (true, comments ++ [TrimSpace line].filter (fun l => l != [])) := by
  have e1 : "/*".toList = ['/', '*'] := rfl
  have e2 : "*/".toList = ['*', '/'] := rfl
  rw [e1] at h1
  rw [e2] at h2
  have c1 : Contains (TrimSpace line) ['/', '*'] = false := by
    rw [Contains_TrimSpace _ _ (by decide) (by decide)]; exact h1
  have c2 : Contains (TrimSpace line) ['*', '/'] = false := by
    rw [Contains_TrimSpace _ _ (by decide) (by decide)]; exact h2
  unfold commentStep
  simp only [e1, e2, c1, c2, Bool.false_and, Bool.false_eq_true, if_false, if_true,
    TrimSpace_idem]
  by_cases hne : TrimSpace line = []
  · simp [hne]
  · simp [hne]

theorem foldlM_interior (interior : List GoString)
    (h : ∀ line ∈ interior,
      Contains line "/*".toList = false ∧ Contains line "*/".toList = false) :
    ∀ comments, interior.foldlM commentStep (true, comments) =
      some (true, comments ++ (interior.map TrimSpace).filter (fun l => l != [])) := by
  induction interior with
  | nil => intro comments; simp
  | cons l rest ih =>
    intro comments
    obtain ⟨h1, h2⟩ := h l (by simp)
    rw [List.foldlM_cons, commentStep_interior comments l h1 h2]
    simp only [Option.bind_eq_bind, Option.some_bind]
    rw [ih (fun line hm => h line (List.mem_cons_of_mem _ hm))]
    simp [List.filter_cons]
    split <;> simp

theorem commentPiece_fields (tbl : Char → Char) (x : GoString) :
    ((commentPiece x).map (ToLower tbl)).flatMap Fields =
      Fields (ToLower tbl (TrimSpace x)) := by
  unfold commentPiece
  by_cases hx : x = []
  · rw [if_pos hx, hx]
    rfl
  · rw [if_neg hx]
    simp

/-- C19: for a language other than python and a text made of a line with an opener
`/*` and no closer, lines with neither marker, and a line with a closer `*/` and no
opener, `extractComments` returns the lower-cased, whitespace-collapsed, space-joined
concatenation of the text after the opener, the trimmed text of every non-empty
interior line and the text before the closer; the text before the opener and after
the closer is not part of it. -/
theorem extractComments_block (lowerTable : Char → Char) (code language first last : GoString)
    (interior : List GoString) (hlang : language ≠ "python".toList)
    (hlines : Split '\n' code = first :: (interior ++ [last]))
    (hfirst : Contains first "/*".toList = true ∧ Contains first "*/".toList = false)
    (hinterior : ∀ line ∈ interior,
      Contains line "/*".toList = false ∧ Contains line "*/".toList = false)
    (hlast : Contains last "*/".toList = true ∧ Contains last "/*".toList = false) :
    extractComments lowerTable code language =
      some (specBlockComment lowerTable first interior last) := by
  have hfold : (first :: (interior ++ [last])).foldlM commentStep (false, []) =
      some (false, commentPiece (afterFirst "/*".toList (TrimSpace first)) ++
        (interior.map TrimSpace).filter (fun l => l != []) ++
        commentPiece (beforeFirst "*/".toList (TrimSpace last))) := by
    rw [List.foldlM_cons, commentStep_opener _ first hfirst.1 hfirst.2]
    simp only [Option.bind_eq_bind, Option.some_bind, List.nil_append]
    rw [List.foldlM_append, foldlM_interior interior hinterior]
    simp only [Option.bind_eq_bind, Option.some_bind]
    rw [List.foldlM_cons, commentStep_closer _ last hlast.1 hlast.2]
    simp only [Option.bind_eq_bind, Option.some_bind, List.foldlM_nil]
    rfl
  unfold extractComments
  simp only [if_neg hlang, hlines, hfold]
  congr 1
  have hspec : specBlockComment lowerTable first interior last =
      normalizeComments lowerTable ([TrimSpace (afterFirst "/*".toList first)] ++
        (interior.map TrimSpace).filter (fun line => line != []) ++
        [TrimSpace (beforeFirst "*/".toList last)]) := rfl
  have hA := afterFirst_TrimSpace '/' '*' (by decide) (by decide) first hfirst.1
  have hB := beforeFirst_TrimSpace '*' '/' (by decide) (by decide) last hlast.1
  have e1 : "/*".toList = ['/', '*'] := rfl
  have e2 : "*/".toList = ['*', '/'] := rfl
  rw [hspec, normalizeComments_eq, normalizeComments_eq]
  congr 1
  simp only [List.map_append, List.flatMap_append, commentPiece_fields, e1, e2, hA, hB,
    List.map_cons, List.map_nil, List.flatMap_cons, List.flatMap_nil, List.append_nil]

/-- C19, witness: a golang text of five lines, with text before the opener and after
the closer, an empty interior line and an interior line that starts with `//`. -/
theorem extractComments_block_witness :
    Split '\n' "x /* Hello  World\n  Secret  \n\n // Inner\n  closing text */ y".toList =
        "x /* Hello  World".toList ::
          (["  Secret  ".toList, [], " // Inner".toList] ++ ["  closing text */ y".toList]) ∧
      specBlockComment latin1Lower "x /* Hello  World".toList
          ["  Secret  ".toList, [], " // Inner".toList] "  closing text */ y".toList =
        "hello world secret // inner closing text".toList ∧
      extractComments latin1Lower
          "x /* Hello  World\n  Secret  \n\n // Inner\n  closing text */ y".toList
          "golang".toList =
        some (specBlockComment latin1Lower "x /* Hello  World".toList
          ["  Secret  ".toList, [], " // Inner".toList] "  closing text */ y".toList) :=
  ⟨by decide, by decide,
    extractComments_block latin1Lower
      "x /* Hello  World\n  Secret  \n\n // Inner\n  closing text */ y".toList
      "golang".toList "x /* Hello  World".toList "  closing text */ y".toList
      ["  Secret  ".toList, [], " // Inner".toList]
      (by decide) (by decide) (by decide) (by decide) (by decide)⟩

/-- C18, the code at the failing input: for the golang text with the import block
`import (`, `"fmt"`, `"os"`, `)` on four lines the pattern finds no match, since its
dot does not match a newline, and the import list and the import order are empty;
a block on one line is found; for a language other than golang both are empty. -/
theorem analyzeImports_multiline_block :
    (analyzeImports "import (\n\t\"fmt\"\n\t\"os\"\n)".toList "golang".toList).ImportList = [] ∧
      (analyzeImports "import (\n\t\"fmt\"\n\t\"os\"\n)".toList "golang".toList).ImportOrder
        = [] ∧
      ¬ ((analyzeImports "import (\n\t\"fmt\"\n\t\"os\"\n)".toList "golang".toList).ImportList =
        ["\"fmt\"".toList, "\"os\"".toList]) ∧
      (analyzeImports "import (\"fmt\")".toList "golang".toList).ImportList =
        ["\"fmt\"".toList] ∧
      (∀ code language : GoString, language ≠ "golang".toList →
        (analyzeImports code language).ImportList = [] ∧
        (analyzeImports code language).ImportOrder = []) := by
  refine ⟨by decide, by decide, by decide, by decide, ?_⟩
  intro code language h
  simp only [analyzeImports, if_neg h, Join]
  exact ⟨trivial, trivial⟩

/-! ## Function size -/

theorem specBalance_append_singleton (done : List GoString) (line : GoString) :
    specBalance (done ++ [line]) = specBalance done + bracketDelta line := by
  simp [specBalance]

theorem sizeLoop_false_skip (needle line : GoString) (rest : List GoString) (size bc : Int)
    (h : Contains line needle = false) :
    sizeLoop needle (line :: rest) size false bc = sizeLoop needle rest size false bc := by
  simp [sizeLoop, h]

theorem sizeLoop_enter (needle line : GoString) (rest : List GoString) (size bc : Int)
    (h : Contains line needle = true) :
    sizeLoop needle (line :: rest) size false bc
      = sizeLoop needle (line :: rest) size true bc := by
  simp [sizeLoop, h]

theorem sizeLoop_true_cons (needle line : GoString) (rest : List GoString) (size bc : Int) :
    sizeLoop needle (line :: rest) size true bc
      = if bc + bracketDelta line = 0 ∧ size + 1 > 1 then size + 1
        else sizeLoop needle rest (size + 1) true (bc + bracketDelta line) := by
  have e : bc + (Count line '\x7b' : Int) - (Count line '\x7d' : Int)
      = bc + bracketDelta line := by
    unfold bracketDelta; ring
  simp only [sizeLoop, ite_self, if_true, e]

/-- The loop on the counted lines: `done` holds the lines counted so far. -/
theorem sizeLoop_counted (needle : GoString) (rest done : List GoString) :
    sizeLoop needle rest done.length true (specBalance done)
      = match (List.range' (done.length + 1) rest.length).find?
            (fun k => decide (2 ≤ k) && decide (specBalance ((done ++ rest).take k) = 0)) with
        | some k => (k : Int)
        | none => ((done.length + rest.length : Nat) : Int) := by
  induction rest generalizing done with
  | nil => simp [sizeLoop]
  | cons line rest ih =>
    rw [sizeLoop_true_cons]
    have ht : (done ++ line :: rest).take (done.length + 1) = done ++ [line] := by
      rw [List.take_append_eq_append_take]
      simp
    have ih2 := ih (done ++ [line])
    rw [specBalance_append_singleton, List.length_append, List.length_singleton,
      List.append_assoc, List.singleton_append] at ih2
    rw [List.length_cons, List.range'_succ, List.find?_cons, ht, specBalance_append_singleton]
    by_cases hc : specBalance done + bracketDelta line = 0 ∧ (done.length : Int) + 1 > 1
    · rw [if_pos hc]
      have h2 : 2 ≤ done.length + 1 := by omega
      simp [hc.1, h2]
    · rw [if_neg hc]
      have hb : (decide (2 ≤ done.length + 1)
          && decide (specBalance done + bracketDelta line = 0)) = false := by
        rw [Bool.and_eq_false_iff]
        by_cases h2 : 2 ≤ done.length + 1
        · right
          have : ¬ specBalance done + bracketDelta line = 0 := fun h0 => hc ⟨h0, by omega⟩
          simp [this]
        · left; simp [h2]
      rw [hb]
      simp only []
      push_cast at ih2 ⊢
      rw [ih2]
      generalize List.find? _ _ = found
      cases found with
      | some k => rfl
      | none => simp only []; ring

theorem sizeLoop_dropWhile (needle : GoString) (lines : List GoString) :
    sizeLoop needle lines 0 false 0
      = sizeLoop needle (lines.dropWhile (fun line => !Contains line needle)) 0 true 0 := by
  induction lines with
  | nil => simp [sizeLoop]
  | cons line rest ih =>
    by_cases h : Contains line needle = true
    · rw [sizeLoop_enter _ _ _ _ _ h, List.dropWhile_cons_of_neg (by simp [h])]
    · have hf : Contains line needle = false := by simpa using h
      rw [sizeLoop_false_skip _ _ _ _ _ hf, ih, List.dropWhile_cons_of_pos (by simp [hf])]

theorem dropWhile_eq_nil_iff_all (p : GoString → Bool) (lines : List GoString) :
    lines.dropWhile p = [] ↔ lines.all p = true := by
  simp [List.dropWhile_eq_nil_iff]

theorem find?_congr_mem {α : Type} (p q : α → Bool) (l : List α)
    (h : ∀ x ∈ l, p x = q x) : l.find? p = l.find? q := by
  induction l with
  | nil => rfl
  | cons a l ih =>
    rw [List.find?_cons, List.find?_cons, h a (List.mem_cons_self _ _),
      ih (fun x hx => h x (List.mem_cons_of_mem _ hx))]

/-- C21: `calculateFunctionSize` returns the size in the words of the
specification: 0 when no line contains `func ` followed by the name, and otherwise
the number of lines counted from the first line that contains it, up to and
including the first counted line, not earlier than the second, at which the running
balance of `{` and `}` over the counted lines is zero, or up to the last line when
there is no such line. -/
theorem calculateFunctionSize_spec (code funcName : GoString) :
    calculateFunctionSize code funcName = (specFunctionSize code funcName : Int) := by
  unfold calculateFunctionSize specFunctionSize
  rw [sizeLoop_dropWhile]
  simp only []
  by_cases hall : (Split '\n' code).all
      (fun line => !Contains line ("func ".toList ++ funcName)) = true
  · rw [if_pos hall, (dropWhile_eq_nil_iff_all _ _).2 hall]
    simp [sizeLoop]
  · rw [if_neg hall]
    have hne : (Split '\n' code).dropWhile
        (fun line => !Contains line ("func ".toList ++ funcName)) ≠ [] :=
      fun h => hall ((dropWhile_eq_nil_iff_all _ _).1 h)
    generalize (Split '\n' code).dropWhile
        (fun line => !Contains line ("func ".toList ++ funcName)) = counted at hne
    have h := sizeLoop_counted ("func ".toList ++ funcName) counted []
    simp only [List.length_nil, Nat.cast_zero, List.nil_append, Nat.zero_add] at h
    have hb : specBalance [] = 0 := rfl
    rw [hb] at h
    rw [h]
    obtain ⟨line, rest, rfl⟩ := List.exists_cons_of_ne_nil hne
    rw [List.length_cons, List.range'_succ, List.find?_cons]
    simp only [show decide (2 ≤ 1) = false from rfl, Bool.false_and, Nat.add_sub_cancel]
    have hfind : List.find? (fun k => decide (2 ≤ k)
          && decide (specBalance (List.take k (line :: rest)) = 0)) (List.range' (1 + 1) rest.length)
        = List.find? (fun k => decide (specBalance (List.take k (line :: rest)) = 0))
          (List.range' 2 rest.length) := by
      apply find?_congr_mem
      intro k hk
      have : 2 ≤ k := by
        rw [List.mem_range'_1] at hk; omega
      simp [this]
    rw [hfind]
    split <;> rfl

theorem find?_range'_some (p : Nat → Bool) (n s k : Nat)
    (h : (List.range' s n).find? p = some k) :
    s ≤ k ∧ k < s + n ∧ p k = true ∧ ∀ j, s ≤ j → j < k → p j = false := by
  induction n generalizing s with
  | zero => simp at h
  | succ n ih =>
    rw [List.range'_succ, List.find?_cons] at h
    cases hp : p s with
    | true =>
      rw [hp] at h
      have hk : s = k := by simpa using h
      subst hk
      exact ⟨le_refl _, by omega, hp, fun j h1 h2 => by omega⟩
    | false =>
      rw [hp] at h
      obtain ⟨h1, h2, h3, h4⟩ := ih (s + 1) h
      refine ⟨by omega, by omega, h3, fun j hj1 hj2 => ?_⟩
      by_cases hj : j = s
      · rw [hj]; exact hp
      · exact h4 j (by omega) hj2

theorem find?_range'_none (p : Nat → Bool) (n s : Nat)
    (h : (List.range' s n).find? p = none) :
    ∀ j, s ≤ j → j < s + n → p j = false := by
  intro j h1 h2
  rw [List.find?_eq_none] at h
  have := h j (by rw [List.mem_range'_1]; omega)
  simpa using this

/-- The size in the words of the specification is the least `k` from 2 to the
number of counted lines with a zero balance over the first `k` counted lines, and
the number of counted lines when there is none. -/
theorem specFunctionSize_least (code funcName : GoString)
    (h : ∃ line ∈ Split '\n' code, Contains line ("func ".toList ++ funcName) = true) :
    let counted := (Split '\n' code).dropWhile
      (fun line => !Contains line ("func ".toList ++ funcName))
    let n := specFunctionSize code funcName
    1 ≤ n ∧ n ≤ counted.length
      ∧ (∀ j, 2 ≤ j → j < n → specBalance (counted.take j) ≠ 0)
      ∧ (n < counted.length → 2 ≤ n ∧ specBalance (counted.take n) = 0) := by
  intro counted n
  have hall : ¬ (Split '\n' code).all
      (fun line => !Contains line ("func ".toList ++ funcName)) = true := by
    intro hall
    rw [List.all_eq_true] at hall
    obtain ⟨line, hm, hc⟩ := h
    have := hall line hm
    rw [hc] at this
    exact absurd this (by decide)
  have hne : counted ≠ [] := fun h0 => hall ((dropWhile_eq_nil_iff_all _ _).1 h0)
  have hlen : 1 ≤ counted.length := List.length_pos.2 hne
  have hn : n = match (List.range' 2 (counted.length - 1)).find?
        (fun k => decide (specBalance (counted.take k) = 0)) with
      | some k => k
      | none => counted.length := by
    show specFunctionSize code funcName = _
    unfold specFunctionSize
    simp only []
    rw [if_neg hall]
  cases hf : (List.range' 2 (counted.length - 1)).find?
      (fun k => decide (specBalance (counted.take k) = 0)) with
  | some k =>
    rw [hf] at hn
    simp only [] at hn
    obtain ⟨h1, h2, h3, h4⟩ := find?_range'_some _ _ _ _ hf
    rw [hn]
    refine ⟨by omega, by omega, fun j hj1 hj2 => ?_, fun _ => ⟨h1, by simpa using h3⟩⟩
    simpa using h4 j hj1 hj2
  | none =>
    rw [hf] at hn
    simp only [] at hn
    rw [hn]
    refine ⟨hlen, le_refl _, fun j hj1 hj2 => ?_, fun hlt => absurd hlt (lt_irrefl _)⟩
    simpa using find?_range'_none _ _ _ hf j hj1 (by omega)

theorem specFunctionSize_absent (code funcName : GoString)
    (h : ∀ line ∈ Split '\n' code, Contains line ("func ".toList ++ funcName) = false) :
    specFunctionSize code funcName = 0 := by
  unfold specFunctionSize
  simp only []
  rw [if_pos]
  rw [List.all_eq_true]
  intro line hm
  rw [h line hm]
  rfl

/-! ## Block comments in the normalizer -/

theorem ToLower_Secret (tbl : Char → Char) :
    ToLower tbl "Secret".toList = "secret".toList := rfl

theorem filterLines_blockCommentSource (language : GoString)
    (h : language ≠ "python".toList) :
    filterLines blockCommentSource language = "Secret".toList := by
  have hk : keepLine language = keepDefaultLine := by
    funext line
    unfold keepLine
    rw [if_neg h]
  unfold filterLines
  simp only [hk]
  decide

theorem foldlM_blockCommentSource :
    (Split '\n' blockCommentSource).foldlM commentStep (false, [])
      = some (false, ["Secret".toList]) := by
  decide

/-- C22: the normalizer does not track the state of a block comment. For a language
other than `python` and the source of the three lines `/*`, `Secret` and `*/`,
`normalizeCode` returns `secret`, the interior line of the block comment, and
`extractComments` returns the same text as the comment. -/
theorem normalizeCode_keeps_block_interior (tbl : Char → Char) (language : GoString)
    (h : language ≠ "python".toList) :
    normalizeCode tbl blockCommentSource language = "secret".toList
      ∧ extractComments tbl blockCommentSource language = some "secret".toList := by
  constructor
  · rw [normalizeCode_eq, filterLines_blockCommentSource language h, ToLower_Secret]
    decide
  · unfold extractComments
    simp only []
    rw [if_neg h, foldlM_blockCommentSource]
    show some (Join [' '] (Fields (ToLower tbl (Join [' '] ["Secret".toList])))) = _
    have : Join [' '] ["Secret".toList] = "Secret".toList := by decide
    rw [this, ToLower_Secret]
    decide

theorem normalizeCode_keeps_block_interior_witness :
    "golang".toList ≠ "python".toList
      ∧ normalizeCode latin1Lower blockCommentSource "golang".toList = "secret".toList
      ∧ extractComments latin1Lower blockCommentSource "golang".toList
          = some "secret".toList :=
  ⟨by decide, normalizeCode_keeps_block_interior latin1Lower "golang".toList (by decide)⟩

/-! ## Comment score and labels of `compareProjects` -/

/-- C23: in the result of `compareProjects p1 p2`, `CommentSimilarity` is 0 when
`p1.Comments` or `p2.Comments` is empty and `compareTexts p1.Comments p2.Comments`
otherwise, `TokenSimilarity` is 0, and `Project1`, `Project2` and `Language` are
`p1.Name`, `p2.Name` and `p1.Language`. -/
theorem compareProjects_comment_token_labels (p1 p2 : Project) :
    (compareProjects p1 p2).CommentSimilarity
        = (if p1.Comments = [] ∨ p2.Comments = [] then 0
           else compareTexts p1.Comments p2.Comments)
      ∧ (compareProjects p1 p2).TokenSimilarity = 0
      ∧ (compareProjects p1 p2).Project1 = p1.Name
      ∧ (compareProjects p1 p2).Project2 = p2.Name
      ∧ (compareProjects p1 p2).Language = p1.Language := by
  refine ⟨?_, rfl, rfl, rfl, rfl⟩
  show (if p1.Comments ≠ [] ∧ p2.Comments ≠ [] then compareTexts p1.Comments p2.Comments
    else 0) = _
  by_cases h : p1.Comments = [] ∨ p2.Comments = []
  · rw [if_pos h, if_neg]
    rintro ⟨h1, h2⟩
    exact h.elim h1 h2
  · rw [if_neg h, if_pos]
    exact ⟨fun h1 => h (Or.inl h1), fun h2 => h (Or.inr h2)⟩

/-! ## The common elements of two sequences -/

/-- C24: `findCommonElements s1 s2` is the subsequence of `s2` made of the elements
that occur in `s1`: it is a subsequence of `s2`, an element of `s1` occurs in it as
many times as in `s2` and any other element does not occur in it. Its length is at
most the length of `s2`, and it can exceed the length of `s1`: for `s1 = ["x"]` and
`s2 = ["x", "x", "x"]` the length is 3. -/
theorem findCommonElements_subsequence :
    (∀ s1 s2 : List GoString,
        findCommonElements s1 s2 = s2.filter (fun item => decide (item ∈ s1))
        ∧ List.Sublist (findCommonElements s1 s2) s2
        ∧ (∀ item, (findCommonElements s1 s2).count item
            = if item ∈ s1 then s2.count item else 0)
        ∧ (findCommonElements s1 s2).length ≤ s2.length)
      ∧ (findCommonElements ["x".toList] ["x".toList, "x".toList, "x".toList]).length = 3
      ∧ ["x".toList].length = 1 := by
  refine ⟨fun s1 s2 => ⟨rfl, List.filter_sublist _, fun item => ?_,
    List.length_filter_le _ _⟩, by decide, rfl⟩
  unfold findCommonElements
  simp only []
  by_cases h : item ∈ s1
  · rw [if_pos h, List.count_filter (by simpa using h)]
  · rw [if_neg h, List.count_eq_zero]
    intro hm
    rw [List.mem_filter] at hm
    exact h (by simpa using hm.2)

/-! ## The import list is at most one entry -/

theorem importBodyAt_no_newline (s body : GoString) (h : importBodyAt s = some body) :
    '\n' ∉ body := by
  unfold importBodyAt at h
  split at h
  · split at h
    · rename_i t _
      split at h
      · have hb : List.takeWhile (fun c => c != ')' && c != '\n') t = body := by
          simpa using h
        intro hm
        rw [← hb] at hm
        have := List.mem_takeWhile_imp hm
        simp at this
      · exact absurd h (by simp)
    · exact absurd h (by simp)
  · exact absurd h (by simp)

theorem findImportBody_no_newline (code body : GoString)
    (h : findImportBody code = some body) : '\n' ∉ body := by
  induction code with
  | nil => simp [findImportBody] at h
  | cons c cs ih =>
    rw [findImportBody] at h
    cases hb : importBodyAt (c :: cs) with
    | some b =>
      rw [hb] at h
      have : b = body := by simpa using h
      exact this ▸ importBodyAt_no_newline _ _ hb
    | none =>
      rw [hb] at h
      exact ih h

/-- C25: for every text and every language, the `ImportList` of `analyzeImports`
has at most one entry and its `UsagePatterns` is empty. -/
theorem analyzeImports_at_most_one (code language : GoString) :
    (analyzeImports code language).ImportList.length ≤ 1
      ∧ (analyzeImports code language).UsagePatterns = GoMap.empty
      ∧ (analyzeImports code language).UsagePatterns.len = 0 := by
  refine ⟨?_, rfl, rfl⟩
  unfold analyzeImports
  simp only []
  by_cases hl : language = "golang".toList
  · rw [if_pos hl]
    cases hb : findImportBody code with
    | none => simp
    | some body =>
      simp only []
      rw [Split_of_not_mem _ _ (findImportBody_no_newline code body hb)]
      exact List.length_filter_le _ _
  · rw [if_neg hl]
    simp

/-! ## Scores of the projects that the loader builds -/

theorem compareImports_zero : compareImports ⟨[], [], GoMap.empty⟩ ⟨[], [], GoMap.empty⟩
    = 100 / 3 := by
  have a : findCommonElements ([] : List GoString) [] = [] := rfl
  have b : (GoMap.empty : GoMap GoString).len = 0 := rfl
  simp only [compareImports, importMatches, a, b]
  norm_num

theorem loadedProject_some (tbl : Char → Char) (path projectName rawContent lang : GoString)
    (identifiers : Identifiers) (p : Project)
    (h : loadedProject tbl path projectName rawContent lang identifiers = some p) :
    p.ControlFlow = ⟨0, 0, 0, 0, 0, []⟩
      ∧ p.Functions = ⟨GoMap.empty, GoMap.empty, GoMap.empty, []⟩
      ∧ p.Imports = ⟨[], [], GoMap.empty⟩ ∧ p.Formatting = ⟨[], [], []⟩ := by
  unfold loadedProject at h
  cases hc : extractComments tbl rawContent lang with
  | none => rw [hc] at h; exact absurd h (by simp)
  | some comments =>
    rw [hc] at h
    have hp := Option.some.inj h
    subst hp
    exact ⟨rfl, rfl, rfl, rfl⟩

/-- C26: a project that the loader builds carries the zero values of `ControlFlow`,
`Functions`, `Imports` and `Formatting`, and for every two such projects
`compareProjects` returns `ControlFlowSimilarity = 100`, `FunctionSimilarity = 100`,
`ImportSimilarity = 100/3` and `FormatSimilarity = 100`, whatever the contents of
the two source files are. -/
theorem compareProjects_loaded (tbl : Char → Char)
    (path1 name1 raw1 lang1 path2 name2 raw2 lang2 : GoString) (ids1 ids2 : Identifiers)
    (p1 p2 : Project)
    (h1 : loadedProject tbl path1 name1 raw1 lang1 ids1 = some p1)
    (h2 : loadedProject tbl path2 name2 raw2 lang2 ids2 = some p2) :
    (p1.ControlFlow = zeroProject.ControlFlow ∧ p1.Functions = zeroProject.Functions
        ∧ p1.Imports = zeroProject.Imports ∧ p1.Formatting = zeroProject.Formatting)
      ∧ (p2.ControlFlow = zeroProject.ControlFlow ∧ p2.Functions = zeroProject.Functions
        ∧ p2.Imports = zeroProject.Imports ∧ p2.Formatting = zeroProject.Formatting)
      ∧ (compareProjects p1 p2).ControlFlowSimilarity = 100
      ∧ (compareProjects p1 p2).FunctionSimilarity = 100
      ∧ (compareProjects p1 p2).ImportSimilarity = 100 / 3
      ∧ (compareProjects p1 p2).FormatSimilarity = 100 := by
  obtain ⟨a1, b1, c1, d1⟩ := loadedProject_some _ _ _ _ _ _ _ h1
  obtain ⟨a2, b2, c2, d2⟩ := loadedProject_some _ _ _ _ _ _ _ h2
  refine ⟨⟨a1, b1, c1, d1⟩, ⟨a2, b2, c2, d2⟩, ?_, ?_, ?_, ?_⟩
  · show compareControlFlow p1.ControlFlow p2.ControlFlow = 100
    rw [a1, a2]; exact compareControlFlow_self _
  · show compareFunctions p1.Functions p2.Functions = 100
    rw [b1, b2]; exact compareFunctions_self _
  · show compareImports p1.Imports p2.Imports = 100 / 3
    rw [c1, c2]; exact compareImports_zero
  · show compareFormatting p1.Formatting p2.Formatting = 100
    rw [d1, d2]; exact compareFormatting_self _

theorem loadedA_eq :
    loadedProject latin1Lower "a/m.go".toList "a".toList "// c\nx := 1".toList
      "golang".toList ⟨["x".toList], [], [], [], []⟩ = some loadedA := by
  have hc : extractComments latin1Lower "// c\nx := 1".toList "golang".toList
      = some "c".toList := by decide
  have hn : normalizeCode latin1Lower "// c\nx := 1".toList "golang".toList
      = "x := 1".toList := by decide
  unfold loadedProject
  rw [hc]
  simp only [hn]
  rfl

theorem loadedB_eq :
    loadedProject latin1Lower "b/m.py".toList "b".toList "import os\nif y:".toList
      "python".toList ⟨[], [], [], [], []⟩ = some loadedB := by
  have hc : extractComments latin1Lower "import os\nif y:".toList "python".toList
      = some [] := by decide
  have hn : normalizeCode latin1Lower "import os\nif y:".toList "python".toList
      = "import os if y:".toList := by decide
  unfold loadedProject
  rw [hc]
  simp only [hn]
  rfl

theorem compareProjects_loaded_witness :
    loadedProject latin1Lower "a/m.go".toList "a".toList "// c\nx := 1".toList
        "golang".toList ⟨["x".toList], [], [], [], []⟩ = some loadedA
      ∧ loadedProject latin1Lower "b/m.py".toList "b".toList "import os\nif y:".toList
        "python".toList ⟨[], [], [], [], []⟩ = some loadedB
      ∧ (compareProjects loadedA loadedB).ControlFlowSimilarity = 100
      ∧ (compareProjects loadedA loadedB).FunctionSimilarity = 100
      ∧ (compareProjects loadedA loadedB).ImportSimilarity = 100 / 3
      ∧ (compareProjects loadedA loadedB).FormatSimilarity = 100 :=
  ⟨loadedA_eq, loadedB_eq,
    (compareProjects_loaded latin1Lower _ _ _ _ _ _ _ _ _ _ loadedA loadedB
      loadedA_eq loadedB_eq).2.2⟩

/-! ## The range of `compareImports` -/

end PlagiarismCheck
